import Mathlib

/-!
# stm32-blackboard: the software 3D renderer

A shallow embedding of the rendering core of the firmware
(`src/ILI9341/MathUtil.h`, `src/ILI9341/ILI9341Wrapper.h`, `src/Core/Inc/color.h`,
`src/3d/linalg.h`, `src/3d/3dPrimitives.h`, `src/3d/render.h`) and theorems about it.

Conventions.
* Machine integers are `Nat`/`Int` with explicit wrap-around (`wrapSigned`, `% 2^w`).
* `float`/`double` values are modelled by exact arithmetic: an ordered field with a floor
  function for the colour blending (so that it runs on `ℚ`), and `ℝ` for the geometry,
  which needs `sqrt`, `sin` and `cos`.
-/

namespace Blackboard

/-! ## Machine integers -/

/-- Two's-complement conversion of an integer to a signed type of `bits` bits. -/
def wrapSigned (bits : Nat) (n : Int) : Int :=
  (n + 2 ^ (bits - 1)) % 2 ^ bits - 2 ^ (bits - 1)

/-- Width of `int_fast8_t` and `uint_fast8_t`. The firmware is built with the
arm-none-eabi toolchain (newlib), where both fast 8-bit types are the 32-bit
`int` / `unsigned int`. -/
def fastBits : Nat := 32

/-- The cast `(int_fast8_t) n`. -/
def toIntFast8 (n : Int) : Int := wrapSigned fastBits n

section Colour

variable {K : Type*} [LinearOrderedField K] [FloorRing K]

/-- Conversion of a floating-point value to an integer: the fractional part is discarded
(rounding toward zero). -/
def truncToInt (x : K) : Int := if 0 ≤ x then ⌊x⌋ else ⌈x⌉

/-- Conversion of a floating-point value to `uint_fast8_t`. Values outside the range of the
type are undefined in C++; the Cortex-M conversion saturates, which is what is modelled. -/
def floatToUFast8 (x : K) : Nat := min (truncToInt x).toNat (2 ^ fastBits - 1)

/-- Models `lerp8` of MathUtil.h:
`return a + (int_fast8_t) ((int_fast8_t) b - (int_fast8_t) a) * progress;`
The sum and the product are floating-point operations; the result is converted to the
return type `uint_fast8_t`. -/
def lerp8 (a b : Nat) (progress : K) : Nat :=
  floatToUFast8 ((a : K) + ((toIntFast8 (toIntFast8 b - toIntFast8 a) : Int) : K) * progress)

/-- Models `color565` of MathUtil.h:
`return ((r & 0xF8) << 8) | ((g & 0xFC) << 3) | (b >> 3);` with `uint8_t` arguments and a
`uint16_t` result. -/
def color565 (r g b : Nat) : Nat :=
  (((r &&& 0xF8) <<< 8) ||| ((g &&& 0xFC) <<< 3) ||| (b >>> 3)) % 65536

/-- The red channel as `lerpCol` unpacks it: `(col & 0xf800) >> 8`, stored in a `uint8_t`. -/
def unpackR (col : Nat) : Nat := ((col &&& 0xf800) >>> 8) % 256

/-- The green channel as `lerpCol` unpacks it: `(col & 0x07e0) >> 3`, stored in a `uint8_t`. -/
def unpackG (col : Nat) : Nat := ((col &&& 0x07e0) >>> 3) % 256

/-- The blue channel as `lerpCol` unpacks it: `(col & 0x001f) << 3`, stored in a `uint8_t`. -/
def unpackB (col : Nat) : Nat := ((col &&& 0x001f) <<< 3) % 256

/-- Models `lerpCol` of MathUtil.h: unpack both colours, blend each channel with `lerp8`, store
each result in a `uint8_t` and repack with `color565`. -/
def lerpCol (col1 col2 : Nat) (progress : K) : Nat :=
  let baseR := unpackR col1
  let baseG := unpackG col1
  let baseB := unpackB col1
  let tgtR := unpackR col2
  let tgtG := unpackG col2
  let tgtB := unpackB col2
  let r := lerp8 baseR tgtR progress % 256
  let g := lerp8 baseG tgtG progress % 256
  let b := lerp8 baseB tgtB progress % 256
  color565 r g b

/-- Models `clamp` of MathUtil.h. -/
def clamp {T : Type*} [LT T] [DecidableRel (fun (a b : T) => a < b)] (value lo hi : T) : T :=
  if value < lo then lo else if value > hi then hi else value

end Colour

/-! ## Frame buffer (ILI9341Wrapper.h)

The pixel memory is addressed by the offset from `_buffer`. A drawing primitive is modelled
by the list of stores it performs, in program order. The `int` values are unbounded
integers: on the paths below (16-bit coordinates) no `int` operation overflows. -/

/-- The fields `_lx`, `_ly` and `_stride` of the wrapper. -/
structure ILI9341Wrapper where
  lx : Int
  ly : Int
  stride : Int

/-- The constructor `ILI9341Wrapper(fb, lx, ly)`, which sets `_stride = lx`. -/
def ILI9341Wrapper.mk' (lx ly : Int) : ILI9341Wrapper := ⟨lx, ly, lx⟩

/-- One store `_buffer[addr] = color`. -/
structure Store where
  addr : Int
  color : Nat
deriving DecidableEq

/-- The loop `while (w-- > 0) { (*p) = color; p++; }` of `drawFastHLine`, for a count that
is already clamped at zero. -/
def fillRow (color : Nat) : Nat → Int → List Store
  | 0, _ => []
  | n + 1, p => ⟨p, color⟩ :: fillRow color n (p + 1)

/-- Models `drawFastHLine(x, y, w, color)`. -/
def ILI9341Wrapper.drawFastHLine (fb : ILI9341Wrapper) (x y w : Int) (color : Nat) :
    List Store :=
  if y < 0 ∨ y ≥ fb.ly ∨ x ≥ fb.lx then []
  else
    let w1 := if x < 0 then w + x else w
    let x1 := if x < 0 then 0 else x
    let w2 := if x1 + w1 > fb.lx then fb.lx - x1 else w1
    fillRow color w2.toNat (x1 + y * fb.stride)

/-- Models `drawHLine(a, b, y, color)`. -/
def ILI9341Wrapper.drawHLine (fb : ILI9341Wrapper) (a b y : Int) (color : Nat) : List Store :=
  if b > a then fb.drawFastHLine a y (b - a) color else fb.drawFastHLine b y (a - b) color

/-- Conversion of an `int` to `int16_t`. -/
def toInt16 (n : Int) : Int := wrapSigned 16 n

/-- The value is representable as an `int16_t`. -/
def IsInt16 (n : Int) : Prop := -32768 ≤ n ∧ n ≤ 32767

instance (n : Int) : Decidable (IsInt16 n) := by
  unfold IsInt16
  infer_instance

/-- The stores of a run and whether the run came to its end within the given number of
loop tests. -/
structure Run where
  stores : List Store
  finished : Bool

/-- The vertex sort at the head of `drawFilledTriangle`: three compare-and-swap steps on
`(x0,y0)`, `(x1,y1)`, `(x2,y2)`. The result is `(x0, y0, x1, y1, x2, y2)`. -/
def sortVertices (x0 y0 x1 y1 x2 y2 : Int) : Int × Int × Int × Int × Int × Int :=
  let s1 : Int × Int × Int × Int := if y0 > y1 then (x1, y1, x0, y0) else (x0, y0, x1, y1)
  let x0 := s1.1
  let y0 := s1.2.1
  let x1 := s1.2.2.1
  let y1 := s1.2.2.2
  let s2 : Int × Int × Int × Int := if y1 > y2 then (x2, y2, x1, y1) else (x1, y1, x2, y2)
  let x1 := s2.1
  let y1 := s2.2.1
  let x2 := s2.2.2.1
  let y2 := s2.2.2.2
  let s3 : Int × Int × Int × Int := if y0 > y1 then (x1, y1, x0, y0) else (x0, y0, x1, y1)
  (s3.1, s3.2.1, s3.2.2.1, s3.2.2.2, x2, y2)

/-- A scanline loop of `drawFilledTriangle`:
`for (int16_t scanlineY = y; scanlineY <= yEnd; scanlineY++) { curx1 = m1 * scanlineY / 256 + b1;
curx2 = m2 * scanlineY / 256 + b2; drawHLine(curx1, curx2, scanlineY, color); }`.
The first argument bounds the number of loop tests; the counter is an `int16_t`, so the
increment wraps. -/
def ILI9341Wrapper.scanLoop (fb : ILI9341Wrapper) (m1 b1 m2 b2 yEnd : Int) (color : Nat) :
    Nat → Int → Run
  | 0, _ => ⟨[], false⟩
  | fuel + 1, scanlineY =>
    if scanlineY ≤ yEnd then
      let curx1 := toInt16 (Int.tdiv (m1 * scanlineY) 256 + b1)
      let curx2 := toInt16 (Int.tdiv (m2 * scanlineY) 256 + b2)
      let rest := fb.scanLoop m1 b1 m2 b2 yEnd color fuel (toInt16 (scanlineY + 1))
      ⟨fb.drawHLine curx1 curx2 scanlineY color ++ rest.stores, rest.finished⟩
    else ⟨[], true⟩

/-- Models `drawFilledTriangle(x0, y0, x1, y1, x2, y2, color)`, each of the two scanline loops run
for at most `fuel` loop tests. -/
def ILI9341Wrapper.drawFilledTriangle (fb : ILI9341Wrapper) (fuel : Nat)
    (x0 y0 x1 y1 x2 y2 : Int) (color : Nat) : Run :=
  let v := sortVertices x0 y0 x1 y1 x2 y2
  let x0 := v.1
  let y0 := v.2.1
  let x1 := v.2.2.1
  let y1 := v.2.2.2.1
  let x2 := v.2.2.2.2.1
  let y2 := v.2.2.2.2.2
  let m1 := toInt16 (Int.tdiv ((x1 - x0) * 256) (y1 - y0 + 1))
  let b1 := toInt16 (x0 - Int.tdiv (m1 * y0) 256)
  let m2 := toInt16 (Int.tdiv ((x2 - x0) * 256) (y2 - y0 + 1))
  let b2 := toInt16 (x0 - Int.tdiv (m2 * y0) 256)
  let first := fb.scanLoop m1 b1 m2 b2 y1 color fuel y0
  if first.finished then
    let m1 := toInt16 (Int.tdiv ((x2 - x1) * 256) (y2 - y1 + 1))
    let b1 := toInt16 (x1 - Int.tdiv (m1 * y1) 256)
    let second := fb.scanLoop m1 b1 m2 b2 y2 color fuel y1
    ⟨first.stores ++ second.stores, second.finished⟩
  else first

/-- The address is that of a pixel `(x, y)` of the buffer: `x + lx * y` with `0 ≤ x < lx`
and `0 ≤ y < ly`. -/
def ILI9341Wrapper.InBuffer (fb : ILI9341Wrapper) (addr : Int) : Prop :=
  ∃ x y : Int, 0 ≤ x ∧ x < fb.lx ∧ 0 ≤ y ∧ y < fb.ly ∧ addr = x + fb.lx * y

/-! ## Colour table (color.h) -/

/-- Conversion of a floating-point value to `uint16_t`. -/
def floatToU16 {K : Type*} [LinearOrderedField K] [FloorRing K] (x : K) : Nat :=
  (truncToInt x).toNat % 65536

/-- Models `mapColor` of color.h. -/
def mapColor {K : Type*} [LinearOrderedField K] [FloorRing K] (value : K) : Nat :=
  let hue := value * 5
  let rgb : K × K × K :=
    if hue < 1 then (hue, 0, 0)
    else if hue < 2 then (1, hue - 1, 0)
    else if hue < 3 then (3 - hue, 1, hue - 2)
    else if hue < 4 then (hue - 3, 4 - hue, 1)
    else (1, hue - 4, 1)
  ((floatToU16 (rgb.1 * 31) <<< 11) ||| (floatToU16 (rgb.2.1 * 63) <<< 5)
    ||| floatToU16 (rgb.2.2 * 31)) % 65536

/-! ## The `std::sort` of libstdc++ (bits/stl_algo.h, bits/stl_heap.h) -/

/-- The loop of `std::__lg`: the number of times `n` can be halved before it is below 2. The
first argument bounds the number of turns. -/
def lgAux : Nat → Nat → Nat
  | 0, _ => 0
  | fuel + 1, n => if n < 2 then 0 else lgAux fuel (n / 2) + 1

/-- Models `std::__lg(n)`: the position of the highest set bit of `n`, which is the integer
part of the binary logarithm. -/
def lg (n : Nat) : Nat := lgAux n n

section StdSort

variable {α : Type}

/-- Models `comp(i, j)` for two iterators into the range `l`, given by their positions. A
position outside the range compares as false. -/
def compAt (comp : α → α → Bool) (l : List α) (i j : Nat) : Bool :=
  match l[i]?, l[j]? with
  | some a, some b => comp a b
  | _, _ => false

/-- Models `std::iter_swap(i, j)` on the range `l`. -/
def iter_swap (l : List α) (i j : Nat) : List α :=
  match l[i]?, l[j]? with
  | some a, some b => (l.set i b).set j a
  | _, _ => l

/-- Models `std::__move_median_to_first(result, a, b, c, comp)`. -/
def move_median_to_first (comp : α → α → Bool) (l : List α) (result a b c : Nat) : List α :=
  if compAt comp l a b then
    if compAt comp l b c then iter_swap l result b
    else if compAt comp l a c then iter_swap l result c
    else iter_swap l result a
  else if compAt comp l a c then iter_swap l result a
  else if compAt comp l b c then iter_swap l result c
  else iter_swap l result b

/-- The loop `while (comp(first, pivot)) ++first;` of `__unguarded_partition`: the value of
`first` after it. The first argument bounds the number of steps; the loop stops at the end of
the range at the latest. -/
def partition_up (comp : α → α → Bool) (l : List α) (pivot : Nat) : Nat → Nat → Nat
  | 0, first => first
  | fuel + 1, first =>
    if compAt comp l first pivot then partition_up comp l pivot fuel (first + 1) else first

/-- The loop `while (comp(pivot, last)) --last;` of `__unguarded_partition`: the value of
`last` after it. The loop stops at the start of the range at the latest. -/
def partition_down (comp : α → α → Bool) (l : List α) (pivot : Nat) : Nat → Nat
  | 0 => 0
  | last + 1 =>
    if compAt comp l pivot (last + 1) then partition_down comp l pivot last else last + 1

/-- Models `std::__unguarded_partition(first, last, pivot, comp)`: the range after the swaps
and the returned position. The first argument bounds the number of turns of the outer loop. -/
def unguarded_partition (comp : α → α → Bool) (pivot : Nat) :
    Nat → List α → Nat → Nat → List α × Nat
  | 0, l, first, _ => (l, first)
  | fuel + 1, l, first, last =>
    let first := partition_up comp l pivot l.length first
    let last := last - 1
    let last := partition_down comp l pivot last
    if ¬ (first < last) then (l, first)
    else unguarded_partition comp pivot fuel (iter_swap l first last) (first + 1) last

/-- Models `std::__unguarded_partition_pivot(first, last, comp)` on the range `l`, with
`first` at position 0 and `last` at position `l.length`. -/
def unguarded_partition_pivot (comp : α → α → Bool) (l : List α) : List α × Nat :=
  let mid := l.length / 2
  let l := move_median_to_first comp l 0 1 mid (l.length - 1)
  unguarded_partition comp 0 l.length l 1 l.length

/-- Models `std::__push_heap(first, holeIndex, topIndex, value, comp)`. The first argument
bounds the number of turns of the loop. -/
def push_heap (comp : α → α → Bool) (topIndex : Nat) (value : α) :
    Nat → List α → Nat → List α
  | 0, l, holeIndex => l.set holeIndex value
  | fuel + 1, l, holeIndex =>
    let parent := (holeIndex - 1) / 2
    match l[parent]? with
    | some p =>
      if holeIndex > topIndex ∧ comp p value = true then
        push_heap comp topIndex value fuel (l.set holeIndex p) parent
      else l.set holeIndex value
    | none => l.set holeIndex value

/-- The `while` loop of `std::__adjust_heap`: the range, `holeIndex` and `secondChild` after
it. The first argument bounds the number of turns. -/
def adjust_heap_loop (comp : α → α → Bool) (len : Nat) :
    Nat → List α → Nat → Nat → List α × Nat × Nat
  | 0, l, holeIndex, secondChild => (l, holeIndex, secondChild)
  | fuel + 1, l, holeIndex, secondChild =>
    if secondChild < (len - 1) / 2 then
      let secondChild := 2 * (secondChild + 1)
      let secondChild :=
        if compAt comp l secondChild (secondChild - 1) then secondChild - 1 else secondChild
      match l[secondChild]? with
      | some x => adjust_heap_loop comp len fuel (l.set holeIndex x) secondChild secondChild
      | none => (l, holeIndex, secondChild)
    else (l, holeIndex, secondChild)

/-- Models `std::__adjust_heap(first, holeIndex, len, value, comp)`, for `len >= 1`. -/
def adjust_heap (comp : α → α → Bool) (l : List α) (holeIndex len : Nat) (value : α) :
    List α :=
  let topIndex := holeIndex
  let secondChild := holeIndex
  let s := adjust_heap_loop comp len l.length l holeIndex secondChild
  let l := s.1
  let holeIndex := s.2.1
  let secondChild := s.2.2
  if len % 2 = 0 ∧ secondChild = (len - 2) / 2 then
    let secondChild := 2 * (secondChild + 1)
    match l[secondChild - 1]? with
    | some x => push_heap comp topIndex value l.length (l.set holeIndex x) (secondChild - 1)
    | none => push_heap comp topIndex value l.length l holeIndex
  else push_heap comp topIndex value l.length l holeIndex

/-- Models `std::__pop_heap(first, last, result, comp)`, with `first` at position 0. -/
def pop_heap (comp : α → α → Bool) (l : List α) (last result : Nat) : List α :=
  match l[result]?, l[0]? with
  | some value, some top => adjust_heap comp (l.set result top) 0 last value
  | _, _ => l

/-- The loop of `std::__make_heap` from the given value of `parent` down to 0, for a range
of `len` elements. -/
def make_heap_loop (comp : α → α → Bool) (len : Nat) : Nat → List α → List α
  | 0, l =>
    match l[0]? with
    | some value => adjust_heap comp l 0 len value
    | none => l
  | parent + 1, l =>
    match l[parent + 1]? with
    | some value => make_heap_loop comp len parent (adjust_heap comp l (parent + 1) len value)
    | none => l

/-- Models `std::__make_heap(first, last, comp)` on the whole of `l`. -/
def make_heap (comp : α → α → Bool) (l : List α) : List α :=
  if l.length < 2 then l
  else
    let len := l.length
    let parent := (len - 2) / 2
    make_heap_loop comp len parent l

/-- Models `std::__sort_heap(first, last, comp)`, with `first` at position 0 and `last` at
the given position. -/
def sort_heap (comp : α → α → Bool) : Nat → List α → List α
  | 0, l => l
  | last + 1, l =>
    if last + 1 > 1 then sort_heap comp last (pop_heap comp l last last) else l

/-- Models `std::__partial_sort(first, last, last, comp)`, the call that
`__introsort_loop` makes: `__heap_select` is `__make_heap` alone, as its loop runs over the
empty range from `middle = last` to `last`, and `__sort_heap` follows. -/
def sort_by_heap (comp : α → α → Bool) (l : List α) : List α :=
  sort_heap comp l.length (make_heap comp l)

/-- Models `std::__introsort_loop(first, last, depth_limit, comp)` on the range `l`
(`_S_threshold = 16`). With `cut` the result of the partition, the recursive call works on
the part from `cut` on and the next turn of the `while` loop on the part before `cut`, both
with the decremented depth limit. -/
def introsort_loop (comp : α → α → Bool) : Nat → List α → List α
  | 0, l => if l.length > 16 then sort_by_heap comp l else l
  | depth_limit + 1, l =>
    if l.length > 16 then
      let r := unguarded_partition_pivot comp l
      introsort_loop comp depth_limit (r.1.take r.2)
        ++ introsort_loop comp depth_limit (r.1.drop r.2)
    else l

/-- Models `std::__unguarded_linear_insert(last, comp)` with `val = *last`. The argument is
the part of the range before `last`, the nearest element first; so is the result, with `val`
put in. Where the code would step in front of the range, the model puts `val` first. -/
def unguarded_linear_insert (comp : α → α → Bool) (val : α) : List α → List α
  | [] => [val]
  | next :: before =>
    if comp val next then next :: unguarded_linear_insert comp val before
    else val :: next :: before

/-- One turn of the loop of `std::__insertion_sort`: `done` is the range from `first` up to
`i`, `val = *i`, and the result is the range from `first` up to `i + 1`. -/
def insertion_sort_step (comp : α → α → Bool) (done : List α) (val : α) : List α :=
  match done with
  | [] => [val]
  | first :: _ =>
    if comp val first then val :: done
    else (unguarded_linear_insert comp val done.reverse).reverse

/-- Models `std::__insertion_sort(first, last, comp)` on the whole of `l`. -/
def insertion_sort (comp : α → α → Bool) (l : List α) : List α :=
  match l with
  | [] => []
  | first :: rest => rest.foldl (insertion_sort_step comp) [first]

/-- Models `std::__unguarded_insertion_sort(first, last, comp)`: `done` is the part of the
array before `first`, `l` the range from `first` to `last`. -/
def unguarded_insertion_sort (comp : α → α → Bool) (done l : List α) : List α :=
  l.foldl (fun done val => (unguarded_linear_insert comp val done.reverse).reverse) done

/-- Models `std::__final_insertion_sort(first, last, comp)` on the whole of `l`. -/
def final_insertion_sort (comp : α → α → Bool) (l : List α) : List α :=
  if l.length > 16 then
    unguarded_insertion_sort comp (insertion_sort comp (l.take 16)) (l.drop 16)
  else insertion_sort comp l

/-- Models `std::sort(first, last, comp)` as libstdc++ implements it (`std::__sort`):
`__introsort_loop` with depth limit `2 * __lg(last - first)`, then
`__final_insertion_sort`. -/
def stdSort (comp : α → α → Bool) (l : List α) : List α :=
  if l.length ≠ 0 then
    final_insertion_sort comp (introsort_loop comp (lg l.length * 2) l)
  else l

end StdSort

/-! ## Vectors, quaternions and matrices (the Eigen operations used by the renderer)

`double` is modelled by `ℝ`. -/

noncomputable section Geometry

/-- Models `Vec3d`. -/
structure Vec3 where
  x : ℝ
  y : ℝ
  z : ℝ

/-- Models `Vec2d`. -/
structure Vec2 where
  x : ℝ
  y : ℝ

namespace Vec3

/-- Models `a + b`. -/
def add (a b : Vec3) : Vec3 := ⟨a.x + b.x, a.y + b.y, a.z + b.z⟩

/-- Models `a - b`. -/
def sub (a b : Vec3) : Vec3 := ⟨a.x - b.x, a.y - b.y, a.z - b.z⟩

/-- Models `a.dot(b)`. -/
def dot (a b : Vec3) : ℝ := a.x * b.x + a.y * b.y + a.z * b.z

/-- Models `a.cross(b)`. -/
def cross (a b : Vec3) : Vec3 :=
  ⟨a.y * b.z - a.z * b.y, a.z * b.x - a.x * b.z, a.x * b.y - a.y * b.x⟩

/-- Models `a.squaredNorm()`. -/
def squaredNorm (a : Vec3) : ℝ := a.dot a

/-- Models `a.norm()`. -/
def norm (a : Vec3) : ℝ := Real.sqrt a.squaredNorm

/-- Models `a.normalized()`, also the effect of `a.normalize()`: Eigen divides by the norm when
the squared norm is positive and leaves the vector as it is otherwise. -/
def normalized (a : Vec3) : Vec3 :=
  if 0 < a.squaredNorm then
    ⟨a.x / Real.sqrt a.squaredNorm, a.y / Real.sqrt a.squaredNorm,
      a.z / Real.sqrt a.squaredNorm⟩
  else a

end Vec3

/-- Models `Eigen::Quaterniond`, coefficients `w`, `x`, `y`, `z`. -/
structure Quat where
  w : ℝ
  x : ℝ
  y : ℝ
  z : ℝ

/-- Models `Mat3d`, entry `mRC` in row `R` and column `C`. -/
structure Mat3 where
  m00 : ℝ
  m01 : ℝ
  m02 : ℝ
  m10 : ℝ
  m11 : ℝ
  m12 : ℝ
  m20 : ℝ
  m21 : ℝ
  m22 : ℝ

/-- Models `Quaterniond(AngleAxisd(angle, axis))`: `w = cos(angle/2)`, `vec = sin(angle/2) * axis`. -/
def Quat.ofAngleAxis (angle : ℝ) (axis : Vec3) : Quat :=
  ⟨Real.cos (angle / 2), Real.sin (angle / 2) * axis.x, Real.sin (angle / 2) * axis.y,
    Real.sin (angle / 2) * axis.z⟩

/-- Quaternion product `a * b`. -/
def Quat.mul (a b : Quat) : Quat :=
  ⟨a.w * b.w - a.x * b.x - a.y * b.y - a.z * b.z,
    a.w * b.x + a.x * b.w + a.y * b.z - a.z * b.y,
    a.w * b.y + a.y * b.w + a.z * b.x - a.x * b.z,
    a.w * b.z + a.z * b.w + a.x * b.y - a.y * b.x⟩

/-- Models `q.toRotationMatrix()`. -/
def Quat.toRotationMatrix (q : Quat) : Mat3 :=
  let tx := 2 * q.x
  let ty := 2 * q.y
  let tz := 2 * q.z
  let twx := tx * q.w
  let twy := ty * q.w
  let twz := tz * q.w
  let txx := tx * q.x
  let txy := ty * q.x
  let txz := tz * q.x
  let tyy := ty * q.y
  let tyz := tz * q.y
  let tzz := tz * q.z
  ⟨1 - (tyy + tzz), txy - twz, txz + twy,
    txy + twz, 1 - (txx + tzz), tyz - twx,
    txz - twy, tyz + twx, 1 - (txx + tyy)⟩

/-- Matrix-vector product. -/
def Mat3.mulVec (m : Mat3) (v : Vec3) : Vec3 :=
  ⟨m.m00 * v.x + m.m01 * v.y + m.m02 * v.z,
    m.m10 * v.x + m.m11 * v.y + m.m12 * v.z,
    m.m20 * v.x + m.m21 * v.y + m.m22 * v.z⟩

/-! ## linalg.h -/

/-- Models `Normal(p1, p2, p3)`. -/
def Normal (p1 p2 p3 : Vec3) : Vec3 := ((p2.sub p1).cross (p3.sub p1)).normalized

/-- Models `NormToPoint(t1, t2, t3, p)`. -/
def NormToPoint (t1 t2 t3 p : Vec3) : ℝ :=
  let normal := Normal t1 t2 t3
  let vecToP := (p.sub t1).normalized
  let facePoint := -(normal.dot vecToP)
  facePoint

/-! ## 3dPrimitives.h -/

/-- Models `FacesCamera(t1, t2, t3)` in exact real arithmetic; `F64.FacesCamera` is the same
function in the arithmetic of `double`. -/
def FacesCamera (t1 t2 t3 : Vec3) : Bool :=
  let normal := Normal t1 t2 t3
  let d := normal.dot t1
  decide (d > 0)

/-- The render record `Triangle`. -/
structure Triangle where
  p1 : Vec2
  p2 : Vec2
  p3 : Vec2
  distFromCamera : ℝ
  facesCamera : Bool
  col : Nat

/-- Models `Object::rotate(vertices, angles)`; the vertex matrix is given by its columns. -/
def Object.rotate {n : Nat} (vertices : Fin n → Vec3) (angles : Vec3) : Fin n → Vec3 :=
  let q_x := Quat.ofAngleAxis (angles.x * Real.pi / 180) ⟨1, 0, 0⟩
  let q_y := Quat.ofAngleAxis (angles.y * Real.pi / 180) ⟨0, 1, 0⟩
  let q_z := Quat.ofAngleAxis (angles.z * Real.pi / 180) ⟨0, 0, 1⟩
  fun i => ((q_z.mul q_y).mul q_x).toRotationMatrix.mulVec (vertices i)

/-- The fields `_centre` and `_rotation` of a `Cube`. -/
structure Cube where
  centre : Vec3
  rotation : Vec3

/-- Models `Cube::arrVert`, read as the columns of the 3 x 8 vertex matrix. -/
def Cube.arrVert : Fin 8 → Vec3
  | 0 => ⟨-0.5, -0.5, -0.5⟩
  | 1 => ⟨0.5, -0.5, -0.5⟩
  | 2 => ⟨0.5, 0.5, -0.5⟩
  | 3 => ⟨-0.5, 0.5, -0.5⟩
  | 4 => ⟨-0.5, -0.5, 0.5⟩
  | 5 => ⟨0.5, -0.5, 0.5⟩
  | 6 => ⟨0.5, 0.5, 0.5⟩
  | 7 => ⟨-0.5, 0.5, 0.5⟩

/-- Models `Cube::update(time)`, with `speed = 0.3`. -/
def Cube.update (c : Cube) (time : Nat) : Cube :=
  let speed : ℝ := 0.3
  { c with rotation := ⟨speed * 1 * time, speed * 2 * time, 30⟩ }

/-- The camera-space vertices `matPfc` of `Cube::getTriangles`:
`rotate(vertices, _rotation).colwise() + (_centre - camera)`. -/
def Cube.matPfc (c : Cube) (camera : Vec3) : Fin 8 → Vec3 :=
  fun i => (Object.rotate Cube.arrVert c.rotation i).add (c.centre.sub camera)

/-- The array `projectedVertices` of `Cube::getTriangles`. -/
def Cube.projectedVertices (matPfc : Fin 8 → Vec3) : Fin 8 → Vec2 :=
  fun i => ⟨(matPfc i).x / (matPfc i).z, (matPfc i).y / (matPfc i).z⟩

/-- The body of the `if` in the lambda `makeTri` of `Cube::getTriangles`: the lighting of
the colour toward white, the depth fade toward black, and the record that is pushed. -/
def Cube.shade (matPfc : Fin 8 → Vec3) (projectedVertices : Fin 8 → Vec2)
    (i j k : Fin 8) (col : Nat) (facesCamera : Bool) : Triangle :=
  let facesLight := max 0 (NormToPoint (matPfc i) (matPfc j) (matPfc k) ⟨2, 2, 0⟩)
  let col := lerpCol col 0xffff (facesLight / 2)
  let dist := (matPfc k).z
  let fade := clamp (Real.sqrt (dist / 20)) 0 2 / 2
  let col := lerpCol col 0 fade
  ⟨projectedVertices i, projectedVertices j, projectedVertices k, dist, facesCamera, col⟩

/-- The lambda `makeTri` of `Cube::getTriangles`; the vector `triangles` it appends to is
passed in and returned. -/
def Cube.makeTri (matPfc : Fin 8 → Vec3) (projectedVertices : Fin 8 → Vec2)
    (triangles : List Triangle) (i j k : Fin 8) (col : Nat) : List Triangle :=
  let facesCamera := FacesCamera (matPfc i) (matPfc j) (matPfc k)
  if facesCamera then
    triangles ++ [Cube.shade matPfc projectedVertices i j k col facesCamera]
  else triangles

/-- Models `Cube::getTriangles(camera)`. -/
def Cube.getTriangles (c : Cube) (camera : Vec3) : List Triangle :=
  let matPfc := c.matPfc camera
  let projectedVertices := Cube.projectedVertices matPfc
  let triangles : List Triangle := []
  let triangles := Cube.makeTri matPfc projectedVertices triangles 0 1 2 (mapColor (0.2 : ℚ))
  let triangles := Cube.makeTri matPfc projectedVertices triangles 2 3 0 (mapColor (0.2 : ℚ))
  let triangles := Cube.makeTri matPfc projectedVertices triangles 1 5 6 (mapColor (0.3 : ℚ))
  let triangles := Cube.makeTri matPfc projectedVertices triangles 6 2 1 (mapColor (0.3 : ℚ))
  let triangles := Cube.makeTri matPfc projectedVertices triangles 7 6 5 (mapColor (0.4 : ℚ))
  let triangles := Cube.makeTri matPfc projectedVertices triangles 5 4 7 (mapColor (0.4 : ℚ))
  let triangles := Cube.makeTri matPfc projectedVertices triangles 4 0 3 (mapColor (0.5 : ℚ))
  let triangles := Cube.makeTri matPfc projectedVertices triangles 3 7 4 (mapColor (0.5 : ℚ))
  let triangles := Cube.makeTri matPfc projectedVertices triangles 4 5 1 (mapColor (0.6 : ℚ))
  let triangles := Cube.makeTri matPfc projectedVertices triangles 1 0 4 (mapColor (0.6 : ℚ))
  let triangles := Cube.makeTri matPfc projectedVertices triangles 3 2 6 (mapColor (0.7 : ℚ))
  let triangles := Cube.makeTri matPfc projectedVertices triangles 6 7 3 (mapColor (0.7 : ℚ))
  triangles

/-- The faces of the cube in the order of the `makeTri` calls: vertex indices and the
argument of `mapColor`. -/
def Cube.faces : List (Fin 8 × Fin 8 × Fin 8 × ℚ) :=
  [(0, 1, 2, 0.2), (2, 3, 0, 0.2), (1, 5, 6, 0.3), (6, 2, 1, 0.3), (7, 6, 5, 0.4),
    (5, 4, 7, 0.4), (4, 0, 3, 0.5), (3, 7, 4, 0.5), (4, 5, 1, 0.6), (1, 0, 4, 0.6),
    (3, 2, 6, 0.7), (6, 7, 3, 0.7)]

/-! ## render.h -/

/-- The sort of `Render::perFrame`: `std::sort` with the comparison
`t1.distFromCamera > t2.distFromCamera`. -/
def Render.sortTriangles (triangles : List Triangle) : List Triangle :=
  stdSort (fun t1 t2 => decide (t1.distFromCamera > t2.distFromCamera)) triangles

/-- The fields `_time` and `_scene` of `Render`. -/
structure Render where
  time : Nat
  scene : List Cube

/-- The centres of the nine cubes that the constructor of `Render` puts in the scene. -/
def Render.centres : List Vec3 :=
  [⟨-3, -3, 6⟩, ⟨0, -3, 6⟩, ⟨3, -3, 6⟩, ⟨-3, 0, 6⟩, ⟨0, 0, 6⟩, ⟨3, 0, 6⟩, ⟨-3, 3, 6⟩,
    ⟨0, 3, 6⟩, ⟨3, 3, 6⟩]

/-- The camera position that `Render::perFrame` computes from `_time`. -/
def Render.camera (time : Nat) : Vec3 :=
  ⟨4.0 * Real.sin (time * Real.pi / 180.0),
    4.0 * Real.sin (5e8 + 0.77 * time * Real.pi / 180.0),
    2.0 + 2.0 * Real.cos (0.3 * time * Real.pi / 180.0)⟩

/-- The loop of `Render::perFrame` over the scene: every object is updated and its
triangles are appended to the list. -/
def Render.collect (time : Nat) (camera : Vec3) : List Cube → List Cube × List Triangle
  | [] => ([], [])
  | o :: rest =>
    let o1 := o.update time
    let newTri := o1.getTriangles camera
    let r := Render.collect time camera rest
    (o1 :: r.1, newTri ++ r.2)

/-- Models `Render::perFrame` up to and including the sort: the new state and the sorted list
that the drawing loop then walks through. `_time` is a `uint32_t`. -/
def Render.perFrame (r : Render) : Render × List Triangle :=
  let time := (r.time + 1) % 2 ^ 32
  let camera := Render.camera time
  let c := Render.collect time camera r.scene
  (⟨time, c.1⟩, Render.sortTriangles c.2)

end Geometry

/-! ## Pixel access and buffer contents (ILI9341Wrapper.h) -/

/-- Models `drawPixel(x, y, color)`. -/
def ILI9341Wrapper.drawPixel (fb : ILI9341Wrapper) (x y : Int) (color : Nat) : List Store :=
  if x < 0 ∨ y < 0 ∨ x ≥ fb.lx ∨ y ≥ fb.ly then []
  else [⟨x + fb.stride * y, color⟩]

/-- Models `readPixel(x, y)` on the pixel memory `mem`. -/
def ILI9341Wrapper.readPixel (fb : ILI9341Wrapper) (mem : Int → Nat) (x y : Int) : Nat :=
  if x < 0 ∨ y < 0 ∨ x ≥ fb.lx ∨ y ≥ fb.ly then 0
  else mem (x + fb.stride * y)

/-- The pixel memory after a list of stores, performed from left to right. -/
def applyStores (mem : Int → Nat) : List Store → Int → Nat
  | [] => mem
  | s :: rest => applyStores (fun a => if a = s.addr then s.color else mem a) rest

/-- The depth fade of `makeTri` as a function of the depth:
`clamp(sqrt(dist/20), 0.0, 2.0)/2`. -/
noncomputable def Cube.fade (dist : ℝ) : ℝ := clamp (Real.sqrt (dist / 20)) 0 2 / 2

/-! ## Procedural noise (pixelShader.h)

`double` is modelled by an ordered field with a floor function, so that the noise can be
evaluated on `ℚ`. -/

/-- The table `p`: `const int p[512]` with 256 initialisers; the elements without an
initialiser are zero. -/
def p : List Int :=
  [
    151, 160, 137, 91, 90, 15, 131, 13, 201, 95, 96, 53, 194, 233, 7, 225,
    140, 36, 103, 30, 69, 142, 8, 99, 37, 240, 21, 10, 23, 190, 6, 148,
    247, 120, 234, 75, 0, 26, 197, 62, 94, 252, 219, 203, 117, 35, 11, 32,
    57, 177, 33, 88, 237, 149, 56, 87, 174, 20, 125, 136, 171, 168, 68, 175,
    74, 165, 71, 134, 139, 48, 27, 166, 77, 146, 158, 231, 83, 111, 229, 122,
    60, 211, 133, 230, 220, 105, 92, 41, 55, 46, 245, 40, 244, 102, 143, 54,
    65, 25, 63, 161, 1, 216, 80, 73, 209, 76, 132, 187, 208, 89, 18, 169,
    200, 196, 135, 130, 116, 188, 159, 86, 164, 100, 109, 198, 173, 186, 3, 64,
    52, 217, 226, 250, 124, 123, 5, 202, 38, 147, 118, 126, 255, 82, 85, 212,
    207, 206, 59, 227, 47, 16, 58, 17, 182, 189, 28, 42, 223, 183, 170, 213,
    119, 248, 152, 2, 44, 154, 163, 70, 221, 153, 101, 155, 167, 43, 172, 9,
    129, 22, 39, 253, 19, 98, 108, 110, 79, 113, 224, 232, 178, 185, 112, 104,
    218, 246, 97, 228, 251, 34, 242, 193, 238, 210, 144, 12, 191, 179, 162, 241,
    81, 51, 145, 235, 249, 14, 239, 107, 49, 192, 214, 31, 181, 199, 106, 157,
    184, 84, 204, 176, 115, 121, 50, 45, 127, 4, 150, 254, 138, 236, 205, 93,
    222, 114, 67, 29, 24, 72, 243, 141, 128, 195, 78, 66, 215, 61, 156, 180]
    ++ List.replicate 256 0

/-- The read `p[i]`; there is no element outside `0..511`. -/
def readP (i : Int) : Option Int :=
  if 0 ≤ i then p[i.toNat]? else none

/-- Models `Vec4d`. -/
structure Vec4 (K : Type*) where
  v0 : K
  v1 : K
  v2 : K
  v3 : K

section Noise

variable {K : Type*} [LinearOrderedField K] [FloorRing K]

/-- Models `taylorInvSqrt(r)`, on one coefficient. -/
def taylorInvSqrt (r : K) : K := 1.79284291400159 - 0.85373472095314 * r

/-- One coefficient of `permute`: `p[int(x) % 256]`, with the remainder of C++ (sign of the
dividend). -/
def permute1 (x : K) : Option K :=
  (readP (Int.tmod (truncToInt x) 256)).map (fun (v : Int) => (v : K))

/-- Models `permute(x)`. -/
def permute (x : Vec4 K) : Option (Vec4 K) := do
  let y0 ← permute1 x.v0
  let y1 ← permute1 x.v1
  let y2 ← permute1 x.v2
  let y3 ← permute1 x.v3
  pure ⟨y0, y1, y2, y3⟩

/-- The gradient built from one hash value `i` in `cnoise`: `gx = fract(i * (1.0 / 41.0)) * 2.0
- 1.0`, `gy = abs(gx) - 0.5`, `tx = floor(gx + 0.5)`, `gx = gx - tx`, and the scaling by
`taylorInvSqrt(g.dot(g))`. -/
def gradient (i : K) : K × K :=
  let v := i * (1.0 / 41.0)
  let gx := (v - (⌊v⌋ : K)) * 2.0 - 1.0
  let gy := |gx| - 0.5
  let tx : K := (⌊gx + 0.5⌋ : K)
  let gx := gx - tx
  let norm := taylorInvSqrt (gx * gx + gy * gy)
  (gx * norm, gy * norm)

/-- Models `lerp<T>(a, b, progress)` of MathUtil.h on a scalar: `a + (b - a) * progress`. -/
def lerp (a b progress : K) : K := a + (b - a) * progress

/-- Models `cnoise(P)`. The result is `none` when a read of the table `p` falls outside the
table. -/
def cnoise (P : K × K) : Option K := do
  let fl0 : K := (⌊P.1⌋ : K)
  let fl1 : K := (⌊P.2⌋ : K)
  let Pi : Vec4 K := ⟨fl0 + 0.0, fl1 + 0.0, fl0 + 1.0, fl1 + 1.0⟩
  let Pf : Vec4 K := ⟨fl0 - 0.0, fl1 - 0.0, fl0 - 1.0, fl1 - 1.0⟩
  let Pi : Vec4 K := ⟨(Int.tmod (truncToInt Pi.v0) 289 : Int), (Int.tmod (truncToInt Pi.v1) 289 : Int),
    (Int.tmod (truncToInt Pi.v2) 289 : Int), (Int.tmod (truncToInt Pi.v3) 289 : Int)⟩
  let ix : Vec4 K := ⟨Pi.v0, Pi.v2, Pi.v0, Pi.v2⟩
  let iy : Vec4 K := ⟨Pi.v1, Pi.v1, Pi.v3, Pi.v3⟩
  let fx : Vec4 K := ⟨Pf.v0, Pf.v2, Pf.v0, Pf.v2⟩
  let fy : Vec4 K := ⟨Pf.v1, Pf.v1, Pf.v3, Pf.v3⟩
  let h ← permute ix
  let i ← permute ⟨h.v0 + iy.v0, h.v1 + iy.v1, h.v2 + iy.v2, h.v3 + iy.v3⟩
  let g00 := gradient i.v0
  let g10 := gradient i.v1
  let g01 := gradient i.v2
  let g11 := gradient i.v3
  let n00 := g00.1 * fx.v0 + g00.2 * fy.v0
  let n10 := g10.1 * fx.v1 + g10.2 * fy.v1
  let n01 := g01.1 * fx.v2 + g01.2 * fy.v2
  let n11 := g11.1 * fx.v3 + g11.2 * fy.v3
  let fade_xy : K × K := (1, 0.9999)
  let n_x : K × K := (lerp n00 n10 fade_xy.1, lerp n01 n11 fade_xy.1)
  let n_xy := lerp n_x.1 n_x.2 fade_xy.2
  pure (2.3 * n_xy)

end Noise

/-! ## The guarantee of `std::sort` -/

/-- What the C++ standard promises of `std::sort(first, last, comp)`: afterwards the range
holds a rearrangement of its previous elements, and no element is followed by one that `comp`
puts before it. The relative order of equivalent elements is left open (only
`std::stable_sort` preserves it). -/
def StdSortPost {α : Type} (comp : α → α → Bool) (input output : List α) : Prop :=
  output.Perm input ∧ output.Pairwise (fun a b => comp b a = false)

/-- The comparison that `Render::perFrame` passes to `std::sort`:
`t1.distFromCamera > t2.distFromCamera`. -/
noncomputable def Render.comp (t1 t2 : Triangle) : Bool :=
  decide (t1.distFromCamera > t2.distFromCamera)

/-- Stability of a sort of triangles: for every depth, the triangles of that depth come in
the output in the order in which they come in the input. -/
def StableOrder (input output : List Triangle) : Prop :=
  ∀ d : ℝ, output.filter (fun t => decide (t.distFromCamera = d))
    = input.filter (fun t => decide (t.distFromCamera = d))

/-! ## The frame in which the frame counter wraps to 0 -/

/-- The record that the lambda `makeTri` pushes for the face `f` of the cube `c` seen from
`camera`, when the face passes the facing test. -/
noncomputable def Cube.record (c : Cube) (camera : Vec3) (f : Fin 8 × Fin 8 × Fin 8 × ℚ) :
    Triangle :=
  Cube.shade (c.matPfc camera) (Cube.projectedVertices (c.matPfc camera)) f.1 f.2.1 f.2.2.1
    (mapColor f.2.2.2) true

/-- The scene that the constructor of `Render` builds: a cube at each of `Render.centres`,
with `_rotation` zero. -/
noncomputable def Render.scene0 : List Cube := Render.centres.map (fun c => ⟨c, ⟨0, 0, 0⟩⟩)

/-- The faces that pass the facing test in the frame with `_time = 0`, cube by cube in scene
order (proved in `collect_wrapFrame`). -/
def Render.wrapFrameFaces : List (List (Fin 8 × Fin 8 × Fin 8 × ℚ)) :=
  [[(0, 1, 2, 0.2), (2, 3, 0, 0.2), (1, 5, 6, 0.3), (6, 2, 1, 0.3)],
    [(0, 1, 2, 0.2), (2, 3, 0, 0.2), (1, 5, 6, 0.3), (6, 2, 1, 0.3),
      (3, 2, 6, 0.7), (6, 7, 3, 0.7)],
    [(0, 1, 2, 0.2), (2, 3, 0, 0.2), (4, 0, 3, 0.5), (3, 7, 4, 0.5),
      (3, 2, 6, 0.7), (6, 7, 3, 0.7)],
    [(0, 1, 2, 0.2), (2, 3, 0, 0.2), (1, 5, 6, 0.3), (6, 2, 1, 0.3),
      (4, 5, 1, 0.6), (1, 0, 4, 0.6)],
    [(0, 1, 2, 0.2), (2, 3, 0, 0.2), (4, 0, 3, 0.5), (3, 7, 4, 0.5),
      (4, 5, 1, 0.6), (1, 0, 4, 0.6)],
    [(0, 1, 2, 0.2), (2, 3, 0, 0.2), (4, 0, 3, 0.5), (3, 7, 4, 0.5),
      (3, 2, 6, 0.7), (6, 7, 3, 0.7)],
    [(0, 1, 2, 0.2), (2, 3, 0, 0.2), (1, 5, 6, 0.3), (6, 2, 1, 0.3),
      (4, 5, 1, 0.6), (1, 0, 4, 0.6)],
    [(0, 1, 2, 0.2), (2, 3, 0, 0.2), (4, 0, 3, 0.5), (3, 7, 4, 0.5),
      (4, 5, 1, 0.6), (1, 0, 4, 0.6)],
    [(0, 1, 2, 0.2), (2, 3, 0, 0.2), (4, 0, 3, 0.5), (3, 7, 4, 0.5),
      (4, 5, 1, 0.6), (1, 0, 4, 0.6)]]

/-- The emission list of the frame with `_time = 0` as pairs of the position of the cube in
the scene and the face. -/
def Render.wrapFrameEmission : List (Nat × (Fin 8 × Fin 8 × Fin 8 × ℚ)) :=
  (Render.wrapFrameFaces.enum.map (fun cf => cf.2.map (fun f => (cf.1, f)))).flatten

/-- The record of the frame with `_time = 0` for the face `e.2` of the cube at position
`e.1` of the scene. -/
noncomputable def Render.wrapFrameRecord (e : Nat × (Fin 8 × Fin 8 × Fin 8 × ℚ)) :
    Triangle :=
  Cube.record ((⟨Render.centres.getD e.1 ⟨0, 0, 6⟩, ⟨0, 0, 0⟩⟩ : Cube).update 0)
    (Render.camera 0) e.2

/-- The comparison of `Render::perFrame` on the records of the frame with `_time = 0`: the
depth is that of the third vertex, `2.5` for the template vertices 4 to 7 and `1.5` for the
vertices 0 to 3. -/
def Render.wrapFrameComp (a b : Nat × (Fin 8 × Fin 8 × Fin 8 × ℚ)) : Bool :=
  decide (4 ≤ a.2.2.2.1.val ∧ b.2.2.2.1.val < 4)

/-! ## Vertical fills and lines (ILI9341Wrapper.h) -/

/-- The loop `while (h-- > 0) { (*p) = color; p += _stride; }` of `drawFastVLine`, for a
count that is already clamped at zero. -/
def fillCol (color : Nat) (stride : Int) : Nat → Int → List Store
  | 0, _ => []
  | n + 1, p => ⟨p, color⟩ :: fillCol color stride n (p + stride)

/-- Models `drawFastVLine(x, y, h, color)`. -/
def ILI9341Wrapper.drawFastVLine (fb : ILI9341Wrapper) (x y h : Int) (color : Nat) :
    List Store :=
  if x < 0 ∨ x ≥ fb.lx ∨ y ≥ fb.ly then []
  else
    let h1 := if y < 0 then h + y else h
    let y1 := if y < 0 then 0 else y
    let h2 := if y1 + h1 > fb.ly then fb.ly - y1 else h1
    fillCol color fb.stride h2.toNat (x + y1 * fb.stride)

/-- Models `drawVLine(a, b, x, color)`:
`if (b > a) drawFastVLine(a, x, b - a, color); else drawFastVLine(b, x, a - b, color);`. -/
def ILI9341Wrapper.drawVLine (fb : ILI9341Wrapper) (a b x : Int) (color : Nat) : List Store :=
  if b > a then fb.drawFastVLine a x (b - a) color else fb.drawFastVLine b x (a - b) color

/-- Models `abs` on `int`. -/
def cabs (n : Int) : Int := if n < 0 then -n else n

/-- The variables that the loop of `drawLine` changes, with the stores made so far and
whether the loop has come to its end. -/
structure LineState where
  stores : List Store
  x0 : Int
  y0 : Int
  err : Int
  xbegin : Int
  finished : Bool

/-- The loop `for (; x0 <= x1; x0++)` of `drawLine`, in its `steep` and its flat variant; the
first argument bounds the number of loop tests. -/
def ILI9341Wrapper.lineLoop (fb : ILI9341Wrapper) (steep : Bool) (dx dy ystep x1 : Int)
    (color : Nat) : Nat → Int → Int → Int → Int → LineState
  | 0, x0, y0, err, xbegin => ⟨[], x0, y0, err, xbegin, false⟩
  | fuel + 1, x0, y0, err, xbegin =>
    if x0 ≤ x1 then
      let err := err - dy
      if err < 0 then
        let len := x0 - xbegin
        let drawn :=
          if len ≠ 0 then
            (if steep then fb.drawFastVLine y0 xbegin (len + 1) color
              else fb.drawFastHLine xbegin y0 (len + 1) color)
          else (if steep then fb.drawPixel y0 x0 color else fb.drawPixel x0 y0 color)
        let rest := fb.lineLoop steep dx dy ystep x1 color fuel (x0 + 1) (y0 + ystep)
          (err + dx) (x0 + 1)
        { rest with stores := drawn ++ rest.stores }
      else fb.lineLoop steep dx dy ystep x1 color fuel (x0 + 1) y0 err xbegin
    else ⟨[], x0, y0, err, xbegin, true⟩

/-- Models `drawLine(x0, y0, x1, y1, color)`; the loop is run for at most `fuel` loop tests. -/
def ILI9341Wrapper.drawLine (fb : ILI9341Wrapper) (fuel : Nat) (x0 y0 x1 y1 : Int)
    (color : Nat) : Run :=
  if y0 = y1 then
    if x1 > x0 then ⟨fb.drawFastHLine x0 y0 (x1 - x0 + 1) color, true⟩
    else if x1 < x0 then ⟨fb.drawFastHLine x1 y0 (x0 - x1 + 1) color, true⟩
    else ⟨fb.drawPixel x0 y0 color, true⟩
  else if x0 = x1 then
    if y1 > y0 then ⟨fb.drawFastVLine x0 y0 (y1 - y0 + 1) color, true⟩
    else ⟨fb.drawFastVLine x0 y1 (y0 - y1 + 1) color, true⟩
  else
    let steep : Bool := decide (cabs (y1 - y0) > cabs (x1 - x0))
    let s1 : Int × Int × Int × Int := if steep then (y0, x0, y1, x1) else (x0, y0, x1, y1)
    let s2 : Int × Int × Int × Int :=
      if s1.1 > s1.2.2.1 then (s1.2.2.1, s1.2.2.2, s1.1, s1.2.1) else s1
    let x0 := s2.1
    let y0 := s2.2.1
    let x1 := s2.2.2.1
    let y1 := s2.2.2.2
    let dx := x1 - x0
    let dy := cabs (y1 - y0)
    let err := Int.tdiv dx 2
    let ystep : Int := if y0 < y1 then 1 else -1
    let xbegin := x0
    let l := fb.lineLoop steep dx dy ystep x1 color fuel x0 y0 err xbegin
    if l.finished then
      let tail :=
        if l.x0 > l.xbegin + 1 then
          (if steep then fb.drawFastVLine l.y0 l.xbegin (l.x0 - l.xbegin) color
            else fb.drawFastHLine l.xbegin l.y0 (l.x0 - l.xbegin) color)
        else []
      ⟨l.stores ++ tail, true⟩
    else ⟨l.stores, false⟩

/-! ## The table reads of `cnoise` -/

/-- The index with which `permute` reads the table for one coefficient `x`:
`int(x) % 256`. -/
def permuteIndex {K : Type*} [LinearOrderedField K] [FloorRing K] (x : K) : Int :=
  Int.tmod (truncToInt x) 256

/-- The coefficients of a `Vec4d`. -/
def Vec4.toList {K : Type*} (v : Vec4 K) : List K := [v.v0, v.v1, v.v2, v.v3]

/-- The vector `Pi` of `cnoise` after the reduction `(int)x % 289`. -/
def cnoisePi {K : Type*} [LinearOrderedField K] [FloorRing K] (P : K × K) : Vec4 K :=
  let fl0 : K := (⌊P.1⌋ : K)
  let fl1 : K := (⌊P.2⌋ : K)
  ⟨(Int.tmod (truncToInt (fl0 + 0.0)) 289 : Int), (Int.tmod (truncToInt (fl1 + 0.0)) 289 : Int),
    (Int.tmod (truncToInt (fl0 + 1.0)) 289 : Int), (Int.tmod (truncToInt (fl1 + 1.0)) 289 : Int)⟩

/-- The vector `ix` of `cnoise`, the argument of the inner `permute`. -/
def cnoiseIx {K : Type*} [LinearOrderedField K] [FloorRing K] (P : K × K) : Vec4 K :=
  ⟨(cnoisePi P).v0, (cnoisePi P).v2, (cnoisePi P).v0, (cnoisePi P).v2⟩

/-- The vector `iy` of `cnoise`. -/
def cnoiseIy {K : Type*} [LinearOrderedField K] [FloorRing K] (P : K × K) : Vec4 K :=
  ⟨(cnoisePi P).v1, (cnoisePi P).v1, (cnoisePi P).v3, (cnoisePi P).v3⟩

/-! ## Opposite faces of the cube -/

/-- The signed facing value that `FacesCamera` compares with zero:
`Normal(t1, t2, t3).dot(t1)`. -/
noncomputable def facingValue (t1 t2 t3 : Vec3) : ℝ := (Normal t1 t2 t3).dot t1

/-- The pairs of declared triangles that lie on opposite faces of the cube: the faces
`z = -0.5` and `z = 0.5`, `x = 0.5` and `x = -0.5`, `y = -0.5` and `y = 0.5`. -/
def Cube.oppositeTriangles : List ((Fin 8 × Fin 8 × Fin 8) × (Fin 8 × Fin 8 × Fin 8)) :=
  [((0, 1, 2), (7, 6, 5)), ((0, 1, 2), (5, 4, 7)), ((2, 3, 0), (7, 6, 5)),
    ((2, 3, 0), (5, 4, 7)), ((1, 5, 6), (4, 0, 3)), ((1, 5, 6), (3, 7, 4)),
    ((6, 2, 1), (4, 0, 3)), ((6, 2, 1), (3, 7, 4)), ((4, 5, 1), (3, 2, 6)),
    ((4, 5, 1), (6, 7, 3)), ((1, 0, 4), (3, 2, 6)), ((1, 0, 4), (6, 7, 3))]

/-! ## The type `double` (IEEE 754 binary64)

A second embedding of `Normal` and `FacesCamera`, with the arithmetic of the type `double`:
every operation gives the exact result rounded to the nearest `double`, each operation on its
own (the products and sums are not fused). -/

namespace F64

/-- The power `2 ^ k` for an integer exponent `k`. -/
def pow2 (k : Int) : ℚ :=
  if 0 ≤ k then ((2 ^ k.toNat : Nat) : ℚ) else 1 / ((2 ^ (-k).toNat : Nat) : ℚ)

/-- The binary exponent of a non-zero rational `q`: the integer `e` with
`2 ^ e ≤ |q| < 2 ^ (e + 1)`. The difference of the bit lengths of numerator and denominator is
`e` or `e + 1`. -/
def exponent (q : ℚ) : Int :=
  let e : Int := (lg q.num.natAbs : Int) - (lg q.den : Int)
  if pow2 e ≤ |q| then e else e - 1

/-- The integer nearest to `x`; of two nearest integers the even one. -/
def roundHalfEven (x : ℚ) : Int :=
  let f := ⌊x⌋
  if x - f < 1 / 2 then f
  else if 1 / 2 < x - f then f + 1
  else if f % 2 = 0 then f else f + 1

/-- Models the rounding of an exact result to a `double`: IEEE 754 binary64 has 53
significant bits and the default rounding is to the nearest value, ties to even. The values
of the type are modelled by the rationals they stand for; the exponent range is not bounded
(no overflow, no subnormal numbers, no NaN). -/
def round (q : ℚ) : ℚ :=
  if q = 0 then 0
  else
    let ulp := pow2 (exponent q - 52)
    (roundHalfEven (q / ulp) : ℚ) * ulp

/-- Models `a + b` on `double`. -/
def add (a b : ℚ) : ℚ := round (a + b)

/-- Models `a - b` on `double`. -/
def sub (a b : ℚ) : ℚ := round (a - b)

/-- Models `a * b` on `double`. -/
def mul (a b : ℚ) : ℚ := round (a * b)

/-- Models `a / b` on `double`, for `b` other than zero. -/
def div (a b : ℚ) : ℚ := round (a / b)

/-- The digits of the integer square root below bit `k`, found from the top: `r` grows by
`2 ^ k` whenever the square stays at most `n`. -/
def isqrtAux (n : Nat) : Nat → Nat → Nat
  | 0, r => r
  | k + 1, r => if (r + 2 ^ k) * (r + 2 ^ k) ≤ n then isqrtAux n k (r + 2 ^ k) else isqrtAux n k r

/-- The integer square root: the largest `r` with `r * r ≤ n`. -/
def isqrt (n : Nat) : Nat := isqrtAux n (lg n / 2 + 1) 0

/-- Models `sqrt(a)` on `double` for `a > 0`: the double nearest to the exact square root
(IEEE 754 requires the correctly rounded result). With `2 ^ e ≤ sqrt(a) < 2 ^ (e + 1)` and
`ulp = 2 ^ (e - 52)`, the integer part `f` of `sqrt(a) / ulp` is the integer square root of the
integer part of `w = a / ulp ^ 2`, and `sqrt(a) / ulp` is compared with `f + 1/2` by comparing
`w` with `(f + 1/2) ^ 2`. -/
def sqrt (a : ℚ) : ℚ :=
  if a ≤ 0 then 0
  else
    let e := exponent a / 2
    let ulp := pow2 (e - 52)
    let w := a / (ulp * ulp)
    let f : Nat := isqrt ⌊w⌋.toNat
    let half : ℚ := (f : ℚ) + 1 / 2
    let n : Nat :=
      if w < half * half then f
      else if half * half < w then f + 1
      else if f % 2 = 0 then f else f + 1
    (n : ℚ) * ulp

/-- The order in which the three terms of a sum over the coefficients of a `Vec3d` are
added. Eigen's unrolled reduction of a vector of fixed size 3 forms `c0 + (c1 + c2)`; a plain
loop over the coefficients forms `(c0 + c1) + c2`. -/
inductive SumOrder where
  | unrolled
  | loop
  deriving DecidableEq

/-- The sum of three `double` values in the given order. -/
def sum3 (o : SumOrder) (c0 c1 c2 : ℚ) : ℚ :=
  match o with
  | SumOrder.unrolled => add c0 (add c1 c2)
  | SumOrder.loop => add (add c0 c1) c2

/-- Models `Vec3d` with coefficients of type `double`. -/
structure Vec3 where
  x : ℚ
  y : ℚ
  z : ℚ
  deriving DecidableEq

/-- The `Vec3d` that the decimal literals `x`, `y`, `z` denote: each is converted to the
nearest `double`. -/
def Vec3.ofDecimal (x y z : ℚ) : Vec3 := ⟨round x, round y, round z⟩

/-- Models `a - b` on `Vec3d`. -/
def Vec3.sub (a b : Vec3) : Vec3 := ⟨F64.sub a.x b.x, F64.sub a.y b.y, F64.sub a.z b.z⟩

/-- Models `a.cross(b)` on `Vec3d`. -/
def Vec3.cross (a b : Vec3) : Vec3 :=
  ⟨F64.sub (mul a.y b.z) (mul a.z b.y), F64.sub (mul a.z b.x) (mul a.x b.z),
    F64.sub (mul a.x b.y) (mul a.y b.x)⟩

/-- Models `a.dot(b)` on `Vec3d`. -/
def Vec3.dot (o : SumOrder) (a b : Vec3) : ℚ :=
  sum3 o (mul a.x b.x) (mul a.y b.y) (mul a.z b.z)

/-- Models `a.squaredNorm()` on `Vec3d`. -/
def Vec3.squaredNorm (o : SumOrder) (a : Vec3) : ℚ := a.dot o a

/-- Models `a.normalize()` on `Vec3d`: with `z = squaredNorm()`, the coefficients are divided
by `sqrt(z)` when `z > 0`. -/
def Vec3.normalized (o : SumOrder) (a : Vec3) : Vec3 :=
  let z := a.squaredNorm o
  if 0 < z then ⟨div a.x (sqrt z), div a.y (sqrt z), div a.z (sqrt z)⟩ else a

/-- Models `Normal(p1, p2, p3)` in `double` arithmetic. -/
def Normal (o : SumOrder) (p1 p2 p3 : Vec3) : Vec3 :=
  ((p2.sub p1).cross (p3.sub p1)).normalized o

/-- The value `d = normal.dot(t1)` that `FacesCamera` compares with zero, in `double`
arithmetic. -/
def facingValue (o : SumOrder) (t1 t2 t3 : Vec3) : ℚ := (Normal o t1 t2 t3).dot o t1

/-- Models `FacesCamera(t1, t2, t3)` in `double` arithmetic. -/
def FacesCamera (o : SumOrder) (t1 t2 t3 : Vec3) : Bool :=
  let normal := Normal o t1 t2 t3
  let d := normal.dot o t1
  decide (d > 0)

/-- The real vector that a `Vec3d` of `double` coefficients stands for. -/
noncomputable def Vec3.toReal (v : F64.Vec3) : Blackboard.Vec3 := ⟨(v.x : ℝ), (v.y : ℝ), (v.z : ℝ)⟩

end F64

/-- First vertex of a triangle whose plane passes very close to the camera:
`Vec3d(-0.1, 0, 0.6)`. -/
def thinT1 : F64.Vec3 := F64.Vec3.ofDecimal (-0.1) 0 0.6

/-- Second vertex of that triangle: `Vec3d(1.7, 1.5, 0)`. -/
def thinT2 : F64.Vec3 := F64.Vec3.ofDecimal 1.7 1.5 0

/-- Third vertex of that triangle: `Vec3d(1.65, 1.5, 0.3)`. -/
def thinT3 : F64.Vec3 := F64.Vec3.ofDecimal 1.65 1.5 0.3

/-! # Theorems -/

/-! ## Colour lemmas -/

theorem and_shiftRight (c m k : Nat) : (c &&& m) >>> k = (c >>> k) &&& (m >>> k) := by
  apply Nat.eq_of_testBit_eq
  intro i
  simp

set_option maxRecDepth 100000 in
theorem and_F8 (x : Nat) (h : x < 256) : x &&& 0xF8 = x / 8 * 8 := by
  have key : ∀ y : Fin 256, y.val &&& 0xF8 = y.val / 8 * 8 := by decide
  exact key ⟨x, h⟩

set_option maxRecDepth 100000 in
theorem and_FC (x : Nat) (h : x < 256) : x &&& 0xFC = x / 4 * 4 := by
  have key : ∀ y : Fin 256, y.val &&& 0xFC = y.val / 4 * 4 := by decide
  exact key ⟨x, h⟩

theorem unpackR_eq (c : Nat) (h : c < 65536) : unpackR c = c / 2048 * 8 := by
  unfold unpackR
  rw [and_shiftRight, Nat.shiftRight_eq_div_pow]
  have h1 : (0xf800 : Nat) >>> 8 = 0xF8 := by decide
  rw [h1, and_F8 _ (by omega)]
  omega

theorem unpackG_eq (c : Nat) : unpackG c = c / 32 % 64 * 4 := by
  unfold unpackG
  rw [and_shiftRight, Nat.shiftRight_eq_div_pow]
  have h1 : (0x07e0 : Nat) >>> 3 = 0xFF &&& 0xFC := by decide
  have h2 : (0xFF : Nat) = 2 ^ 8 - 1 := by decide
  rw [h1, ← Nat.and_assoc, h2, Nat.and_pow_two_sub_one_eq_mod, and_FC _ (by omega)]
  omega

theorem unpackB_eq (c : Nat) : unpackB c = c % 32 * 8 := by
  unfold unpackB
  have h2 : (0x001f : Nat) = 2 ^ 5 - 1 := by decide
  rw [h2, Nat.and_pow_two_sub_one_eq_mod, Nat.shiftLeft_eq]
  omega

theorem color565_eq (r g b : Nat) (hr : r < 256) (hg : g < 256) (hb : b < 256) :
    color565 r g b = r / 8 * 2048 + g / 4 * 32 + b / 8 := by
  unfold color565
  rw [and_F8 r hr, and_FC g hg, Nat.shiftLeft_eq, Nat.shiftLeft_eq, Nat.shiftRight_eq_div_pow]
  have a1 : g / 4 * 4 * 2 ^ 3 = 2 ^ 5 * (g / 4) := by omega
  have a2 : r / 8 * 8 * 2 ^ 8 = 2 ^ 11 * (r / 8) := by omega
  have b1 : b / 2 ^ 3 < 2 ^ 5 := by omega
  have b2 : 2 ^ 5 * (g / 4) + b / 2 ^ 3 < 2 ^ 11 := by omega
  rw [Nat.or_assoc, a1, a2, ← Nat.mul_add_lt_is_or b1, ← Nat.mul_add_lt_is_or b2]
  omega

theorem toIntFast8_small (n : Int) (h1 : -256 ≤ n) (h2 : n ≤ 256) : toIntFast8 n = n := by
  unfold toIntFast8 wrapSigned fastBits
  norm_num
  omega

section ColourLemmas

variable {K : Type*} [LinearOrderedField K] [FloorRing K]

theorem floatToUFast8_of_floor (x : K) (n : Nat) (hn : n < 256) (h1 : (n : K) ≤ x)
    (h2 : x < (n : K) + 1) : floatToUFast8 x = n := by
  have h0 : (0 : K) ≤ x := le_trans (Nat.cast_nonneg n) h1
  have hf : ⌊x⌋ = (n : Int) := by
    rw [Int.floor_eq_iff]
    constructor
    · simpa using h1
    · simpa using h2
  unfold floatToUFast8 truncToInt fastBits
  rw [if_pos h0, hf, Int.toNat_natCast]
  norm_num
  omega

/-- The exact value that `lerp8` converts, for channel values below 256. -/
theorem lerp8_eq (a b : Nat) (ha : a < 256) (hb : b < 256) (t : K) :
    lerp8 a b t = floatToUFast8 ((a : K) + ((b : K) - (a : K)) * t) := by
  unfold lerp8
  rw [toIntFast8_small (b : Int) (by omega) (by omega),
    toIntFast8_small (a : Int) (by omega) (by omega),
    toIntFast8_small ((b : Int) - (a : Int)) (by omega) (by omega)]
  push_cast
  rfl

theorem lerp8_same (a : Nat) (ha : a < 256) (t : K) : lerp8 a a t = a := by
  rw [lerp8_eq a a ha ha]
  apply floatToUFast8_of_floor _ _ ha <;> simp

theorem lerp8_zero (a b : Nat) (ha : a < 256) (hb : b < 256) : lerp8 a b (0 : K) = a := by
  rw [lerp8_eq a b ha hb]
  apply floatToUFast8_of_floor _ _ ha <;> simp

theorem lerp8_one (a b : Nat) (ha : a < 256) (hb : b < 256) : lerp8 a b (1 : K) = b := by
  rw [lerp8_eq a b ha hb]
  apply floatToUFast8_of_floor _ _ hb <;> simp

theorem lerp8_up (a b : Nat) (hab : a ≤ b) (hb : b < 256) (t : K) (h0 : 0 ≤ t) (h1 : t ≤ 1) :
    a ≤ lerp8 a b t ∧ lerp8 a b t ≤ b := by
  rw [lerp8_eq a b (by omega) hb]
  set x : K := (a : K) + ((b : K) - (a : K)) * t with hx
  have hab2 : (a : K) ≤ (b : K) := by exact_mod_cast hab
  have hxa : (a : K) ≤ x := by
    have : 0 ≤ ((b : K) - (a : K)) * t := mul_nonneg (by linarith) h0
    linarith
  have hxb : x ≤ (b : K) := by
    have : ((b : K) - (a : K)) * t ≤ ((b : K) - (a : K)) * 1 :=
      mul_le_mul_of_nonneg_left h1 (by linarith)
    linarith
  have h0x : (0 : K) ≤ x := le_trans (Nat.cast_nonneg a) hxa
  have hfl : floatToUFast8 x = ⌊x⌋.toNat := by
    have hle : ⌊x⌋ ≤ (b : Int) := by
      have := Int.floor_le x
      have h3 : ((⌊x⌋ : Int) : K) ≤ ((b : Int) : K) := by
        push_cast
        linarith
      exact_mod_cast h3
    unfold floatToUFast8 truncToInt fastBits
    rw [if_pos h0x]
    have : ⌊x⌋.toNat ≤ b := by omega
    norm_num
    omega
  rw [hfl]
  constructor
  · have : (a : Int) ≤ ⌊x⌋ := by
      rw [Int.le_floor]
      simpa using hxa
    omega
  · have hle : ⌊x⌋ ≤ (b : Int) := by
      have := Int.floor_le x
      have h3 : ((⌊x⌋ : Int) : K) ≤ ((b : Int) : K) := by
        push_cast
        linarith
      exact_mod_cast h3
    omega

theorem unpackR_lt (c : Nat) : unpackR c < 256 := Nat.mod_lt _ (by decide)

theorem unpackG_lt (c : Nat) : unpackG c < 256 := Nat.mod_lt _ (by decide)

theorem unpackB_lt (c : Nat) : unpackB c < 256 := Nat.mod_lt _ (by decide)

/-- Repacking the unpacked channels of a 16-bit colour gives the colour back. -/
theorem color565_unpack (c : Nat) (h : c < 65536) :
    color565 (unpackR c) (unpackG c) (unpackB c) = c := by
  rw [color565_eq _ _ _ (unpackR_lt c) (unpackG_lt c) (unpackB_lt c), unpackR_eq c h,
    unpackG_eq, unpackB_eq]
  omega

end ColourLemmas

/-- C7. For every 16-bit colour `c` and every blend factor `t` in `[0,1]`,
`lerpCol(c, c, t) = c`. -/
theorem lerpCol_same {K : Type*} [LinearOrderedField K] [FloorRing K] (c : Nat)
    (hc : c < 65536) (t : K) (h0 : 0 ≤ t) (h1 : t ≤ 1) : lerpCol c c t = c := by
  unfold lerpCol
  simp only [lerp8_same _ (unpackR_lt c), lerp8_same _ (unpackG_lt c),
    lerp8_same _ (unpackB_lt c), Nat.mod_eq_of_lt (unpackR_lt c),
    Nat.mod_eq_of_lt (unpackG_lt c), Nat.mod_eq_of_lt (unpackB_lt c)]
  exact color565_unpack c hc

theorem lerpCol_same_witness :
    (0x1234 : Nat) < 65536 ∧ (0 : ℚ) ≤ 1 / 3 ∧ (1 / 3 : ℚ) ≤ 1 ∧
      lerpCol 0x1234 0x1234 (1 / 3 : ℚ) = 0x1234 :=
  ⟨by decide, by norm_num, by norm_num,
    lerpCol_same 0x1234 (by decide) (1 / 3 : ℚ) (by norm_num) (by norm_num)⟩

/-- C8. For all 16-bit colours `a` and `b`, `lerpCol(a, b, 0) = a`. -/
theorem lerpCol_zero {K : Type*} [LinearOrderedField K] [FloorRing K] (a b : Nat)
    (ha : a < 65536) (hb : b < 65536) : lerpCol a b (0 : K) = a := by
  unfold lerpCol
  simp only [lerp8_zero _ _ (unpackR_lt a) (unpackR_lt b),
    lerp8_zero _ _ (unpackG_lt a) (unpackG_lt b), lerp8_zero _ _ (unpackB_lt a) (unpackB_lt b),
    Nat.mod_eq_of_lt (unpackR_lt a), Nat.mod_eq_of_lt (unpackG_lt a),
    Nat.mod_eq_of_lt (unpackB_lt a)]
  exact color565_unpack a ha

theorem lerpCol_zero_witness :
    (0xF800 : Nat) < 65536 ∧ (0x07FF : Nat) < 65536 ∧
      lerpCol 0xF800 0x07FF (0 : ℚ) = 0xF800 :=
  ⟨by decide, by decide, lerpCol_zero 0xF800 0x07FF (by decide) (by decide)⟩

/-- C9. For all 16-bit colours `a` and `b`, `lerpCol(a, b, 1) = b`, also when channel values
differ by more than 127. -/
theorem lerpCol_one {K : Type*} [LinearOrderedField K] [FloorRing K] (a b : Nat)
    (ha : a < 65536) (hb : b < 65536) : lerpCol a b (1 : K) = b := by
  unfold lerpCol
  simp only [lerp8_one _ _ (unpackR_lt a) (unpackR_lt b),
    lerp8_one _ _ (unpackG_lt a) (unpackG_lt b), lerp8_one _ _ (unpackB_lt a) (unpackB_lt b),
    Nat.mod_eq_of_lt (unpackR_lt b), Nat.mod_eq_of_lt (unpackG_lt b),
    Nat.mod_eq_of_lt (unpackB_lt b)]
  exact color565_unpack b hb

theorem lerpCol_one_witness :
    (0xF800 : Nat) < 65536 ∧ (0x0000 : Nat) < 65536 ∧
      lerpCol 0xF800 0x0000 (1 : ℚ) = 0x0000 :=
  ⟨by decide, by decide, lerpCol_one 0xF800 0x0000 (by decide) (by decide)⟩

/-- C10. Lighting only brightens: for every 16-bit colour `c` and every weight `t` in
`[0,1]`, each of the red, green and blue fields of `lerpCol(c, 0xffff, t)` is at least the
corresponding field of `c`. -/
theorem lerpCol_white_brightens {K : Type*} [LinearOrderedField K] [FloorRing K] (c : Nat)
    (hc : c < 65536) (t : K) (h0 : 0 ≤ t) (h1 : t ≤ 1) :
    unpackR c ≤ unpackR (lerpCol c 0xffff t) ∧ unpackG c ≤ unpackG (lerpCol c 0xffff t) ∧
      unpackB c ≤ unpackB (lerpCol c 0xffff t) := by
  have wR : unpackR 0xffff = 248 := by decide
  have wG : unpackG 0xffff = 252 := by decide
  have wB : unpackB 0xffff = 248 := by decide
  have cR := unpackR_eq c hc
  have cG := unpackG_eq c
  have cB := unpackB_eq c
  obtain ⟨r1, r2⟩ := lerp8_up (unpackR c) (unpackR 0xffff) (by omega) (by omega) t h0 h1
  obtain ⟨g1, g2⟩ := lerp8_up (unpackG c) (unpackG 0xffff) (by omega) (by omega) t h0 h1
  obtain ⟨b1, b2⟩ := lerp8_up (unpackB c) (unpackB 0xffff) (by omega) (by omega) t h0 h1
  have e : lerpCol c 0xffff t
      = color565 (lerp8 (unpackR c) (unpackR 0xffff) t % 256)
          (lerp8 (unpackG c) (unpackG 0xffff) t % 256)
          (lerp8 (unpackB c) (unpackB 0xffff) t % 256) := rfl
  rw [e, color565_eq _ _ _ (Nat.mod_lt _ (by decide)) (Nat.mod_lt _ (by decide))
    (Nat.mod_lt _ (by decide))]
  generalize lerp8 (unpackR c) (unpackR 0xffff) t = r at r1 r2 ⊢
  generalize lerp8 (unpackG c) (unpackG 0xffff) t = g at g1 g2 ⊢
  generalize lerp8 (unpackB c) (unpackB 0xffff) t = b at b1 b2 ⊢
  have hlt : r % 256 / 8 * 2048 + g % 256 / 4 * 32 + b % 256 / 8 < 65536 := by omega
  have oR := unpackR_eq _ hlt
  have oG := unpackG_eq (r % 256 / 8 * 2048 + g % 256 / 4 * 32 + b % 256 / 8)
  have oB := unpackB_eq (r % 256 / 8 * 2048 + g % 256 / 4 * 32 + b % 256 / 8)
  omega

theorem lerpCol_white_brightens_witness :
    (0x1234 : Nat) < 65536 ∧ (0 : ℚ) ≤ 1 / 4 ∧ (1 / 4 : ℚ) ≤ 1 ∧
      unpackR 0x1234 ≤ unpackR (lerpCol 0x1234 0xffff (1 / 4 : ℚ)) ∧
      unpackG 0x1234 ≤ unpackG (lerpCol 0x1234 0xffff (1 / 4 : ℚ)) ∧
      unpackB 0x1234 ≤ unpackB (lerpCol 0x1234 0xffff (1 / 4 : ℚ)) :=
  ⟨by decide, by norm_num, by norm_num,
    lerpCol_white_brightens 0x1234 (by decide) (1 / 4 : ℚ) (by norm_num) (by norm_num)⟩

/-! ## Frame buffer lemmas -/

theorem mem_fillRow (color : Nat) (n : Nat) (p : Int) (s : Store) (h : s ∈ fillRow color n p) :
    p ≤ s.addr ∧ s.addr < p + n := by
  induction n generalizing p with
  | zero => simp [fillRow] at h
  | succ k ih =>
    simp only [fillRow, List.mem_cons] at h
    rcases h with h | h
    · subst h
      constructor
      · exact le_refl _
      · push_cast
        omega
    · have := ih (p + 1) h
      push_cast
      omega

theorem drawFastHLine_inBuffer (lx ly x y w : Int) (color : Nat) (s : Store)
    (h : s ∈ (ILI9341Wrapper.mk' lx ly).drawFastHLine x y w color) :
    (ILI9341Wrapper.mk' lx ly).InBuffer s.addr := by
  unfold ILI9341Wrapper.drawFastHLine at h
  simp only [ILI9341Wrapper.mk'] at h
  by_cases hg : y < 0 ∨ y ≥ ly ∨ x ≥ lx
  · simp [hg] at h
  · rw [if_neg hg] at h
    push_neg at hg
    obtain ⟨hy0, hy1, hx⟩ := hg
    have hm := mem_fillRow _ _ _ _ h
    have hc := mul_comm lx y
    refine ⟨s.addr - lx * y, y, ?_, ?_, hy0, hy1, ?_⟩
    · have h1 := hm.1
      split_ifs at h1 <;> omega
    · have h2 := hm.2
      show s.addr - lx * y < lx
      split_ifs at h2 <;> omega
    · show s.addr = s.addr - lx * y + lx * y
      ring

theorem drawHLine_inBuffer (lx ly a b y : Int) (color : Nat) (s : Store)
    (h : s ∈ (ILI9341Wrapper.mk' lx ly).drawHLine a b y color) :
    (ILI9341Wrapper.mk' lx ly).InBuffer s.addr := by
  unfold ILI9341Wrapper.drawHLine at h
  split_ifs at h <;> exact drawFastHLine_inBuffer _ _ _ _ _ _ _ h

theorem scanLoop_inBuffer (lx ly m1 b1 m2 b2 yEnd : Int) (color : Nat) (fuel : Nat) (y : Int)
    (s : Store) (h : s ∈ ((ILI9341Wrapper.mk' lx ly).scanLoop m1 b1 m2 b2 yEnd color fuel y).stores) :
    (ILI9341Wrapper.mk' lx ly).InBuffer s.addr := by
  induction fuel generalizing y with
  | zero => simp [ILI9341Wrapper.scanLoop] at h
  | succ k ih =>
    simp only [ILI9341Wrapper.scanLoop] at h
    split_ifs at h
    · simp only [List.mem_append] at h
      rcases h with h | h
      · exact drawHLine_inBuffer _ _ _ _ _ _ _ h
      · exact ih _ h
    · simp at h

/-- C2. For every buffer of `lx` x `ly` pixels and every choice of the six `int16_t` vertex
coordinates, every store performed by `drawFilledTriangle` (within any number of loop
iterations) goes to an address `x + lx * y` with `0 ≤ x < lx` and `0 ≤ y < ly`. -/
theorem drawFilledTriangle_inBuffer (lx ly : Int) (hlx : 0 < lx) (hly : 0 < ly)
    (x0 y0 x1 y1 x2 y2 : Int) (h16 : IsInt16 x0 ∧ IsInt16 y0 ∧ IsInt16 x1 ∧ IsInt16 y1 ∧
      IsInt16 x2 ∧ IsInt16 y2) (color : Nat) (fuel : Nat) (s : Store)
    (hs : s ∈ ((ILI9341Wrapper.mk' lx ly).drawFilledTriangle fuel x0 y0 x1 y1 x2 y2 color).stores) :
    (ILI9341Wrapper.mk' lx ly).InBuffer s.addr := by
  unfold ILI9341Wrapper.drawFilledTriangle at hs
  simp only [] at hs
  split_ifs at hs
  · simp only [List.mem_append] at hs
    rcases hs with hs | hs
    · exact scanLoop_inBuffer _ _ _ _ _ _ _ _ _ _ _ hs
    · exact scanLoop_inBuffer _ _ _ _ _ _ _ _ _ _ _ hs
  · exact scanLoop_inBuffer _ _ _ _ _ _ _ _ _ _ _ hs

theorem drawFilledTriangle_inBuffer_witness :
    (0 : Int) < 4 ∧ (0 : Int) < 4 ∧
      (IsInt16 (-2) ∧ IsInt16 (-1) ∧ IsInt16 5 ∧ IsInt16 1 ∧ IsInt16 1 ∧ IsInt16 6) ∧
      (⟨5, 7⟩ : Store) ∈
        ((ILI9341Wrapper.mk' 4 4).drawFilledTriangle 20 (-2) (-1) 5 1 1 6 7).stores ∧
      (ILI9341Wrapper.mk' 4 4).InBuffer (⟨5, 7⟩ : Store).addr :=
  ⟨by decide, by decide, by decide, by decide,
    drawFilledTriangle_inBuffer 4 4 (by decide) (by decide) (-2) (-1) 5 1 1 6 (by decide) 7 20
      ⟨5, 7⟩ (by decide)⟩

/-! ## Geometry lemmas -/

theorem Vec3.eq_zero_of_squaredNorm_nonpos (a : Vec3) (h : ¬ 0 < a.squaredNorm) :
    a.x = 0 ∧ a.y = 0 ∧ a.z = 0 := by
  unfold Vec3.squaredNorm Vec3.dot at h
  have hx := mul_self_nonneg a.x
  have hy := mul_self_nonneg a.y
  have hz := mul_self_nonneg a.z
  refine ⟨?_, ?_, ?_⟩ <;> apply mul_self_eq_zero.mp <;> linarith

theorem Vec3.normalized_dot (a b : Vec3) :
    a.normalized.dot b = a.dot b / Real.sqrt a.squaredNorm := by
  by_cases h : 0 < a.squaredNorm
  · simp only [Vec3.normalized, if_pos h, Vec3.dot]
    ring
  · obtain ⟨hx, hy, hz⟩ := Vec3.eq_zero_of_squaredNorm_nonpos a h
    simp only [Vec3.normalized, if_neg h, Vec3.dot, hx, hy, hz]
    simp

theorem Vec3.normalized_dot_pos (a b : Vec3) : 0 < a.normalized.dot b ↔ 0 < a.dot b := by
  rw [Vec3.normalized_dot]
  by_cases h : 0 < a.squaredNorm
  · have hs : 0 < Real.sqrt a.squaredNorm := Real.sqrt_pos.mpr h
    constructor
    · intro hd
      have := mul_pos hd hs
      rwa [div_mul_cancel₀ _ (ne_of_gt hs)] at this
    · intro hd
      exact div_pos hd hs
  · obtain ⟨hx, hy, hz⟩ := Vec3.eq_zero_of_squaredNorm_nonpos a h
    simp [Vec3.dot, hx, hy, hz]

/-- The facing test looks at the sign of the cross product's component along `t1`. -/
theorem facesCamera_iff (t1 t2 t3 : Vec3) :
    FacesCamera t1 t2 t3 = true ↔ 0 < ((t2.sub t1).cross (t3.sub t1)).dot t1 := by
  unfold FacesCamera Normal
  simp only [gt_iff_lt, decide_eq_true_eq]
  exact Vec3.normalized_dot_pos _ _

theorem facing_value_reverse (t1 t2 t3 : Vec3) :
    (Normal t3 t2 t1).dot t3 = -((Normal t1 t2 t3).dot t1) := by
  unfold Normal
  rw [Vec3.normalized_dot, Vec3.normalized_dot]
  have e1 : ((t2.sub t3).cross (t1.sub t3)).squaredNorm
      = ((t2.sub t1).cross (t3.sub t1)).squaredNorm := by
    simp only [Vec3.squaredNorm, Vec3.dot, Vec3.cross, Vec3.sub]
    ring
  have e2 : ((t2.sub t3).cross (t1.sub t3)).dot t3
      = -(((t2.sub t1).cross (t3.sub t1)).dot t1) := by
    simp only [Vec3.dot, Vec3.cross, Vec3.sub]
    ring
  rw [e1, e2, neg_div]

/-- C4 (as amended). In exact real arithmetic, for every triangle whose facing value
`Normal(t1,t2,t3)·t1` is non-zero, the facing value of the reversed triangle is the negation
of the original one and exactly one of `FacesCamera(t1,t2,t3)` and `FacesCamera(t3,t2,t1)` is
true. -/
theorem facesCamera_reverse (t1 t2 t3 : Vec3) (h : (Normal t1 t2 t3).dot t1 ≠ 0) :
    (Normal t3 t2 t1).dot t3 = -((Normal t1 t2 t3).dot t1) ∧
      ((FacesCamera t1 t2 t3 = true ∧ FacesCamera t3 t2 t1 = false) ∨
        (FacesCamera t1 t2 t3 = false ∧ FacesCamera t3 t2 t1 = true)) := by
  refine ⟨facing_value_reverse t1 t2 t3, ?_⟩
  have hr := facing_value_reverse t1 t2 t3
  unfold FacesCamera
  simp only [gt_iff_lt, decide_eq_true_eq, decide_eq_false_iff_not, hr]
  rcases lt_or_gt_of_ne h with hlt | hgt
  · right
    constructor <;> linarith
  · left
    constructor
    · exact hgt
    · linarith

theorem facesCamera_reverse_witness :
    (Normal ⟨0, 0, 1⟩ ⟨1, 0, 1⟩ ⟨0, 1, 1⟩).dot ⟨0, 0, 1⟩ ≠ 0 ∧
      ((Normal ⟨0, 1, 1⟩ ⟨1, 0, 1⟩ ⟨0, 0, 1⟩).dot ⟨0, 1, 1⟩
          = -((Normal ⟨0, 0, 1⟩ ⟨1, 0, 1⟩ ⟨0, 1, 1⟩).dot ⟨0, 0, 1⟩) ∧
        ((FacesCamera ⟨0, 0, 1⟩ ⟨1, 0, 1⟩ ⟨0, 1, 1⟩ = true ∧
            FacesCamera ⟨0, 1, 1⟩ ⟨1, 0, 1⟩ ⟨0, 0, 1⟩ = false) ∨
          (FacesCamera ⟨0, 0, 1⟩ ⟨1, 0, 1⟩ ⟨0, 1, 1⟩ = false ∧
            FacesCamera ⟨0, 1, 1⟩ ⟨1, 0, 1⟩ ⟨0, 0, 1⟩ = true))) :=
  have h : (Normal ⟨0, 0, 1⟩ ⟨1, 0, 1⟩ ⟨0, 1, 1⟩).dot ⟨0, 0, 1⟩ ≠ 0 := by
    unfold Normal
    rw [Vec3.normalized_dot]
    norm_num [Vec3.dot, Vec3.cross, Vec3.sub, Vec3.squaredNorm]
  ⟨h, facesCamera_reverse ⟨0, 0, 1⟩ ⟨1, 0, 1⟩ ⟨0, 1, 1⟩ h⟩

/-! ## The facing test in `double` arithmetic -/

set_option maxRecDepth 100000 in
theorem thinT1_eq :
    thinT1 = ⟨-3602879701896397 / 36028797018963968, 0, 5404319552844595 / 9007199254740992⟩ := by
  decide!

set_option maxRecDepth 100000 in
theorem thinT2_eq :
    thinT2 = ⟨7656119366529843 / 4503599627370496, 3 / 2, 0⟩ := by
  decide!

set_option maxRecDepth 100000 in
theorem thinT3_eq :
    thinT3 = ⟨3715469692580659 / 2251799813685248, 3 / 2, 5404319552844595 / 18014398509481984⟩ := by
  decide!

/-- In exact arithmetic the facing value of the thin triangle is not zero. -/
theorem thin_exact_facing_ne_zero :
    (Normal thinT1.toReal thinT2.toReal thinT3.toReal).dot thinT1.toReal ≠ 0 := by
  unfold Normal
  rw [Vec3.normalized_dot, thinT1_eq, thinT2_eq, thinT3_eq]
  norm_num [F64.Vec3.toReal, Vec3.dot, Vec3.cross, Vec3.sub, Vec3.squaredNorm]

set_option maxRecDepth 100000 in
theorem thin_facing_loop :
    F64.facingValue F64.SumOrder.loop thinT1 thinT2 thinT3 = 3 / 2 ^ 54 ∧
      F64.facingValue F64.SumOrder.loop thinT3 thinT2 thinT1 = 5 / 2 ^ 54 := by
  decide!

set_option maxRecDepth 100000 in
theorem thin_facing_unrolled :
    F64.facingValue F64.SumOrder.unrolled thinT1 thinT2 thinT3 = 3 / 2 ^ 54 ∧
      F64.facingValue F64.SumOrder.unrolled thinT3 thinT2 thinT1 = 1 / 2 ^ 52 := by
  decide!

theorem F64.facesCamera_eq (o : F64.SumOrder) (t1 t2 t3 : F64.Vec3) :
    F64.FacesCamera o t1 t2 t3 = decide (F64.facingValue o t1 t2 t3 > 0) := rfl

/-- C4 (as stated) fails in the `double` arithmetic of the code. For the triangle
`(-0.1, 0, 0.6)`, `(1.7, 1.5, 0)`, `(1.65, 1.5, 0.3)` the facing value is not zero, neither in
exact arithmetic nor as computed, yet `FacesCamera` is true for the triangle and for the
reversed triangle, and the computed facing value of the reversed triangle is not the negation
of the original one. This holds for both orders in which the three products of `dot` can be
added. -/
theorem facesCamera_reverse_fails_in_double :
    (Normal thinT1.toReal thinT2.toReal thinT3.toReal).dot thinT1.toReal ≠ 0 ∧
      (F64.facingValue F64.SumOrder.loop thinT1 thinT2 thinT3 = 3 / 2 ^ 54 ∧
        F64.facingValue F64.SumOrder.loop thinT3 thinT2 thinT1 = 5 / 2 ^ 54 ∧
        F64.FacesCamera F64.SumOrder.loop thinT1 thinT2 thinT3 = true ∧
        F64.FacesCamera F64.SumOrder.loop thinT3 thinT2 thinT1 = true) ∧
      (F64.facingValue F64.SumOrder.unrolled thinT1 thinT2 thinT3 = 3 / 2 ^ 54 ∧
        F64.facingValue F64.SumOrder.unrolled thinT3 thinT2 thinT1 = 1 / 2 ^ 52 ∧
        F64.FacesCamera F64.SumOrder.unrolled thinT1 thinT2 thinT3 = true ∧
        F64.FacesCamera F64.SumOrder.unrolled thinT3 thinT2 thinT1 = true) := by
  refine ⟨thin_exact_facing_ne_zero, ⟨thin_facing_loop.1, thin_facing_loop.2, ?_, ?_⟩,
    ⟨thin_facing_unrolled.1, thin_facing_unrolled.2, ?_, ?_⟩⟩
  · rw [F64.facesCamera_eq, thin_facing_loop.1]; norm_num
  · rw [F64.facesCamera_eq, thin_facing_loop.2]; norm_num
  · rw [F64.facesCamera_eq, thin_facing_unrolled.1]; norm_num
  · rw [F64.facesCamera_eq, thin_facing_unrolled.2]; norm_num

theorem Vec3.normalized_squaredNorm_le_one (a : Vec3) : a.normalized.squaredNorm ≤ 1 := by
  by_cases h : 0 < a.squaredNorm
  · have hs : Real.sqrt a.squaredNorm * Real.sqrt a.squaredNorm = a.squaredNorm :=
      Real.mul_self_sqrt (le_of_lt h)
    have hne : Real.sqrt a.squaredNorm ≠ 0 := ne_of_gt (Real.sqrt_pos.mpr h)
    have e : a.normalized.squaredNorm
        = a.squaredNorm / (Real.sqrt a.squaredNorm * Real.sqrt a.squaredNorm) := by
      simp only [Vec3.normalized, if_pos h]
      generalize Real.sqrt a.squaredNorm = r at hne
      simp only [Vec3.squaredNorm, Vec3.dot]
      field_simp
    rw [e, hs, div_self (ne_of_gt h)]
  · obtain ⟨hx, hy, hz⟩ := Vec3.eq_zero_of_squaredNorm_nonpos a h
    have e : a.normalized = a := by
      unfold Vec3.normalized
      rw [if_neg h]
    rw [e]
    have h2 : a.squaredNorm = 0 := by
      simp only [Vec3.squaredNorm, Vec3.dot]
      rw [hx, hy, hz]
      norm_num
    rw [h2]
    exact zero_le_one

theorem Vec3.dot_sq_le (a b : Vec3) : a.dot b ^ 2 ≤ a.squaredNorm * b.squaredNorm := by
  simp only [Vec3.dot, Vec3.squaredNorm]
  nlinarith [sq_nonneg (a.x * b.y - a.y * b.x), sq_nonneg (a.y * b.z - a.z * b.y),
    sq_nonneg (a.z * b.x - a.x * b.z)]

/-- The weight `facesLight / 2` with which `makeTri` blends toward white lies in `[0, 1]`. -/
theorem lighting_weight_range (t1 t2 t3 p : Vec3) :
    0 ≤ max 0 (NormToPoint t1 t2 t3 p) / 2 ∧ max 0 (NormToPoint t1 t2 t3 p) / 2 ≤ 1 := by
  have h1 : NormToPoint t1 t2 t3 p ≤ 1 := by
    unfold NormToPoint
    simp only []
    have hn := Vec3.normalized_squaredNorm_le_one ((t2.sub t1).cross (t3.sub t1))
    have hv := Vec3.normalized_squaredNorm_le_one (p.sub t1)
    have hcs := Vec3.dot_sq_le (Normal t1 t2 t3) (p.sub t1).normalized
    have hn0 : 0 ≤ (Normal t1 t2 t3).squaredNorm := by
      simp only [Vec3.squaredNorm, Vec3.dot]
      nlinarith [mul_self_nonneg (Normal t1 t2 t3).x, mul_self_nonneg (Normal t1 t2 t3).y,
        mul_self_nonneg (Normal t1 t2 t3).z]
    have hv0 : 0 ≤ (p.sub t1).normalized.squaredNorm := by
      simp only [Vec3.squaredNorm, Vec3.dot]
      nlinarith [mul_self_nonneg (p.sub t1).normalized.x,
        mul_self_nonneg (p.sub t1).normalized.y, mul_self_nonneg (p.sub t1).normalized.z]
    have hn1 : (Normal t1 t2 t3).squaredNorm ≤ 1 := hn
    have hprod : (Normal t1 t2 t3).squaredNorm * (p.sub t1).normalized.squaredNorm ≤ 1 := by
      nlinarith
    nlinarith
  have h0 : (0 : ℝ) ≤ max 0 (NormToPoint t1 t2 t3 p) := le_max_left _ _
  have h2 : max 0 (NormToPoint t1 t2 t3 p) ≤ 1 := max_le (by norm_num) h1
  constructor <;> linarith

theorem Quat.mul_unit (a b : Quat) (ha : a.w ^ 2 + a.x ^ 2 + a.y ^ 2 + a.z ^ 2 = 1)
    (hb : b.w ^ 2 + b.x ^ 2 + b.y ^ 2 + b.z ^ 2 = 1) :
    (a.mul b).w ^ 2 + (a.mul b).x ^ 2 + (a.mul b).y ^ 2 + (a.mul b).z ^ 2 = 1 := by
  have key : (a.mul b).w ^ 2 + (a.mul b).x ^ 2 + (a.mul b).y ^ 2 + (a.mul b).z ^ 2
      = (a.w ^ 2 + a.x ^ 2 + a.y ^ 2 + a.z ^ 2) * (b.w ^ 2 + b.x ^ 2 + b.y ^ 2 + b.z ^ 2) := by
    simp only [Quat.mul]
    ring
  rw [key, ha, hb, mul_one]

theorem Quat.ofAngleAxis_unit (angle : ℝ) (axis : Vec3)
    (h : axis.x ^ 2 + axis.y ^ 2 + axis.z ^ 2 = 1) :
    (Quat.ofAngleAxis angle axis).w ^ 2 + (Quat.ofAngleAxis angle axis).x ^ 2
      + (Quat.ofAngleAxis angle axis).y ^ 2 + (Quat.ofAngleAxis angle axis).z ^ 2 = 1 := by
  simp only [Quat.ofAngleAxis]
  have hcs := Real.cos_sq_add_sin_sq (angle / 2)
  linear_combination hcs + Real.sin (angle / 2) ^ 2 * h

/-- The matrix of a unit quaternion keeps the squared length of every vector. -/
theorem Quat.rotation_squaredNorm (q : Quat) (hq : q.w ^ 2 + q.x ^ 2 + q.y ^ 2 + q.z ^ 2 = 1)
    (d : Vec3) : (q.toRotationMatrix.mulVec d).squaredNorm = d.squaredNorm := by
  simp only [Quat.toRotationMatrix, Mat3.mulVec, Vec3.squaredNorm, Vec3.dot]
  linear_combination
    (4 * ((q.y * d.z - q.z * d.y) ^ 2 + (q.z * d.x - q.x * d.z) ^ 2
      + (q.x * d.y - q.y * d.x) ^ 2)) * hq

theorem Mat3.mulVec_sub (m : Mat3) (u v : Vec3) :
    (m.mulVec u).sub (m.mulVec v) = m.mulVec (u.sub v) := by
  simp only [Mat3.mulVec, Vec3.sub, Vec3.mk.injEq]
  refine ⟨?_, ?_, ?_⟩ <;> ring

/-- The quaternion that `Object::rotate` builds from the three angles is a unit quaternion. -/
theorem rotate_quat_unit (angles : Vec3) :
    let q := ((Quat.ofAngleAxis (angles.z * Real.pi / 180) ⟨0, 0, 1⟩).mul
      (Quat.ofAngleAxis (angles.y * Real.pi / 180) ⟨0, 1, 0⟩)).mul
      (Quat.ofAngleAxis (angles.x * Real.pi / 180) ⟨1, 0, 0⟩)
    q.w ^ 2 + q.x ^ 2 + q.y ^ 2 + q.z ^ 2 = 1 := by
  intro q
  apply Quat.mul_unit
  · apply Quat.mul_unit
    · exact Quat.ofAngleAxis_unit _ _ (by norm_num)
    · exact Quat.ofAngleAxis_unit _ _ (by norm_num)
  · exact Quat.ofAngleAxis_unit _ _ (by norm_num)

/-- C6. For every triple of rotation angles and every pair of columns of the vertex matrix,
the distance between the rotated columns of `Object::rotate` equals the distance between
the columns (exact real arithmetic). -/
theorem rotate_preserves_distance {n : Nat} (vertices : Fin n → Vec3) (angles : Vec3)
    (i j : Fin n) :
    ((Object.rotate vertices angles i).sub (Object.rotate vertices angles j)).norm
      = ((vertices i).sub (vertices j)).norm := by
  unfold Object.rotate Vec3.norm
  rw [Mat3.mulVec_sub, Quat.rotation_squaredNorm _ (rotate_quat_unit angles)]

/-! ## Emission of the cube's triangles -/

theorem Cube.makeTri_eq (matPfc : Fin 8 → Vec3) (proj : Fin 8 → Vec2) (ts : List Triangle)
    (i j k : Fin 8) (col : Nat) :
    Cube.makeTri matPfc proj ts i j k col
      = ts ++ (if FacesCamera (matPfc i) (matPfc j) (matPfc k) = true
          then [Cube.shade matPfc proj i j k col true] else []) := by
  unfold Cube.makeTri
  by_cases h : FacesCamera (matPfc i) (matPfc j) (matPfc k) = true
  · simp [h]
  · simp [h]

theorem filter_map_cons {α β : Type} (p : α → Bool) (f : α → β) (a : α) (l : List α) :
    ((a :: l).filter p).map f = (if p a = true then [f a] else []) ++ (l.filter p).map f := by
  by_cases h : p a = true
  · simp [List.filter_cons, h]
  · simp [List.filter_cons, h]

/-- The list that `Cube::getTriangles` returns, written as a filter over the declared
faces. -/
theorem Cube.getTriangles_filter (c : Cube) (camera : Vec3) :
    c.getTriangles camera
        = ((Cube.faces.filter (fun f => FacesCamera (c.matPfc camera f.1)
              (c.matPfc camera f.2.1) (c.matPfc camera f.2.2.1))).map
            (fun f => Cube.shade (c.matPfc camera) (Cube.projectedVertices (c.matPfc camera))
              f.1 f.2.1 f.2.2.1 (mapColor f.2.2.2) true)) := by
  unfold Cube.getTriangles Cube.faces
  simp only [Cube.makeTri_eq, filter_map_cons, List.append_assoc, List.nil_append,
    List.filter_nil, List.map_nil, List.append_nil]

/-- C3. For every cube pose and camera, `Cube::getTriangles` emits the records of exactly the
declared faces for which `FacesCamera` holds on the three camera-space vertices, in the
order in which the 12 faces are declared, and every emitted record has
`facesCamera = true`. -/
theorem getTriangles_emits_facing (c : Cube) (camera : Vec3) :
    c.getTriangles camera
        = ((Cube.faces.filter (fun f => FacesCamera (c.matPfc camera f.1)
              (c.matPfc camera f.2.1) (c.matPfc camera f.2.2.1))).map
            (fun f => Cube.shade (c.matPfc camera) (Cube.projectedVertices (c.matPfc camera))
              f.1 f.2.1 f.2.2.1 (mapColor f.2.2.2) true)) ∧
      ∀ t ∈ c.getTriangles camera, t.facesCamera = true := by
  refine ⟨Cube.getTriangles_filter c camera, ?_⟩
  intro t ht
  rw [Cube.getTriangles_filter, List.mem_map] at ht
  obtain ⟨f, _, hf⟩ := ht
  rw [← hf]
  rfl

/-! ## The cube at `(0, 0, 6)` seen from the origin at frame 0 -/

theorem matPfc_frame0 (r : Vec3) (i : Fin 8) :
    ((⟨⟨0, 0, 6⟩, r⟩ : Cube).update 0).matPfc ⟨0, 0, 0⟩ i
      = ⟨(1 - 2 * Real.sin (30 * Real.pi / 180 / 2) ^ 2) * (Cube.arrVert i).x
            - 2 * Real.sin (30 * Real.pi / 180 / 2) * Real.cos (30 * Real.pi / 180 / 2)
              * (Cube.arrVert i).y,
          2 * Real.sin (30 * Real.pi / 180 / 2) * Real.cos (30 * Real.pi / 180 / 2)
              * (Cube.arrVert i).x
            + (1 - 2 * Real.sin (30 * Real.pi / 180 / 2) ^ 2) * (Cube.arrVert i).y,
          (Cube.arrVert i).z + 6⟩ := by
  simp only [Cube.matPfc, Object.rotate, Cube.update, Quat.ofAngleAxis, Quat.mul,
    Quat.toRotationMatrix, Mat3.mulVec, Vec3.add, Vec3.sub, Vec3.mk.injEq]
  simp only [Nat.cast_zero, mul_zero, zero_mul, zero_div, Real.cos_zero, Real.sin_zero]
  refine ⟨?_, ?_, ?_⟩ <;> ring

/-- At frame 0 the facing test of a face can be read off the unrotated template. -/
theorem facesCamera_frame0 (r : Vec3) (i j k : Fin 8) :
    FacesCamera (((⟨⟨0, 0, 6⟩, r⟩ : Cube).update 0).matPfc ⟨0, 0, 0⟩ i)
        (((⟨⟨0, 0, 6⟩, r⟩ : Cube).update 0).matPfc ⟨0, 0, 0⟩ j)
        (((⟨⟨0, 0, 6⟩, r⟩ : Cube).update 0).matPfc ⟨0, 0, 0⟩ k)
      = decide (0 < (((Cube.arrVert j).sub (Cube.arrVert i)).cross
          ((Cube.arrVert k).sub (Cube.arrVert i))).dot ((Cube.arrVert i).add ⟨0, 0, 6⟩)) := by
  rw [Bool.eq_iff_iff, facesCamera_iff, decide_eq_true_eq, matPfc_frame0, matPfc_frame0,
    matPfc_frame0]
  have hcs := Real.cos_sq_add_sin_sq (30 * Real.pi / 180 / 2)
  generalize Real.sin (30 * Real.pi / 180 / 2) = s at hcs ⊢
  generalize Real.cos (30 * Real.pi / 180 / 2) = c at hcs ⊢
  generalize Cube.arrVert i = vi
  generalize Cube.arrVert j = vj
  generalize Cube.arrVert k = vk
  simp only [Vec3.dot, Vec3.cross, Vec3.sub, Vec3.add]
  have e : ∀ a b : ℝ, a = b → (0 < a ↔ 0 < b) := fun a b h => by rw [h]
  apply e
  linear_combination
    (4 * s ^ 2 * (((vj.y - vi.y) * (vk.z - vi.z) - (vj.z - vi.z) * (vk.y - vi.y)) * vi.x
      + ((vj.z - vi.z) * (vk.x - vi.x) - (vj.x - vi.x) * (vk.z - vi.z)) * vi.y
      + ((vj.x - vi.x) * (vk.y - vi.y) - (vj.y - vi.y) * (vk.x - vi.x)) * (vi.z + 6))) * hcs

theorem getTriangles_frame0 (r : Vec3) :
    ((⟨⟨0, 0, 6⟩, r⟩ : Cube).update 0).getTriangles ⟨0, 0, 0⟩
      = [Cube.shade (((⟨⟨0, 0, 6⟩, r⟩ : Cube).update 0).matPfc ⟨0, 0, 0⟩)
            (Cube.projectedVertices (((⟨⟨0, 0, 6⟩, r⟩ : Cube).update 0).matPfc ⟨0, 0, 0⟩))
            0 1 2 (mapColor (0.2 : ℚ)) true,
          Cube.shade (((⟨⟨0, 0, 6⟩, r⟩ : Cube).update 0).matPfc ⟨0, 0, 0⟩)
            (Cube.projectedVertices (((⟨⟨0, 0, 6⟩, r⟩ : Cube).update 0).matPfc ⟨0, 0, 0⟩))
            2 3 0 (mapColor (0.2 : ℚ)) true] := by
  rw [Cube.getTriangles_filter]
  simp only [facesCamera_frame0]
  unfold Cube.faces
  simp only [filter_map_cons, List.filter_nil, List.map_nil]
  norm_num [Cube.arrVert, Vec3.dot, Vec3.cross, Vec3.sub, Vec3.add]

/-- C5 (as amended). A cube centred at `(0,0,6)`, after `update(0)`, viewed from the camera
`(0,0,0)`, makes `getTriangles` return exactly 2 records: the two triangles `(0,1,2)` and
`(2,3,0)` of the face `z = -0.5`, the one nearest to the camera. -/
theorem cube_frame0_two_records (r : Vec3) :
    (((⟨⟨0, 0, 6⟩, r⟩ : Cube).update 0).getTriangles ⟨0, 0, 0⟩).length = 2 ∧
      ((⟨⟨0, 0, 6⟩, r⟩ : Cube).update 0).getTriangles ⟨0, 0, 0⟩
        = [Cube.shade (((⟨⟨0, 0, 6⟩, r⟩ : Cube).update 0).matPfc ⟨0, 0, 0⟩)
            (Cube.projectedVertices (((⟨⟨0, 0, 6⟩, r⟩ : Cube).update 0).matPfc ⟨0, 0, 0⟩))
            0 1 2 (mapColor (0.2 : ℚ)) true,
          Cube.shade (((⟨⟨0, 0, 6⟩, r⟩ : Cube).update 0).matPfc ⟨0, 0, 0⟩)
            (Cube.projectedVertices (((⟨⟨0, 0, 6⟩, r⟩ : Cube).update 0).matPfc ⟨0, 0, 0⟩))
            2 3 0 (mapColor (0.2 : ℚ)) true] := by
  refine ⟨?_, getTriangles_frame0 r⟩
  rw [getTriangles_frame0]
  rfl

/-- C5 (as stated) fails: the cube centred at `(0,0,6)`, after `update(0)`, viewed from the
camera `(0,0,0)`, does not make `getTriangles` return 6 records. -/
theorem cube_frame0_not_six_records :
    ¬ ((((⟨⟨0, 0, 6⟩, ⟨0, 0, 0⟩⟩ : Cube).update 0).getTriangles ⟨0, 0, 0⟩).length = 6) := by
  rw [getTriangles_frame0]
  simp

/-! ## The depth sort -/

section StdSortPerm

variable {α : Type}

theorem set_getElem?_self (l : List α) (i : Nat) (a : α) (h : l[i]? = some a) :
    l.set i a = l := by
  induction l generalizing i with
  | nil => simp
  | cons x xs ih =>
    cases i with
    | zero => simp at h; simp [h]
    | succ i => simp at h; simp [ih i h]

theorem cons_set_perm (l : List α) (j : Nat) (p v : α) (hj : l[j]? = some p) :
    (p :: l.set j v).Perm (v :: l) := by
  induction l generalizing j with
  | nil => simp at hj
  | cons x xs ih =>
    cases j with
    | zero =>
      simp at hj
      subst hj
      simpa using List.Perm.swap v x xs
    | succ j =>
      simp at hj
      simp only [List.set_cons_succ]
      exact (List.Perm.swap x p _).trans (((ih j hj).cons x).trans (List.Perm.swap v x xs))

theorem cons_set_perm_cons_set (l : List α) (i : Nat) (x v : α) (hi : i < l.length) :
    (v :: l.set i x).Perm (x :: l.set i v) := by
  induction l generalizing i with
  | nil => simp at hi
  | cons y ys ih =>
    cases i with
    | zero =>
      simp only [List.set_cons_zero]
      exact List.Perm.swap x v ys
    | succ i =>
      simp only [List.length_cons, Nat.add_lt_add_iff_right] at hi
      simp only [List.set_cons_succ]
      exact (List.Perm.swap y v _).trans (((ih i hi).cons y).trans (List.Perm.swap x y _))

/-- Filling the hole at `i` with the element at `j` and moving the hole to `j` keeps the
elements: with the held value put into the hole the range is a permutation as before. -/
theorem set_set_perm (l : List α) (i j : Nat) (p v : α) (hi : i < l.length)
    (hj : l[j]? = some p) : ((l.set i p).set j v).Perm (l.set i v) := by
  induction l generalizing i j with
  | nil => simp at hi
  | cons x xs ih =>
    cases i with
    | zero =>
      cases j with
      | zero => simp
      | succ j =>
        simp at hj
        simpa using cons_set_perm xs j p v hj
    | succ i =>
      simp only [List.length_cons, Nat.add_lt_add_iff_right] at hi
      cases j with
      | zero =>
        simp at hj
        subst hj
        simpa using cons_set_perm_cons_set xs i x v hi
      | succ j =>
        simp at hj
        simpa using ih i j hi hj

theorem iter_swap_perm (l : List α) (i j : Nat) : (iter_swap l i j).Perm l := by
  unfold iter_swap
  split
  · rename_i a b ha hb
    have hi : i < l.length := (List.getElem?_eq_some.mp ha).1
    have h := set_set_perm l i j b a hi hb
    rwa [set_getElem?_self l i a ha] at h
  · exact List.Perm.refl l

theorem iter_swap_length (l : List α) (i j : Nat) : (iter_swap l i j).length = l.length :=
  (iter_swap_perm l i j).length_eq

theorem move_median_to_first_perm (comp : α → α → Bool) (l : List α) (result a b c : Nat) :
    (move_median_to_first comp l result a b c).Perm l := by
  unfold move_median_to_first
  split_ifs <;> exact iter_swap_perm _ _ _

theorem unguarded_partition_perm (comp : α → α → Bool) (pivot fuel : Nat) (l : List α)
    (first last : Nat) : (unguarded_partition comp pivot fuel l first last).1.Perm l := by
  induction fuel generalizing l first last with
  | zero => simp [unguarded_partition]
  | succ fuel ih =>
    unfold unguarded_partition
    dsimp only
    split_ifs
    · exact (ih _ _ _).trans (iter_swap_perm _ _ _)
    · exact List.Perm.refl l

theorem unguarded_partition_pivot_perm (comp : α → α → Bool) (l : List α) :
    (unguarded_partition_pivot comp l).1.Perm l := by
  unfold unguarded_partition_pivot
  exact (unguarded_partition_perm _ _ _ _ _ _).trans (move_median_to_first_perm _ _ _ _ _ _)

theorem push_heap_perm (comp : α → α → Bool) (topIndex : Nat) (value : α) (orig : List α)
    (fuel : Nat) (l : List α) (holeIndex : Nat) (hh : holeIndex < l.length)
    (hp : (l.set holeIndex value).Perm orig) :
    (push_heap comp topIndex value fuel l holeIndex).Perm orig := by
  induction fuel generalizing l holeIndex with
  | zero => simpa [push_heap] using hp
  | succ fuel ih =>
    unfold push_heap
    dsimp only
    split
    · rename_i p hpar
      split_ifs
      · have hlt : (holeIndex - 1) / 2 < l.length := by omega
        refine ih (l.set holeIndex p) ((holeIndex - 1) / 2) (by simpa using hlt) ?_
        exact (set_set_perm l holeIndex _ p value hh hpar).trans hp
      · exact hp
    · exact hp

theorem adjust_heap_loop_inv (comp : α → α → Bool) (len : Nat) (value : α) (orig : List α)
    (fuel : Nat) (l : List α) (holeIndex secondChild : Nat) (hh : holeIndex < l.length)
    (hp : (l.set holeIndex value).Perm orig) :
    (adjust_heap_loop comp len fuel l holeIndex secondChild).2.1
        < (adjust_heap_loop comp len fuel l holeIndex secondChild).1.length ∧
      ((adjust_heap_loop comp len fuel l holeIndex secondChild).1.set
        (adjust_heap_loop comp len fuel l holeIndex secondChild).2.1 value).Perm orig := by
  induction fuel generalizing l holeIndex secondChild with
  | zero => exact ⟨hh, hp⟩
  | succ fuel ih =>
    unfold adjust_heap_loop
    dsimp only
    split_ifs with h1 h2
    · split
      · rename_i x hx
        have hlt := (List.getElem?_eq_some.mp hx).1
        exact ih _ _ _ (by simpa using hlt) ((set_set_perm l holeIndex _ x value hh hx).trans hp)
      · exact ⟨hh, hp⟩
    · split
      · rename_i x hx
        have hlt := (List.getElem?_eq_some.mp hx).1
        exact ih _ _ _ (by simpa using hlt) ((set_set_perm l holeIndex _ x value hh hx).trans hp)
      · exact ⟨hh, hp⟩
    · exact ⟨hh, hp⟩

theorem adjust_heap_perm (comp : α → α → Bool) (l : List α) (holeIndex len : Nat) (value : α)
    (orig : List α) (hh : holeIndex < l.length) (hp : (l.set holeIndex value).Perm orig) :
    (adjust_heap comp l holeIndex len value).Perm orig := by
  unfold adjust_heap
  dsimp only
  obtain ⟨h1, h2⟩ := adjust_heap_loop_inv comp len value orig l.length l holeIndex holeIndex hh hp
  split_ifs
  · split
    · rename_i x hx
      have hlt := (List.getElem?_eq_some.mp hx).1
      exact push_heap_perm _ _ _ _ _ _ _ (by simpa using hlt)
        ((set_set_perm _ _ _ x value h1 hx).trans h2)
    · exact push_heap_perm _ _ _ _ _ _ _ h1 h2
  · exact push_heap_perm _ _ _ _ _ _ _ h1 h2

theorem pop_heap_perm (comp : α → α → Bool) (l : List α) (last result : Nat) :
    (pop_heap comp l last result).Perm l := by
  unfold pop_heap
  split
  · rename_i value top hv ht
    have hr := (List.getElem?_eq_some.mp hv).1
    have h0 := (List.getElem?_eq_some.mp ht).1
    refine adjust_heap_perm comp _ 0 last value l (by simpa using h0) ?_
    have h := set_set_perm l result 0 top value hr ht
    rwa [set_getElem?_self l result value hv] at h
  · exact List.Perm.refl l

theorem adjust_heap_at_perm (comp : α → α → Bool) (l : List α) (i len : Nat) (value : α)
    (hv : l[i]? = some value) : (adjust_heap comp l i len value).Perm l := by
  refine adjust_heap_perm comp l i len value l (List.getElem?_eq_some.mp hv).1 ?_
  rw [set_getElem?_self l i value hv]

theorem make_heap_loop_perm (comp : α → α → Bool) (len parent : Nat) (l : List α) :
    (make_heap_loop comp len parent l).Perm l := by
  induction parent generalizing l with
  | zero =>
    unfold make_heap_loop
    split
    · rename_i value hv
      exact adjust_heap_at_perm comp l 0 len value hv
    · exact List.Perm.refl l
  | succ parent ih =>
    unfold make_heap_loop
    split
    · rename_i value hv
      exact (ih _).trans (adjust_heap_at_perm comp l _ len value hv)
    · exact List.Perm.refl l

theorem make_heap_perm (comp : α → α → Bool) (l : List α) : (make_heap comp l).Perm l := by
  unfold make_heap
  split_ifs
  · exact List.Perm.refl l
  · exact make_heap_loop_perm _ _ _ _

theorem sort_heap_perm (comp : α → α → Bool) (last : Nat) (l : List α) :
    (sort_heap comp last l).Perm l := by
  induction last generalizing l with
  | zero => simp [sort_heap]
  | succ last ih =>
    unfold sort_heap
    split_ifs
    · exact (ih _).trans (pop_heap_perm _ _ _ _)
    · exact List.Perm.refl l

theorem sort_by_heap_perm (comp : α → α → Bool) (l : List α) : (sort_by_heap comp l).Perm l :=
  (sort_heap_perm _ _ _).trans (make_heap_perm _ _)

theorem introsort_loop_perm (comp : α → α → Bool) (depth_limit : Nat) (l : List α) :
    (introsort_loop comp depth_limit l).Perm l := by
  induction depth_limit generalizing l with
  | zero =>
    unfold introsort_loop
    split_ifs
    · exact sort_by_heap_perm _ _
    · exact List.Perm.refl l
  | succ d ih =>
    unfold introsort_loop
    dsimp only
    split_ifs
    · refine ((ih _).append (ih _)).trans ?_
      rw [List.take_append_drop]
      exact unguarded_partition_pivot_perm comp l
    · exact List.Perm.refl l

theorem unguarded_linear_insert_perm (comp : α → α → Bool) (val : α) (before : List α) :
    (unguarded_linear_insert comp val before).Perm (val :: before) := by
  induction before with
  | nil => simp [unguarded_linear_insert]
  | cons next before ih =>
    unfold unguarded_linear_insert
    split_ifs
    · exact (ih.cons next).trans (List.Perm.swap val next before)
    · exact List.Perm.refl _

theorem linear_insert_reverse_perm (comp : α → α → Bool) (val : α) (done : List α) :
    (unguarded_linear_insert comp val done.reverse).reverse.Perm (val :: done) :=
  (List.reverse_perm _).trans
    ((unguarded_linear_insert_perm comp val done.reverse).trans
      ((List.reverse_perm done).cons val))

theorem insertion_sort_step_perm (comp : α → α → Bool) (done : List α) (val : α) :
    (insertion_sort_step comp done val).Perm (val :: done) := by
  unfold insertion_sort_step
  split
  · exact List.Perm.refl _
  · split_ifs
    · exact List.Perm.refl _
    · exact linear_insert_reverse_perm comp val _

theorem foldl_insert_perm (f : List α → α → List α) (hf : ∀ done val, (f done val).Perm (val :: done))
    (l done : List α) : (l.foldl f done).Perm (done ++ l) := by
  induction l generalizing done with
  | nil => simp
  | cons x xs ih =>
    simp only [List.foldl_cons]
    refine (ih _).trans ?_
    refine ((hf done x).append_right xs).trans ?_
    simpa using (@List.perm_middle α x done xs).symm

theorem insertion_sort_perm (comp : α → α → Bool) (l : List α) :
    (insertion_sort comp l).Perm l := by
  unfold insertion_sort
  split
  · exact List.Perm.refl _
  · rename_i first rest
    simpa using foldl_insert_perm _ (insertion_sort_step_perm comp) rest [first]

theorem unguarded_insertion_sort_perm (comp : α → α → Bool) (done l : List α) :
    (unguarded_insertion_sort comp done l).Perm (done ++ l) :=
  foldl_insert_perm _ (fun d v => linear_insert_reverse_perm comp v d) l done

theorem final_insertion_sort_perm (comp : α → α → Bool) (l : List α) :
    (final_insertion_sort comp l).Perm l := by
  unfold final_insertion_sort
  split_ifs
  · refine (unguarded_insertion_sort_perm _ _ _).trans ?_
    refine ((insertion_sort_perm comp (l.take 16)).append_right _).trans ?_
    rw [List.take_append_drop]
  · exact insertion_sort_perm comp l

theorem stdSort_perm (comp : α → α → Bool) (l : List α) : (stdSort comp l).Perm l := by
  unfold stdSort
  split_ifs
  · exact (final_insertion_sort_perm _ _).trans (introsort_loop_perm _ _ _)
  · exact List.Perm.refl l

end StdSortPerm

section StdSortSorted

variable {α : Type} {K : Type} [LinearOrder K]

theorem mem_unguarded_linear_insert (comp : α → α → Bool) (val : α) (before : List α) (z : α) :
    z ∈ unguarded_linear_insert comp val before ↔ z = val ∨ z ∈ before := by
  induction before with
  | nil => simp [unguarded_linear_insert]
  | cons next before ih =>
    unfold unguarded_linear_insert
    split_ifs
    · simp only [List.mem_cons, ih]
      tauto
    · simp

theorem unguarded_linear_insert_sorted (key : α → K) (comp : α → α → Bool)
    (hc : ∀ a b, comp a b = true ↔ key b < key a) (val : α) (before : List α)
    (h : before.Pairwise (fun a b => key a ≤ key b)) :
    (unguarded_linear_insert comp val before).Pairwise (fun a b => key a ≤ key b) := by
  induction before with
  | nil => simp [unguarded_linear_insert]
  | cons next before ih =>
    rw [List.pairwise_cons] at h
    unfold unguarded_linear_insert
    split_ifs with hcmp
    · rw [List.pairwise_cons]
      refine ⟨?_, ih h.2⟩
      intro z hz
      rcases (mem_unguarded_linear_insert comp val before z).mp hz with hz | hz
      · subst hz
        exact le_of_lt ((hc _ _).mp hcmp)
      · exact h.1 z hz
    · have hle : key val ≤ key next := by
        by_contra hlt
        exact hcmp ((hc _ _).mpr (lt_of_not_le hlt))
      rw [List.pairwise_cons]
      refine ⟨?_, List.pairwise_cons.mpr h⟩
      intro z hz
      rcases List.mem_cons.mp hz with hz | hz
      · subst hz
        exact hle
      · exact le_trans hle (h.1 z hz)

theorem linear_insert_reverse_sorted (key : α → K) (comp : α → α → Bool)
    (hc : ∀ a b, comp a b = true ↔ key b < key a) (val : α) (done : List α)
    (h : done.Pairwise (fun a b => key b ≤ key a)) :
    (unguarded_linear_insert comp val done.reverse).reverse.Pairwise
      (fun a b => key b ≤ key a) := by
  rw [List.pairwise_reverse]
  apply unguarded_linear_insert_sorted key comp hc
  rw [List.pairwise_reverse]
  exact h

theorem insertion_sort_step_sorted (key : α → K) (comp : α → α → Bool)
    (hc : ∀ a b, comp a b = true ↔ key b < key a) (done : List α) (val : α)
    (h : done.Pairwise (fun a b => key b ≤ key a)) :
    (insertion_sort_step comp done val).Pairwise (fun a b => key b ≤ key a) := by
  unfold insertion_sort_step
  split
  · simp
  · rename_i first rest
    split_ifs with hcmp
    · rw [List.pairwise_cons]
      refine ⟨?_, h⟩
      have hlt := (hc _ _).mp hcmp
      intro z hz
      rcases List.mem_cons.mp hz with hz | hz
      · subst hz
        exact le_of_lt hlt
      · exact le_trans ((List.pairwise_cons.mp h).1 z hz) (le_of_lt hlt)
    · exact linear_insert_reverse_sorted key comp hc val _ h

theorem foldl_sorted (P : List α → Prop) (f : List α → α → List α)
    (hf : ∀ done val, P done → P (f done val)) (l done : List α) (h : P done) :
    P (l.foldl f done) := by
  induction l generalizing done with
  | nil => exact h
  | cons x xs ih => exact ih _ (hf done x h)

theorem insertion_sort_sorted (key : α → K) (comp : α → α → Bool)
    (hc : ∀ a b, comp a b = true ↔ key b < key a) (l : List α) :
    (insertion_sort comp l).Pairwise (fun a b => key b ≤ key a) := by
  unfold insertion_sort
  split
  · exact List.Pairwise.nil
  · rename_i first rest
    exact foldl_sorted (fun d => d.Pairwise (fun a b => key b ≤ key a)) _
      (fun d v hd => insertion_sort_step_sorted key comp hc d v hd) rest [first]
      (List.pairwise_singleton _ _)

theorem unguarded_insertion_sort_sorted (key : α → K) (comp : α → α → Bool)
    (hc : ∀ a b, comp a b = true ↔ key b < key a) (done l : List α)
    (h : done.Pairwise (fun a b => key b ≤ key a)) :
    (unguarded_insertion_sort comp done l).Pairwise (fun a b => key b ≤ key a) :=
  foldl_sorted (fun d => d.Pairwise (fun a b => key b ≤ key a)) _
    (fun d v hd => linear_insert_reverse_sorted key comp hc v d hd) l done h

theorem final_insertion_sort_sorted (key : α → K) (comp : α → α → Bool)
    (hc : ∀ a b, comp a b = true ↔ key b < key a) (l : List α) :
    (final_insertion_sort comp l).Pairwise (fun a b => key b ≤ key a) := by
  unfold final_insertion_sort
  split_ifs
  · exact unguarded_insertion_sort_sorted key comp hc _ _ (insertion_sort_sorted key comp hc _)
  · exact insertion_sort_sorted key comp hc l

/-- Whatever the comparison by a key into a linear order, the range that `std::sort` leaves
is in non-increasing order of the key. -/
theorem stdSort_sorted (key : α → K) (comp : α → α → Bool)
    (hc : ∀ a b, comp a b = true ↔ key b < key a) (l : List α) :
    (stdSort comp l).Pairwise (fun a b => key b ≤ key a) := by
  unfold stdSort
  split_ifs with h
  · exact final_insertion_sort_sorted key comp hc _
  · have : l = [] := by
      cases l with
      | nil => rfl
      | cons x xs => simp at h
    subst this
    exact List.Pairwise.nil

end StdSortSorted

section StdSortMap

variable {α β : Type}

theorem compAt_map (g : α → β) (comp : α → α → Bool) (comp2 : β → β → Bool)
    (hg : ∀ a b, comp2 (g a) (g b) = comp a b) (l : List α) (i j : Nat) :
    compAt comp2 (l.map g) i j = compAt comp l i j := by
  unfold compAt
  simp only [List.getElem?_map]
  cases l[i]? <;> cases l[j]? <;> simp [hg]

theorem iter_swap_map (g : α → β) (l : List α) (i j : Nat) :
    iter_swap (l.map g) i j = (iter_swap l i j).map g := by
  unfold iter_swap
  simp only [List.getElem?_map]
  cases l[i]? <;> cases l[j]? <;> simp [List.map_set]

theorem move_median_to_first_map (g : α → β) (comp : α → α → Bool) (comp2 : β → β → Bool)
    (hg : ∀ a b, comp2 (g a) (g b) = comp a b) (l : List α) (result a b c : Nat) :
    move_median_to_first comp2 (l.map g) result a b c
      = (move_median_to_first comp l result a b c).map g := by
  unfold move_median_to_first
  simp only [compAt_map g comp comp2 hg, iter_swap_map]
  split_ifs <;> rfl

theorem partition_up_map (g : α → β) (comp : α → α → Bool) (comp2 : β → β → Bool)
    (hg : ∀ a b, comp2 (g a) (g b) = comp a b) (l : List α) (pivot fuel first : Nat) :
    partition_up comp2 (l.map g) pivot fuel first = partition_up comp l pivot fuel first := by
  induction fuel generalizing first with
  | zero => rfl
  | succ fuel ih =>
    unfold partition_up
    rw [compAt_map g comp comp2 hg, ih]

theorem partition_down_map (g : α → β) (comp : α → α → Bool) (comp2 : β → β → Bool)
    (hg : ∀ a b, comp2 (g a) (g b) = comp a b) (l : List α) (pivot last : Nat) :
    partition_down comp2 (l.map g) pivot last = partition_down comp l pivot last := by
  induction last with
  | zero => rfl
  | succ last ih =>
    unfold partition_down
    rw [compAt_map g comp comp2 hg, ih]

theorem unguarded_partition_map (g : α → β) (comp : α → α → Bool) (comp2 : β → β → Bool)
    (hg : ∀ a b, comp2 (g a) (g b) = comp a b) (pivot fuel : Nat) (l : List α)
    (first last : Nat) :
    unguarded_partition comp2 pivot fuel (l.map g) first last
      = ((unguarded_partition comp pivot fuel l first last).1.map g,
          (unguarded_partition comp pivot fuel l first last).2) := by
  induction fuel generalizing l first last with
  | zero => rfl
  | succ fuel ih =>
    unfold unguarded_partition
    simp only [partition_up_map g comp comp2 hg, partition_down_map g comp comp2 hg,
      List.length_map, iter_swap_map, ih]
    split_ifs <;> rfl

theorem unguarded_partition_pivot_map (g : α → β) (comp : α → α → Bool)
    (comp2 : β → β → Bool) (hg : ∀ a b, comp2 (g a) (g b) = comp a b) (l : List α) :
    unguarded_partition_pivot comp2 (l.map g)
      = ((unguarded_partition_pivot comp l).1.map g, (unguarded_partition_pivot comp l).2) := by
  unfold unguarded_partition_pivot
  simp only [List.length_map, move_median_to_first_map g comp comp2 hg,
    unguarded_partition_map g comp comp2 hg]

theorem push_heap_map (g : α → β) (comp : α → α → Bool) (comp2 : β → β → Bool)
    (hg : ∀ a b, comp2 (g a) (g b) = comp a b) (topIndex : Nat) (value : α) (fuel : Nat)
    (l : List α) (holeIndex : Nat) :
    push_heap comp2 topIndex (g value) fuel (l.map g) holeIndex
      = (push_heap comp topIndex value fuel l holeIndex).map g := by
  induction fuel generalizing l holeIndex with
  | zero => simp [push_heap, List.map_set]
  | succ fuel ih =>
    unfold push_heap
    simp only [List.getElem?_map]
    cases h : l[(holeIndex - 1) / 2]? with
    | none => simp [List.map_set]
    | some p =>
      simp only [Option.map_some', hg]
      split_ifs
      · rw [← ih, List.map_set]
      · simp [List.map_set]

theorem adjust_heap_loop_map (g : α → β) (comp : α → α → Bool) (comp2 : β → β → Bool)
    (hg : ∀ a b, comp2 (g a) (g b) = comp a b) (len fuel : Nat) (l : List α)
    (holeIndex secondChild : Nat) :
    adjust_heap_loop comp2 len fuel (l.map g) holeIndex secondChild
      = ((adjust_heap_loop comp len fuel l holeIndex secondChild).1.map g,
          (adjust_heap_loop comp len fuel l holeIndex secondChild).2) := by
  induction fuel generalizing l holeIndex secondChild with
  | zero => rfl
  | succ fuel ih =>
    unfold adjust_heap_loop
    simp only [compAt_map g comp comp2 hg, List.getElem?_map]
    split_ifs with h1 h2
    · cases h : l[2 * (secondChild + 1) - 1]? with
      | none => rfl
      | some x => simp only [Option.map_some', ← List.map_set, ih]
    · cases h : l[2 * (secondChild + 1)]? with
      | none => rfl
      | some x => simp only [Option.map_some', ← List.map_set, ih]
    · rfl

theorem adjust_heap_map (g : α → β) (comp : α → α → Bool) (comp2 : β → β → Bool)
    (hg : ∀ a b, comp2 (g a) (g b) = comp a b) (l : List α) (holeIndex len : Nat)
    (value : α) :
    adjust_heap comp2 (l.map g) holeIndex len (g value)
      = (adjust_heap comp l holeIndex len value).map g := by
  unfold adjust_heap
  simp only [adjust_heap_loop_map g comp comp2 hg, List.length_map, List.getElem?_map]
  split_ifs
  · cases h : (adjust_heap_loop comp len l.length l holeIndex holeIndex).1[
        2 * ((adjust_heap_loop comp len l.length l holeIndex holeIndex).2.2 + 1) - 1]? with
    | none => simp only [Option.map_none', push_heap_map g comp comp2 hg]
    | some x => simp only [Option.map_some', ← List.map_set, push_heap_map g comp comp2 hg]
  · simp only [push_heap_map g comp comp2 hg]

theorem pop_heap_map (g : α → β) (comp : α → α → Bool) (comp2 : β → β → Bool)
    (hg : ∀ a b, comp2 (g a) (g b) = comp a b) (l : List α) (last result : Nat) :
    pop_heap comp2 (l.map g) last result = (pop_heap comp l last result).map g := by
  unfold pop_heap
  simp only [List.getElem?_map]
  cases l[result]? <;> cases l[0]? <;>
    simp [← List.map_set, adjust_heap_map g comp comp2 hg]

theorem make_heap_loop_map (g : α → β) (comp : α → α → Bool) (comp2 : β → β → Bool)
    (hg : ∀ a b, comp2 (g a) (g b) = comp a b) (len parent : Nat) (l : List α) :
    make_heap_loop comp2 len parent (l.map g) = (make_heap_loop comp len parent l).map g := by
  induction parent generalizing l with
  | zero =>
    unfold make_heap_loop
    simp only [List.getElem?_map]
    cases l[0]? <;> simp [adjust_heap_map g comp comp2 hg]
  | succ parent ih =>
    unfold make_heap_loop
    simp only [List.getElem?_map]
    cases l[parent + 1]? <;> simp [adjust_heap_map g comp comp2 hg, ih]

theorem make_heap_map (g : α → β) (comp : α → α → Bool) (comp2 : β → β → Bool)
    (hg : ∀ a b, comp2 (g a) (g b) = comp a b) (l : List α) :
    make_heap comp2 (l.map g) = (make_heap comp l).map g := by
  unfold make_heap
  simp only [List.length_map, make_heap_loop_map g comp comp2 hg]
  split_ifs <;> rfl

theorem sort_heap_map (g : α → β) (comp : α → α → Bool) (comp2 : β → β → Bool)
    (hg : ∀ a b, comp2 (g a) (g b) = comp a b) (last : Nat) (l : List α) :
    sort_heap comp2 last (l.map g) = (sort_heap comp last l).map g := by
  induction last generalizing l with
  | zero => rfl
  | succ last ih =>
    unfold sort_heap
    simp only [pop_heap_map g comp comp2 hg, ih]
    split_ifs <;> rfl

theorem sort_by_heap_map (g : α → β) (comp : α → α → Bool) (comp2 : β → β → Bool)
    (hg : ∀ a b, comp2 (g a) (g b) = comp a b) (l : List α) :
    sort_by_heap comp2 (l.map g) = (sort_by_heap comp l).map g := by
  unfold sort_by_heap
  simp only [List.length_map, make_heap_map g comp comp2 hg, sort_heap_map g comp comp2 hg]

theorem introsort_loop_map (g : α → β) (comp : α → α → Bool) (comp2 : β → β → Bool)
    (hg : ∀ a b, comp2 (g a) (g b) = comp a b) (depth_limit : Nat) (l : List α) :
    introsort_loop comp2 depth_limit (l.map g) = (introsort_loop comp depth_limit l).map g := by
  induction depth_limit generalizing l with
  | zero =>
    unfold introsort_loop
    simp only [List.length_map, sort_by_heap_map g comp comp2 hg]
    split_ifs <;> rfl
  | succ d ih =>
    unfold introsort_loop
    simp only [List.length_map, unguarded_partition_pivot_map g comp comp2 hg,
      ← List.map_take, ← List.map_drop, ih, ← List.map_append]
    split_ifs <;> rfl

theorem unguarded_linear_insert_map (g : α → β) (comp : α → α → Bool) (comp2 : β → β → Bool)
    (hg : ∀ a b, comp2 (g a) (g b) = comp a b) (val : α) (before : List α) :
    unguarded_linear_insert comp2 (g val) (before.map g)
      = (unguarded_linear_insert comp val before).map g := by
  induction before with
  | nil => rfl
  | cons next before ih =>
    simp only [List.map_cons, unguarded_linear_insert, hg, ih]
    split_ifs <;> rfl

theorem linear_insert_reverse_map (g : α → β) (comp : α → α → Bool) (comp2 : β → β → Bool)
    (hg : ∀ a b, comp2 (g a) (g b) = comp a b) (val : α) (done : List α) :
    (unguarded_linear_insert comp2 (g val) (done.map g).reverse).reverse
      = ((unguarded_linear_insert comp val done.reverse).reverse).map g := by
  rw [← List.map_reverse, unguarded_linear_insert_map g comp comp2 hg, List.map_reverse]

theorem insertion_sort_step_map (g : α → β) (comp : α → α → Bool) (comp2 : β → β → Bool)
    (hg : ∀ a b, comp2 (g a) (g b) = comp a b) (done : List α) (val : α) :
    insertion_sort_step comp2 (done.map g) (g val)
      = (insertion_sort_step comp done val).map g := by
  cases done with
  | nil => rfl
  | cons first rest =>
    have h := linear_insert_reverse_map g comp comp2 hg val (first :: rest)
    simp only [List.map_cons] at h
    simp only [insertion_sort_step, List.map_cons, hg, h]
    split_ifs <;> rfl

theorem foldl_map_comm (g : α → β) (f : List α → α → List α) (f2 : List β → β → List β)
    (hf : ∀ done val, f2 (done.map g) (g val) = (f done val).map g) (l done : List α) :
    (l.map g).foldl f2 (done.map g) = (l.foldl f done).map g := by
  induction l generalizing done with
  | nil => rfl
  | cons x xs ih => simp only [List.map_cons, List.foldl_cons, hf, ih]

theorem insertion_sort_map (g : α → β) (comp : α → α → Bool) (comp2 : β → β → Bool)
    (hg : ∀ a b, comp2 (g a) (g b) = comp a b) (l : List α) :
    insertion_sort comp2 (l.map g) = (insertion_sort comp l).map g := by
  cases l with
  | nil => rfl
  | cons first rest =>
    simp only [insertion_sort, List.map_cons]
    exact foldl_map_comm g _ _ (insertion_sort_step_map g comp comp2 hg) rest [first]

theorem unguarded_insertion_sort_map (g : α → β) (comp : α → α → Bool) (comp2 : β → β → Bool)
    (hg : ∀ a b, comp2 (g a) (g b) = comp a b) (done l : List α) :
    unguarded_insertion_sort comp2 (done.map g) (l.map g)
      = (unguarded_insertion_sort comp done l).map g :=
  foldl_map_comm g _ _ (fun d v => linear_insert_reverse_map g comp comp2 hg v d) l done

theorem final_insertion_sort_map (g : α → β) (comp : α → α → Bool) (comp2 : β → β → Bool)
    (hg : ∀ a b, comp2 (g a) (g b) = comp a b) (l : List α) :
    final_insertion_sort comp2 (l.map g) = (final_insertion_sort comp l).map g := by
  unfold final_insertion_sort
  simp only [List.length_map, ← List.map_take, ← List.map_drop,
    insertion_sort_map g comp comp2 hg, unguarded_insertion_sort_map g comp comp2 hg]
  split_ifs <;> rfl

/-- The sort does not look at the elements except through `comp`: it commutes with every
map that carries one comparison to the other. -/
theorem stdSort_map (g : α → β) (comp : α → α → Bool) (comp2 : β → β → Bool)
    (hg : ∀ a b, comp2 (g a) (g b) = comp a b) (l : List α) :
    stdSort comp2 (l.map g) = (stdSort comp l).map g := by
  unfold stdSort
  simp only [List.length_map, introsort_loop_map g comp comp2 hg,
    final_insertion_sort_map g comp comp2 hg]
  split_ifs <;> rfl

end StdSortMap

theorem introsort_loop_short {α : Type} (comp : α → α → Bool) (depth_limit : Nat) (l : List α)
    (h : l.length ≤ 16) : introsort_loop comp depth_limit l = l := by
  cases depth_limit <;> simp [introsort_loop, Nat.not_lt.mpr h]

/-- The sort rearranges the list: nothing is lost or duplicated. -/
theorem sortTriangles_perm (ts : List Triangle) : (Render.sortTriangles ts).Perm ts :=
  stdSort_perm _ ts

theorem sortTriangles_pairwise (ts : List Triangle) :
    (Render.sortTriangles ts).Pairwise (fun a b => b.distFromCamera ≤ a.distFromCamera) := by
  unfold Render.sortTriangles
  exact stdSort_sorted (fun t => t.distFromCamera)
    (fun t1 t2 => decide (t1.distFromCamera > t2.distFromCamera)) (fun a b => by simp) ts

/-- C1. After the sort of `Render::perFrame`, for every two positions `i < j` of the sorted
list the triangle at `i` has `distFromCamera` at least that of the triangle at `j`
(farthest first), for every input list of triangles. -/
theorem sortTriangles_descending (ts : List Triangle) (i j : Nat) (a b : Triangle)
    (hij : i < j) (ha : (Render.sortTriangles ts)[i]? = some a)
    (hb : (Render.sortTriangles ts)[j]? = some b) :
    a.distFromCamera ≥ b.distFromCamera := by
  obtain ⟨hi, rfl⟩ := List.getElem?_eq_some_iff.mp ha
  obtain ⟨hj, rfl⟩ := List.getElem?_eq_some_iff.mp hb
  exact (List.pairwise_iff_getElem.mp (sortTriangles_pairwise ts)) i j hi hj hij

theorem sortTriangles_descending_witness :
    (0 : Nat) < 1 ∧
      (Render.sortTriangles [⟨⟨0, 0⟩, ⟨0, 0⟩, ⟨0, 0⟩, 1, true, 0⟩,
        ⟨⟨0, 0⟩, ⟨0, 0⟩, ⟨0, 0⟩, 2, true, 0⟩])[0]?
          = some ⟨⟨0, 0⟩, ⟨0, 0⟩, ⟨0, 0⟩, 2, true, 0⟩ ∧
      (Render.sortTriangles [⟨⟨0, 0⟩, ⟨0, 0⟩, ⟨0, 0⟩, 1, true, 0⟩,
        ⟨⟨0, 0⟩, ⟨0, 0⟩, ⟨0, 0⟩, 2, true, 0⟩])[1]?
          = some ⟨⟨0, 0⟩, ⟨0, 0⟩, ⟨0, 0⟩, 1, true, 0⟩ ∧
      (⟨⟨0, 0⟩, ⟨0, 0⟩, ⟨0, 0⟩, 2, true, 0⟩ : Triangle).distFromCamera
        ≥ (⟨⟨0, 0⟩, ⟨0, 0⟩, ⟨0, 0⟩, 1, true, 0⟩ : Triangle).distFromCamera :=
  have h0 : (Render.sortTriangles [⟨⟨0, 0⟩, ⟨0, 0⟩, ⟨0, 0⟩, 1, true, 0⟩,
        ⟨⟨0, 0⟩, ⟨0, 0⟩, ⟨0, 0⟩, 2, true, 0⟩])[0]?
          = some ⟨⟨0, 0⟩, ⟨0, 0⟩, ⟨0, 0⟩, 2, true, 0⟩ := by
    norm_num [Render.sortTriangles, stdSort, introsort_loop_short, final_insertion_sort,
      insertion_sort, insertion_sort_step]
  have h1 : (Render.sortTriangles [⟨⟨0, 0⟩, ⟨0, 0⟩, ⟨0, 0⟩, 1, true, 0⟩,
        ⟨⟨0, 0⟩, ⟨0, 0⟩, ⟨0, 0⟩, 2, true, 0⟩])[1]?
          = some ⟨⟨0, 0⟩, ⟨0, 0⟩, ⟨0, 0⟩, 1, true, 0⟩ := by
    norm_num [Render.sortTriangles, stdSort, introsort_loop_short, final_insertion_sort,
      insertion_sort, insertion_sort_step]
  ⟨by decide, h0, h1, sortTriangles_descending _ 0 1 _ _ (by decide) h0 h1⟩

/-! ## Pixel access -/

theorem applyStores_fillRow (color : Nat) (n : Nat) (p : Int) (mem : Int → Nat) (a : Int) :
    applyStores mem (fillRow color n p) a = if p ≤ a ∧ a < p + n then color else mem a := by
  induction n generalizing p mem with
  | zero =>
    have : ¬ (p ≤ a ∧ a < p + ((0 : Nat) : Int)) := by
      push_cast
      omega
    rw [if_neg this]
    rfl
  | succ k ih =>
    simp only [fillRow, applyStores]
    rw [ih]
    push_cast
    by_cases h1 : a = p
    · subst h1
      by_cases h2 : a + 1 ≤ a ∧ a < a + 1 + (k : Int)
      · omega
      · rw [if_neg h2, if_pos rfl, if_pos (by omega)]
    · by_cases h2 : p + 1 ≤ a ∧ a < p + 1 + (k : Int)
      · rw [if_pos h2, if_pos (by omega)]
      · rw [if_neg h2, if_neg h1, if_neg (by omega)]

/-- Two pixels of the buffer with the same address are the same pixel. -/
theorem pixel_addr_inj (lx i j x y : Int) (hi0 : 0 ≤ i) (hi : i < lx) (hx0 : 0 ≤ x)
    (hx : x < lx) (h : i + lx * j = x + lx * y) : i = x ∧ j = y := by
  have hj : j = y := by
    rcases lt_trichotomy j y with hlt | heq | hgt
    · exfalso
      have h1 : lx * (y - j) ≥ lx * 1 := by
        apply mul_le_mul_of_nonneg_left <;> omega
      have h2 : lx * (y - j) = lx * y - lx * j := by ring
      omega
    · exact heq
    · exfalso
      have h1 : lx * (j - y) ≥ lx * 1 := by
        apply mul_le_mul_of_nonneg_left <;> omega
      have h2 : lx * (j - y) = lx * j - lx * y := by ring
      omega
  subst hj
  exact ⟨by omega, rfl⟩

/-- C18. Out-of-range horizontal fills are truncated: after `drawFastHLine(x, y, w, c)` a
pixel `(i, j)` of the buffer holds `c` when `j = y`, `0 ≤ y < ly` and
`max(x,0) ≤ i < min(x+w, lx)`, and keeps its previous value otherwise. -/
theorem drawFastHLine_pixels (lx ly x y w : Int) (c : Nat) (mem : Int → Nat) (i j : Int)
    (hi : 0 ≤ i ∧ i < lx) (hj : 0 ≤ j ∧ j < ly) :
    (ILI9341Wrapper.mk' lx ly).readPixel
        (applyStores mem ((ILI9341Wrapper.mk' lx ly).drawFastHLine x y w c)) i j
      = if j = y ∧ 0 ≤ y ∧ y < ly ∧ max x 0 ≤ i ∧ i < min (x + w) lx then c
        else (ILI9341Wrapper.mk' lx ly).readPixel mem i j := by
  have hread : ∀ m : Int → Nat, (ILI9341Wrapper.mk' lx ly).readPixel m i j = m (i + lx * j) := by
    intro m
    unfold ILI9341Wrapper.readPixel
    simp only [ILI9341Wrapper.mk']
    rw [if_neg (by omega)]
  rw [hread, hread]
  unfold ILI9341Wrapper.drawFastHLine
  simp only [ILI9341Wrapper.mk']
  by_cases hg : y < 0 ∨ y ≥ ly ∨ x ≥ lx
  · rw [if_pos hg]
    have hn : ¬ (j = y ∧ 0 ≤ y ∧ y < ly ∧ max x 0 ≤ i ∧ i < min (x + w) lx) := by
      rintro ⟨h1, h2, h3, h4, h5⟩
      have := le_max_left x 0
      omega
    rw [if_neg hn]
    rfl
  · rw [if_neg hg, applyStores_fillRow]
    push_neg at hg
    obtain ⟨hy0, hy1, hx⟩ := hg
    have hc := mul_comm lx y
    have hmax : max x 0 = if x < 0 then 0 else x := by
      split_ifs with h
      · exact max_eq_right (le_of_lt h)
      · exact max_eq_left (by omega)
    rw [hmax]
    by_cases hjy : j = y
    · subst hjy
      have hc2 := mul_comm lx j
      by_cases hx0 : x < 0
      · simp only [if_pos hx0]
        by_cases hw : 0 + (w + x) > lx
        · simp only [if_pos hw]
          rw [if_pos (by omega), if_pos ⟨trivial, hy0, hy1, by omega, lt_min (by omega) (by omega)⟩]
        · simp only [if_neg hw]
          by_cases hin : i < x + w
          · rw [if_pos (by omega), if_pos ⟨trivial, hy0, hy1, by omega, lt_min hin (by omega)⟩]
          · rw [if_neg (by omega), if_neg]
            rintro ⟨_, _, _, _, h5⟩
            exact hin (lt_of_lt_of_le h5 (min_le_left _ _))
      · simp only [if_neg hx0]
        by_cases hw : x + w > lx
        · simp only [if_pos hw]
          by_cases hin : x ≤ i
          · rw [if_pos (by omega), if_pos ⟨trivial, hy0, hy1, hin, lt_min (by omega) (by omega)⟩]
          · rw [if_neg (by omega), if_neg]
            rintro ⟨_, _, _, h4, _⟩
            exact hin h4
        · simp only [if_neg hw]
          by_cases hin : x ≤ i ∧ i < x + w
          · rw [if_pos (by omega), if_pos ⟨trivial, hy0, hy1, hin.1, lt_min hin.2 (by omega)⟩]
          · rw [if_neg (by omega), if_neg]
            rintro ⟨_, _, _, h4, h5⟩
            exact hin ⟨h4, lt_of_lt_of_le h5 (min_le_left _ _)⟩
    · have hn : ¬ (j = y ∧ 0 ≤ y ∧ y < ly ∧ (if x < 0 then 0 else x) ≤ i ∧
          i < min (x + w) lx) := fun h => hjy h.1
      rw [if_neg hn, if_neg]
      rintro ⟨h1, h2⟩
      have hx1 : 0 ≤ (if x < 0 then (0 : Int) else x) := by
        split_ifs <;> omega
      have hbound : (if x < 0 then (0 : Int) else x)
          + ((if ((if x < 0 then 0 else x) + if x < 0 then w + x else w) > lx
              then lx - (if x < 0 then 0 else x)
              else if x < 0 then w + x else w).toNat : Int) ≤ lx := by
        split_ifs <;> omega
      have key := pixel_addr_inj lx (i + lx * j - lx * y) y i j (by omega) (by omega) hi.1 hi.2
        (by ring)
      exact hjy key.2.symm

theorem drawFastHLine_pixels_witness :
    ((0 : Int) ≤ 1 ∧ (1 : Int) < 4) ∧ ((0 : Int) ≤ 2 ∧ (2 : Int) < 4) ∧
      (ILI9341Wrapper.mk' 4 4).readPixel
          (applyStores (fun _ => 0) ((ILI9341Wrapper.mk' 4 4).drawFastHLine (-3) 2 5 9)) 1 2
        = if (2 : Int) = 2 ∧ (0 : Int) ≤ 2 ∧ (2 : Int) < 4 ∧ max (-3 : Int) 0 ≤ 1 ∧
            (1 : Int) < min (-3 + 5) 4 then 9
          else (ILI9341Wrapper.mk' 4 4).readPixel (fun _ => 0) 1 2 :=
  ⟨by decide, by decide,
    drawFastHLine_pixels 4 4 (-3) 2 5 9 (fun _ => 0) 1 2 (by decide) (by decide)⟩

/-- C19. For `(x,y)` inside the buffer, `readPixel(x,y)` after `drawPixel(x,y,c)` returns `c`
and every other pixel reads as before; for `(x,y)` outside the buffer, `drawPixel` leaves the
whole pixel memory unchanged and `readPixel` returns 0. -/
theorem drawPixel_readPixel (lx ly x y : Int) (c : Nat) (mem : Int → Nat) :
    ((0 ≤ x ∧ x < lx ∧ 0 ≤ y ∧ y < ly) →
        (ILI9341Wrapper.mk' lx ly).readPixel
            (applyStores mem ((ILI9341Wrapper.mk' lx ly).drawPixel x y c)) x y = c ∧
          ∀ i j : Int, (i, j) ≠ (x, y) →
            (ILI9341Wrapper.mk' lx ly).readPixel
                (applyStores mem ((ILI9341Wrapper.mk' lx ly).drawPixel x y c)) i j
              = (ILI9341Wrapper.mk' lx ly).readPixel mem i j) ∧
      (¬ (0 ≤ x ∧ x < lx ∧ 0 ≤ y ∧ y < ly) →
        applyStores mem ((ILI9341Wrapper.mk' lx ly).drawPixel x y c) = mem ∧
          (ILI9341Wrapper.mk' lx ly).readPixel mem x y = 0) := by
  constructor
  · rintro ⟨hx0, hx, hy0, hy⟩
    have hd : (ILI9341Wrapper.mk' lx ly).drawPixel x y c = [⟨x + lx * y, c⟩] := by
      unfold ILI9341Wrapper.drawPixel
      simp only [ILI9341Wrapper.mk']
      rw [if_neg (by omega)]
    rw [hd]
    constructor
    · unfold ILI9341Wrapper.readPixel
      simp only [ILI9341Wrapper.mk']
      rw [if_neg (by omega)]
      simp [applyStores]
    · intro i j hne
      unfold ILI9341Wrapper.readPixel
      simp only [ILI9341Wrapper.mk']
      by_cases hout : i < 0 ∨ j < 0 ∨ i ≥ lx ∨ j ≥ ly
      · rw [if_pos hout, if_pos hout]
      · rw [if_neg hout, if_neg hout]
        simp only [applyStores]
        rw [if_neg]
        intro heq
        have key := pixel_addr_inj lx i j x y (by omega) (by omega) hx0 hx heq
        exact hne (by rw [key.1, key.2])
  · intro hout
    constructor
    · unfold ILI9341Wrapper.drawPixel
      simp only [ILI9341Wrapper.mk']
      rw [if_pos (by omega)]
      rfl
    · unfold ILI9341Wrapper.readPixel
      simp only [ILI9341Wrapper.mk']
      rw [if_pos (by omega)]

theorem drawPixel_readPixel_witness :
    ((ILI9341Wrapper.mk' 4 4).readPixel
          (applyStores (fun _ => 0) ((ILI9341Wrapper.mk' 4 4).drawPixel 1 2 9)) 1 2 = 9 ∧
        ∀ i j : Int, (i, j) ≠ (1, 2) →
          (ILI9341Wrapper.mk' 4 4).readPixel
              (applyStores (fun _ => 0) ((ILI9341Wrapper.mk' 4 4).drawPixel 1 2 9)) i j
            = (ILI9341Wrapper.mk' 4 4).readPixel (fun _ => 0) i j) ∧
      (applyStores (fun _ => 0) ((ILI9341Wrapper.mk' 4 4).drawPixel 4 2 9) = (fun _ => 0) ∧
        (ILI9341Wrapper.mk' 4 4).readPixel (fun _ => 0) 4 2 = 0) :=
  ⟨(drawPixel_readPixel 4 4 1 2 9 (fun _ => 0)).1 (by decide),
    (drawPixel_readPixel 4 4 4 2 9 (fun _ => 0)).2 (by decide)⟩

/-! ## Termination of the scanline loops -/

theorem toInt16_isInt16 (n : Int) : IsInt16 (toInt16 n) := by
  unfold IsInt16 toInt16 wrapSigned
  norm_num
  omega

/-- A scanline loop whose bound is 32767 never leaves: every `int16_t` counter value passes the
test `scanlineY <= 32767`. -/
theorem scanLoop_bound_max_unfinished (fb : ILI9341Wrapper) (m1 b1 m2 b2 : Int) (color : Nat)
    (fuel : Nat) (y : Int) (hy : IsInt16 y) :
    (fb.scanLoop m1 b1 m2 b2 32767 color fuel y).finished = false := by
  induction fuel generalizing y with
  | zero => rfl
  | succ k ih =>
    simp only [ILI9341Wrapper.scanLoop]
    rw [if_pos hy.2]
    exact ih _ (toInt16_isInt16 _)

theorem toInt16_of_isInt16 (n : Int) (h : IsInt16 n) : toInt16 n = n := by
  unfold IsInt16 at h
  unfold toInt16 wrapSigned
  norm_num
  omega

/-- A scanline loop whose bound is below 32767 comes to its end. -/
theorem scanLoop_finishes (fb : ILI9341Wrapper) (m1 b1 m2 b2 yEnd : Int) (color : Nat)
    (hEnd : yEnd < 32767) (fuel : Nat) (y : Int) (hy : IsInt16 y)
    (hfuel : yEnd - y + 1 < fuel) (hpos : 0 < fuel) :
    (fb.scanLoop m1 b1 m2 b2 yEnd color fuel y).finished = true := by
  induction fuel generalizing y with
  | zero => omega
  | succ k ih =>
    simp only [ILI9341Wrapper.scanLoop]
    by_cases hc : y ≤ yEnd
    · rw [if_pos hc]
      have hy2 : IsInt16 (y + 1) := ⟨by have := hy.1; omega, by omega⟩
      rw [toInt16_of_isInt16 _ hy2]
      push_cast at hfuel
      exact ih _ hy2 (by omega) (by omega)
    · rw [if_neg hc]

theorem sortVertices_spec (x0 y0 x1 y1 x2 y2 : Int) :
    (sortVertices x0 y0 x1 y1 x2 y2).2.1 ≤ (sortVertices x0 y0 x1 y1 x2 y2).2.2.2.1 ∧
      (sortVertices x0 y0 x1 y1 x2 y2).2.2.2.1 ≤ (sortVertices x0 y0 x1 y1 x2 y2).2.2.2.2.2 ∧
      (sortVertices x0 y0 x1 y1 x2 y2).2.2.2.2.2 = max y0 (max y1 y2) ∧
      (sortVertices x0 y0 x1 y1 x2 y2).2.1 = min y0 (min y1 y2) := by
  unfold sortVertices
  simp only []
  have hmax : max y0 (max y1 y2) = if y0 ≤ max y1 y2 then max y1 y2 else y0 := by
    split_ifs with h
    · exact max_eq_right h
    · exact max_eq_left (by omega)
  have hmax2 : max y1 y2 = if y1 ≤ y2 then y2 else y1 := by
    split_ifs with h
    · exact max_eq_right h
    · exact max_eq_left (by omega)
  have hmin : min y0 (min y1 y2) = if y0 ≤ min y1 y2 then y0 else min y1 y2 := by
    split_ifs with h
    · exact min_eq_left h
    · exact min_eq_right (by omega)
  have hmin2 : min y1 y2 = if y1 ≤ y2 then y1 else y2 := by
    split_ifs with h
    · exact min_eq_left h
    · exact min_eq_right (by omega)
  rw [hmax, hmin, hmax2, hmin2]
  split_ifs <;> dsimp only at * <;> omega

/-- A triangle with a vertex at `y = 32767` keeps `drawFilledTriangle` in a scanline loop for
ever: no number of loop tests brings the run to its end. -/
theorem drawFilledTriangle_unfinished (fb : ILI9341Wrapper) (x0 y0 x1 y1 x2 y2 : Int)
    (h16 : IsInt16 y0 ∧ IsInt16 y1 ∧ IsInt16 y2)
    (hmax : y0 = 32767 ∨ y1 = 32767 ∨ y2 = 32767) (color : Nat) (fuel : Nat) :
    (fb.drawFilledTriangle fuel x0 y0 x1 y1 x2 y2 color).finished = false := by
  obtain ⟨h0, h1, h2, h3⟩ := sortVertices_spec x0 y0 x1 y1 x2 y2
  have hy2 : (sortVertices x0 y0 x1 y1 x2 y2).2.2.2.2.2 = 32767 := by
    rw [h2]
    have a0 := h16.1.2
    have a1 := h16.2.1.2
    have a2 := h16.2.2.2
    have m1 : max y1 y2 ≤ 32767 := max_le a1 a2
    have m2 : max y0 (max y1 y2) ≤ 32767 := max_le a0 m1
    have m3 := le_max_left y0 (max y1 y2)
    have m4 := le_max_right y0 (max y1 y2)
    have m5 := le_max_left y1 y2
    have m6 := le_max_right y1 y2
    omega
  have hy1 : IsInt16 (sortVertices x0 y0 x1 y1 x2 y2).2.2.2.1 := by
    constructor
    · have b0 := h16.1.1
      have b1 := h16.2.1.1
      have b2 := h16.2.2.1
      have m1 : -32768 ≤ min y1 y2 := le_min b1 b2
      have m2 : -32768 ≤ min y0 (min y1 y2) := le_min b0 m1
      omega
    · omega
  unfold ILI9341Wrapper.drawFilledTriangle
  simp only []
  split_ifs with hf
  · rw [hy2]
    exact scanLoop_bound_max_unfinished _ _ _ _ _ _ _ _ hy1
  · simpa using hf

/-- C20 (failing input). The call `drawFilledTriangle(0, 0, 0, 0, 0, 32767, color)` does not
terminate: its second scanline loop is still running after any number of loop tests. -/
theorem drawFilledTriangle_loops_forever (lx ly : Int) (color : Nat) (fuel : Nat) :
    ((ILI9341Wrapper.mk' lx ly).drawFilledTriangle fuel 0 0 0 0 0 32767 color).finished
      = false :=
  drawFilledTriangle_unfinished _ 0 0 0 0 0 32767 (by decide) (by decide) color fuel

/-- With no vertex at `y = 32767` the run of `drawFilledTriangle` comes to its end. -/
theorem drawFilledTriangle_finishes (fb : ILI9341Wrapper) (x0 y0 x1 y1 x2 y2 : Int)
    (h16 : IsInt16 y0 ∧ IsInt16 y1 ∧ IsInt16 y2)
    (hmax : y0 < 32767 ∧ y1 < 32767 ∧ y2 < 32767) (color : Nat) :
    (fb.drawFilledTriangle 65538 x0 y0 x1 y1 x2 y2 color).finished = true := by
  obtain ⟨h0, h1, h2, h3⟩ := sortVertices_spec x0 y0 x1 y1 x2 y2
  have b0 := h16.1.1
  have b1 := h16.2.1.1
  have b2 := h16.2.2.1
  have m1 : -32768 ≤ min y1 y2 := le_min b1 b2
  have m2 : -32768 ≤ min y0 (min y1 y2) := le_min b0 m1
  have n1 : max y1 y2 < 32767 := max_lt hmax.2.1 hmax.2.2
  have n2 : max y0 (max y1 y2) < 32767 := max_lt hmax.1 n1
  have hy0 : IsInt16 (sortVertices x0 y0 x1 y1 x2 y2).2.1 := ⟨by omega, by omega⟩
  have hy1 : IsInt16 (sortVertices x0 y0 x1 y1 x2 y2).2.2.2.1 := ⟨by omega, by omega⟩
  unfold ILI9341Wrapper.drawFilledTriangle
  simp only []
  rw [if_pos (scanLoop_finishes _ _ _ _ _ _ _ (by omega) _ _ hy0 (by
    have := hy0.1
    push_cast
    omega) (by decide))]
  exact scanLoop_finishes _ _ _ _ _ _ _ (by omega) _ _ hy1 (by
    have := hy1.1
    push_cast
    omega) (by decide)

/-! ## Pose update and translation -/

/-- C16. For every frame index `t` and every prior state of the cube, `Cube::update(t)` sets the
rotation to `(0.3*t, 0.6*t, 30)` and leaves the centre unchanged; the result does not depend
on the previous rotation, and `update(t)` followed by `update(t)` equals `update(t)`. -/
theorem update_deterministic (c : Cube) (t : Nat) :
    (c.update t).rotation = ⟨0.3 * t, 0.6 * t, 30⟩ ∧ (c.update t).centre = c.centre ∧
      (∀ r : Vec3, (⟨c.centre, r⟩ : Cube).update t = c.update t) ∧
      (c.update t).update t = c.update t := by
  refine ⟨?_, rfl, fun r => rfl, rfl⟩
  simp only [Cube.update, Vec3.mk.injEq]
  refine ⟨by ring, by ring, trivial⟩

theorem matPfc_translation (r c k v : Vec3) :
    (⟨c.add v, r⟩ : Cube).matPfc (k.add v) = (⟨c, r⟩ : Cube).matPfc k := by
  funext i
  simp only [Cube.matPfc, Vec3.add, Vec3.sub, Vec3.mk.injEq]
  refine ⟨by ring, by ring, by ring⟩

/-- C17. Emitted triangles depend on the object position and the camera only through
`centre - camera`: a cube centred at `c + v` viewed from `k + v` returns the same list as the
cube centred at `c` viewed from `k` (exact real arithmetic). -/
theorem getTriangles_translation (r c k v : Vec3) :
    (⟨c.add v, r⟩ : Cube).getTriangles (k.add v) = (⟨c, r⟩ : Cube).getTriangles k := by
  unfold Cube.getTriangles
  rw [matPfc_translation]

/-! ## Depth fade -/

theorem unpack_color565 (r g b : Nat) (hr : r < 256) (hg : g < 256) (hb : b < 256) :
    unpackR (color565 r g b) = r / 8 * 8 ∧ unpackG (color565 r g b) = g / 4 * 4 ∧
      unpackB (color565 r g b) = b / 8 * 8 := by
  rw [color565_eq r g b hr hg hb]
  have hlt : r / 8 * 2048 + g / 4 * 32 + b / 8 < 65536 := by omega
  rw [unpackR_eq _ hlt, unpackG_eq, unpackB_eq]
  refine ⟨?_, ?_, ?_⟩ <;> omega



theorem floatToUFast8_mono {K : Type*} [LinearOrderedField K] [FloorRing K] (x y : K)
    (hx : 0 ≤ x) (hxy : x ≤ y) (hy : y ≤ 255) : floatToUFast8 x ≤ floatToUFast8 y := by
  have hy0 : (0 : K) ≤ y := le_trans hx hxy
  have hfl : ⌊x⌋ ≤ ⌊y⌋ := Int.floor_le_floor hxy
  have hfy : ⌊y⌋ ≤ 255 := by
    have h3 : ((⌊y⌋ : Int) : K) ≤ ((255 : Int) : K) := by
      push_cast
      exact le_trans (Int.floor_le y) hy
    exact_mod_cast h3
  have hfx : 0 ≤ ⌊x⌋ := Int.floor_nonneg.mpr hx
  unfold floatToUFast8 truncToInt fastBits
  rw [if_pos hx, if_pos hy0]
  norm_num
  omega

/-- Blending toward a darker channel value: the result falls as the weight grows and never
exceeds the base value. -/
theorem lerp8_down {K : Type*} [LinearOrderedField K] [FloorRing K] (a b : Nat) (hba : b ≤ a)
    (ha : a < 256) (t1 t2 : K) (h0 : 0 ≤ t1) (h12 : t1 ≤ t2) (h1 : t2 ≤ 1) :
    lerp8 a b t2 ≤ lerp8 a b t1 ∧ lerp8 a b t1 ≤ a := by
  rw [lerp8_eq a b ha (by omega), lerp8_eq a b ha (by omega)]
  have hab : (b : K) ≤ (a : K) := by exact_mod_cast hba
  have hb0 : (0 : K) ≤ (b : K) := Nat.cast_nonneg b
  have ha255 : (a : K) ≤ 255 := by
    have : a ≤ 255 := by omega
    exact_mod_cast this
  have e1 : (a : K) + ((b : K) - (a : K)) * t1 = (a : K) - ((a : K) - (b : K)) * t1 := by ring
  have e2 : (a : K) + ((b : K) - (a : K)) * t2 = (a : K) - ((a : K) - (b : K)) * t2 := by ring
  have hd : 0 ≤ (a : K) - (b : K) := by linarith
  have m12 : ((a : K) - (b : K)) * t1 ≤ ((a : K) - (b : K)) * t2 :=
    mul_le_mul_of_nonneg_left h12 hd
  have m2 : ((a : K) - (b : K)) * t2 ≤ ((a : K) - (b : K)) * 1 :=
    mul_le_mul_of_nonneg_left h1 hd
  have m1 : 0 ≤ ((a : K) - (b : K)) * t1 := mul_nonneg hd h0
  constructor
  · apply floatToUFast8_mono
    · rw [e2]
      linarith
    · rw [e1, e2]
      linarith
    · rw [e1]
      linarith
  · have hself : floatToUFast8 (a : K) = a :=
      floatToUFast8_of_floor (a : K) a ha (le_refl _) (by linarith)
    calc floatToUFast8 ((a : K) + ((b : K) - (a : K)) * t1)
        ≤ floatToUFast8 (a : K) := by
          apply floatToUFast8_mono
          · rw [e1]
            linarith
          · rw [e1]
            linarith
          · exact ha255
      _ = a := hself

theorem Cube.fade_range (d : ℝ) : 0 ≤ Cube.fade d ∧ Cube.fade d ≤ 1 := by
  unfold Cube.fade clamp
  split_ifs with h1 h2
  · norm_num
  · norm_num
  · push_neg at h1 h2
    constructor <;> linarith

theorem Cube.fade_mono (d1 d2 : ℝ) (h : d1 ≤ d2) : Cube.fade d1 ≤ Cube.fade d2 := by
  have hs : Real.sqrt (d1 / 20) ≤ Real.sqrt (d2 / 20) :=
    Real.sqrt_le_sqrt (by linarith)
  have h0 : 0 ≤ Real.sqrt (d1 / 20) := Real.sqrt_nonneg _
  have h0' : 0 ≤ Real.sqrt (d2 / 20) := Real.sqrt_nonneg _
  unfold Cube.fade clamp
  split_ifs <;> linarith

/-- C11. Farther faces darken: for every depth `d ≥ 0` the fade factor
`clamp(sqrt(d/20), 0, 2)/2` lies in `[0,1]` and is non-decreasing in `d`, and for every colour
`c` and depths `0 ≤ d1 ≤ d2` each colour field of `lerpCol(c, 0, fade(d2))` is at most the same
field of `lerpCol(c, 0, fade(d1))`, which is at most the same field of `c`. -/
theorem depth_fade_darkens (c : Nat) (hc : c < 65536) (d1 d2 : ℝ) (h0 : 0 ≤ d1)
    (h12 : d1 ≤ d2) :
    (∀ d : ℝ, 0 ≤ d → 0 ≤ Cube.fade d ∧ Cube.fade d ≤ 1) ∧ Cube.fade d1 ≤ Cube.fade d2 ∧
      (unpackR (lerpCol c 0 (Cube.fade d2)) ≤ unpackR (lerpCol c 0 (Cube.fade d1)) ∧
        unpackR (lerpCol c 0 (Cube.fade d1)) ≤ unpackR c) ∧
      (unpackG (lerpCol c 0 (Cube.fade d2)) ≤ unpackG (lerpCol c 0 (Cube.fade d1)) ∧
        unpackG (lerpCol c 0 (Cube.fade d1)) ≤ unpackG c) ∧
      (unpackB (lerpCol c 0 (Cube.fade d2)) ≤ unpackB (lerpCol c 0 (Cube.fade d1)) ∧
        unpackB (lerpCol c 0 (Cube.fade d1)) ≤ unpackB c) := by
  refine ⟨fun d _ => Cube.fade_range d, Cube.fade_mono d1 d2 h12, ?_⟩
  have f1 := (Cube.fade_range d1).1
  have f2 := (Cube.fade_range d2).2
  have fm := Cube.fade_mono d1 d2 h12
  have zR : unpackR 0 = 0 := by decide
  have zG : unpackG 0 = 0 := by decide
  have zB : unpackB 0 = 0 := by decide
  have cR := unpackR_eq c hc
  have cG := unpackG_eq c
  have cB := unpackB_eq c
  obtain ⟨r1, r2⟩ := lerp8_down (unpackR c) (unpackR 0) (by omega) (unpackR_lt c)
    (Cube.fade d1) (Cube.fade d2) f1 fm f2
  obtain ⟨g1, g2⟩ := lerp8_down (unpackG c) (unpackG 0) (by omega) (unpackG_lt c)
    (Cube.fade d1) (Cube.fade d2) f1 fm f2
  obtain ⟨b1, b2⟩ := lerp8_down (unpackB c) (unpackB 0) (by omega) (unpackB_lt c)
    (Cube.fade d1) (Cube.fade d2) f1 fm f2
  have e : ∀ t : ℝ, lerpCol c 0 t
      = color565 (lerp8 (unpackR c) (unpackR 0) t % 256)
          (lerp8 (unpackG c) (unpackG 0) t % 256)
          (lerp8 (unpackB c) (unpackB 0) t % 256) := fun t => rfl
  rw [e, e]
  obtain ⟨pRa, pGa, pBa⟩ := unpack_color565
    (lerp8 (unpackR c) (unpackR 0) (Cube.fade d1) % 256)
    (lerp8 (unpackG c) (unpackG 0) (Cube.fade d1) % 256)
    (lerp8 (unpackB c) (unpackB 0) (Cube.fade d1) % 256)
    (Nat.mod_lt _ (by decide)) (Nat.mod_lt _ (by decide)) (Nat.mod_lt _ (by decide))
  obtain ⟨pRb, pGb, pBb⟩ := unpack_color565
    (lerp8 (unpackR c) (unpackR 0) (Cube.fade d2) % 256)
    (lerp8 (unpackG c) (unpackG 0) (Cube.fade d2) % 256)
    (lerp8 (unpackB c) (unpackB 0) (Cube.fade d2) % 256)
    (Nat.mod_lt _ (by decide)) (Nat.mod_lt _ (by decide)) (Nat.mod_lt _ (by decide))
  rw [pRa, pGa, pBa, pRb, pGb, pBb]
  have hrl := unpackR_lt c
  have hgl := unpackG_lt c
  have hbl := unpackB_lt c
  refine ⟨⟨?_, ?_⟩, ⟨?_, ?_⟩, ⟨?_, ?_⟩⟩
  · clear cG cB g1 g2 b1 b2
    omega
  · clear cG cB g1 g2 b1 b2
    omega
  · clear cR cB r1 r2 b1 b2
    omega
  · clear cR cB r1 r2 b1 b2
    omega
  · clear cR cG r1 r2 g1 g2
    omega
  · clear cR cG r1 r2 g1 g2
    omega

theorem depth_fade_darkens_witness :
    (0x1234 : Nat) < 65536 ∧ (0 : ℝ) ≤ 5 ∧ (5 : ℝ) ≤ 20 ∧
      ((∀ d : ℝ, 0 ≤ d → 0 ≤ Cube.fade d ∧ Cube.fade d ≤ 1) ∧ Cube.fade 5 ≤ Cube.fade 20 ∧
        (unpackR (lerpCol 0x1234 0 (Cube.fade 20)) ≤ unpackR (lerpCol 0x1234 0 (Cube.fade 5)) ∧
          unpackR (lerpCol 0x1234 0 (Cube.fade 5)) ≤ unpackR 0x1234) ∧
        (unpackG (lerpCol 0x1234 0 (Cube.fade 20)) ≤ unpackG (lerpCol 0x1234 0 (Cube.fade 5)) ∧
          unpackG (lerpCol 0x1234 0 (Cube.fade 5)) ≤ unpackG 0x1234) ∧
        (unpackB (lerpCol 0x1234 0 (Cube.fade 20)) ≤ unpackB (lerpCol 0x1234 0 (Cube.fade 5)) ∧
          unpackB (lerpCol 0x1234 0 (Cube.fade 5)) ≤ unpackB 0x1234)) :=
  ⟨by decide, by norm_num, by norm_num,
    depth_fade_darkens 0x1234 (by decide) 5 20 (by norm_num) (by norm_num)⟩

/-! ## Ties in the depth sort -/

/-- The result of the sort meets the guarantee of `std::sort`. -/
theorem sortTriangles_post (ts : List Triangle) :
    StdSortPost Render.comp ts (Render.sortTriangles ts) := by
  refine ⟨sortTriangles_perm ts, (sortTriangles_pairwise ts).imp ?_⟩
  intro a b h
  unfold Render.comp
  simp only [gt_iff_lt, decide_eq_false_iff_not, not_lt]
  exact h

theorem stdSortPost_descending (ts out : List Triangle) (h : StdSortPost Render.comp ts out) :
    out.Pairwise (fun a b => b.distFromCamera ≤ a.distFromCamera) := by
  refine h.2.imp ?_
  intro a b hab
  unfold Render.comp at hab
  simpa using hab

/-- Whatever result the guarantee of `std::sort` allows, for every depth the triangles of that
depth are the same ones as in the input, in some order. -/
theorem stdSortPost_keeps_depth_groups (ts out : List Triangle)
    (h : StdSortPost Render.comp ts out) (d : ℝ) :
    (out.filter (fun t => decide (t.distFromCamera = d))).Perm
      (ts.filter (fun t => decide (t.distFromCamera = d))) :=
  h.1.filter _

/-- Seventeen elements that compare equal: the range is partitioned around the
median-of-three pivot, which swaps them pairwise from the two ends. -/
theorem stdSort_seventeen_ties :
    stdSort (fun (_ _ : Nat) => false) (List.range 17)
      = [8, 16, 15, 14, 13, 12, 11, 10, 9, 0, 7, 6, 5, 4, 3, 2, 1] := by
  decide!

/-- C12 (as amended). The sorted list holds the triangles of the emission list in
non-increasing depth order, and for every depth the triangles of that depth are the same
ones as in the emission list, in some order. -/
theorem sort_keeps_depth_groups (ts : List Triangle) :
    (Render.sortTriangles ts).Perm ts ∧
      (Render.sortTriangles ts).Pairwise (fun a b => b.distFromCamera ≤ a.distFromCamera) ∧
      ∀ d : ℝ, ((Render.sortTriangles ts).filter (fun t => decide (t.distFromCamera = d))).Perm
        (ts.filter (fun t => decide (t.distFromCamera = d))) :=
  ⟨sortTriangles_perm ts, sortTriangles_pairwise ts, fun _ => (sortTriangles_perm ts).filter _⟩

/-! ## Procedural noise -/

/-- The noise value is computed from the integer parts of the coordinates alone. -/
theorem cnoise_floor {K : Type*} [LinearOrderedField K] [FloorRing K] (P : K × K) :
    cnoise P = cnoise ((⌊P.1⌋ : K), (⌊P.2⌋ : K)) := by
  unfold cnoise
  simp only [Int.floor_intCast]

theorem cnoise_same_cell {K : Type*} [LinearOrderedField K] [FloorRing K] (P Q : K × K)
    (h1 : ⌊P.1⌋ = ⌊Q.1⌋) (h2 : ⌊P.2⌋ = ⌊Q.2⌋) : cnoise P = cnoise Q := by
  rw [cnoise_floor P, cnoise_floor Q, h1, h2]

theorem cnoise_cell_0_0 :
    cnoise ((0 : ℚ), (0 : ℚ))
      = some (-5219114342617305932540421 / 2756840000000000000000000) := by
  decide!

theorem cnoise_cell_1_0 :
    cnoise ((1 : ℚ), (0 : ℚ))
      = some (-2737632201502951535254857 / 2756840000000000000000000) := by
  decide!

/-- C13 (as stated) fails: no constant `L` bounds `|cnoise(P) - cnoise(Q)|` by `L * |P - Q|`
(written with squares, `|P - Q|` being the Euclidean distance); the values on the two sides
of the grid line `x = 1` stay apart by more than 1/2. -/
theorem cnoise_not_lipschitz :
    ¬ ∃ L : ℚ, 0 ≤ L ∧ ∀ P Q : ℚ × ℚ, ∀ a b : ℚ, cnoise P = some a → cnoise Q = some b →
      (a - b) ^ 2 ≤ L ^ 2 * ((P.1 - Q.1) ^ 2 + (P.2 - Q.2) ^ 2) := by
  rintro ⟨L, hL, h⟩
  have hpos : 0 < 2 * (L + 1) := by linarith
  have hx0 : (0 : ℚ) ≤ 1 - 1 / (2 * (L + 1)) := by
    rw [sub_nonneg, div_le_one hpos]
    linarith
  have hx1 : (1 : ℚ) - 1 / (2 * (L + 1)) < 1 := by
    have : 0 < 1 / (2 * (L + 1)) := div_pos one_pos hpos
    linarith
  have hfl : ⌊(1 : ℚ) - 1 / (2 * (L + 1))⌋ = 0 := by
    rw [Int.floor_eq_iff]
    constructor
    · simpa using hx0
    · simpa using hx1
  have hP : cnoise ((1 : ℚ) - 1 / (2 * (L + 1)), (0 : ℚ))
      = some (-5219114342617305932540421 / 2756840000000000000000000) := by
    have hc := cnoise_same_cell ((1 : ℚ) - 1 / (2 * (L + 1)), (0 : ℚ)) ((0 : ℚ), (0 : ℚ))
      (by
        show ⌊(1 : ℚ) - 1 / (2 * (L + 1))⌋ = ⌊(0 : ℚ)⌋
        rw [hfl, Int.floor_zero]) rfl
    rw [hc]
    exact cnoise_cell_0_0
  have key := h _ _ _ _ hP cnoise_cell_1_0
  simp only [sub_self] at key
  have e : ((1 : ℚ) - 1 / (2 * (L + 1)) - 1) ^ 2 = (1 / (2 * (L + 1))) ^ 2 := by ring
  rw [e] at key
  have hfrac : L * (1 / (2 * (L + 1))) < 1 / 2 := by
    rw [mul_one_div, div_lt_iff₀ hpos]
    linarith
  have hfrac0 : 0 ≤ L * (1 / (2 * (L + 1))) := mul_nonneg hL (le_of_lt (div_pos one_pos hpos))
  have hsq : L ^ 2 * ((1 / (2 * (L + 1))) ^ 2 + 0 ^ 2) < 1 / 4 := by
    have : L ^ 2 * ((1 / (2 * (L + 1))) ^ 2 + 0 ^ 2) = (L * (1 / (2 * (L + 1)))) ^ 2 := by ring
    rw [this]
    nlinarith
  have hbig : (1 / 4 : ℚ) < (-5219114342617305932540421 / 2756840000000000000000000
      - -2737632201502951535254857 / 2756840000000000000000000) ^ 2 := by norm_num
  linarith

/-- C13 (as amended). Inside one lattice cell the noise is Lipschitz with the constant 1: for
points `P` and `Q` with the same integer parts, `|cnoise(P) - cnoise(Q)| ≤ 1 * |P - Q|`
(written with squares). -/
theorem cnoise_lipschitz_in_cell {K : Type*} [LinearOrderedField K] [FloorRing K]
    (P Q : K × K) (a b : K) (h1 : ⌊P.1⌋ = ⌊Q.1⌋) (h2 : ⌊P.2⌋ = ⌊Q.2⌋)
    (ha : cnoise P = some a) (hb : cnoise Q = some b) :
    (a - b) ^ 2 ≤ 1 ^ 2 * ((P.1 - Q.1) ^ 2 + (P.2 - Q.2) ^ 2) := by
  have e := cnoise_same_cell P Q h1 h2
  rw [ha, hb] at e
  have hab : a = b := Option.some.inj e
  rw [hab, sub_self]
  have s1 := sq_nonneg (P.1 - Q.1)
  have s2 := sq_nonneg (P.2 - Q.2)
  have : (0 : K) ^ 2 = 0 := by norm_num
  rw [this, one_pow, one_mul]
  linarith

theorem cnoise_lipschitz_in_cell_witness :
    ⌊(1 / 4 : ℚ)⌋ = ⌊(3 / 4 : ℚ)⌋ ∧ ⌊(1 / 2 : ℚ)⌋ = ⌊(1 / 8 : ℚ)⌋ ∧
      cnoise ((1 / 4 : ℚ), (1 / 2 : ℚ))
        = some (-5219114342617305932540421 / 2756840000000000000000000) ∧
      cnoise ((3 / 4 : ℚ), (1 / 8 : ℚ))
        = some (-5219114342617305932540421 / 2756840000000000000000000) ∧
      ((-5219114342617305932540421 / 2756840000000000000000000 : ℚ)
          - -5219114342617305932540421 / 2756840000000000000000000) ^ 2
        ≤ 1 ^ 2 * (((1 / 4 : ℚ) - 3 / 4) ^ 2 + ((1 / 2 : ℚ) - 1 / 8) ^ 2) :=
  ⟨by decide!, by decide!, by decide!, by decide!,
    cnoise_lipschitz_in_cell ((1 / 4 : ℚ), (1 / 2 : ℚ)) ((3 / 4 : ℚ), (1 / 8 : ℚ)) _ _
      (by decide!) (by decide!) (by decide!) (by decide!)⟩

/-- C14 (failing input). At the lattice point `(-1, 0)` the first `permute` of `cnoise` reads
`p[int(-1) % 256] = p[-1]`, which is outside the table. -/
theorem cnoise_negative_reads_outside :
    Int.tmod (truncToInt (-1 : ℚ)) 256 = -1 ∧ readP (-1) = none ∧
      permute1 (-1 : ℚ) = none ∧ cnoise ((-1 : ℚ), (0 : ℚ)) = none := by
  refine ⟨by decide!, by decide!, by decide!, by decide!⟩

/-- C15 (failing input). At `(50, 50)`, the first point for which `Perlin::perFrame` calls
`cnoise`, the value is above 93. -/
theorem cnoise_50_50_large :
    cnoise ((50 : ℚ), (50 : ℚ))
        = some (259061050483714320103266319 / 2756840000000000000000000) ∧
      (93 : ℚ) < 259061050483714320103266319 / 2756840000000000000000000 := by
  refine ⟨by decide!, by norm_num⟩

/-- C22 (failing input). The table `p` has 512 entries, but the second half is not a copy of
the first: `p[0] = 151` and `p[0 + 256] = 0`. -/
theorem p_second_half_not_replicated :
    p.length = 512 ∧ p[0]? = some 151 ∧ p[0 + 256]? = some 0 := by
  refine ⟨by decide!, by decide!, by decide!⟩

/-- C27. The noise depends only on the integer cell of its argument:
`cnoise(P) = cnoise((floor(P.x), floor(P.y)))`. -/
theorem cnoise_depends_on_cell {K : Type*} [LinearOrderedField K] [FloorRing K] (P : K × K) :
    cnoise P = cnoise ((⌊P.1⌋ : K), (⌊P.2⌋ : K)) :=
  cnoise_floor P

/-- C30. For every choice of `int16_t` vertex coordinates the three slope divisors of
`drawFilledTriangle`, taken after the vertex sort, are at least 1 (and at most 65536, so the
`int` arithmetic does not overflow). -/
theorem slope_divisors_positive (x0 y0 x1 y1 x2 y2 : Int)
    (h16 : IsInt16 y0 ∧ IsInt16 y1 ∧ IsInt16 y2) :
    (1 ≤ (sortVertices x0 y0 x1 y1 x2 y2).2.2.2.1 - (sortVertices x0 y0 x1 y1 x2 y2).2.1 + 1 ∧
      (sortVertices x0 y0 x1 y1 x2 y2).2.2.2.1 - (sortVertices x0 y0 x1 y1 x2 y2).2.1 + 1
        ≤ 65536) ∧
    (1 ≤ (sortVertices x0 y0 x1 y1 x2 y2).2.2.2.2.2 - (sortVertices x0 y0 x1 y1 x2 y2).2.1 + 1 ∧
      (sortVertices x0 y0 x1 y1 x2 y2).2.2.2.2.2 - (sortVertices x0 y0 x1 y1 x2 y2).2.1 + 1
        ≤ 65536) ∧
    (1 ≤ (sortVertices x0 y0 x1 y1 x2 y2).2.2.2.2.2
        - (sortVertices x0 y0 x1 y1 x2 y2).2.2.2.1 + 1 ∧
      (sortVertices x0 y0 x1 y1 x2 y2).2.2.2.2.2 - (sortVertices x0 y0 x1 y1 x2 y2).2.2.2.1 + 1
        ≤ 65536) := by
  obtain ⟨h0, h1, h2, h3⟩ := sortVertices_spec x0 y0 x1 y1 x2 y2
  obtain ⟨⟨a0, a1⟩, ⟨b0, b1⟩, ⟨c0, c1⟩⟩ := h16
  have m1 : max y1 y2 ≤ 32767 := max_le b1 c1
  have m2 : max y0 (max y1 y2) ≤ 32767 := max_le a1 m1
  have n1 : -32768 ≤ min y1 y2 := le_min b0 c0
  have n2 : -32768 ≤ min y0 (min y1 y2) := le_min a0 n1
  refine ⟨⟨?_, ?_⟩, ⟨?_, ?_⟩, ⟨?_, ?_⟩⟩ <;> omega

theorem slope_divisors_positive_witness :
    (IsInt16 7 ∧ IsInt16 7 ∧ IsInt16 7) ∧
      ((1 ≤ (sortVertices 1 7 2 7 3 7).2.2.2.1 - (sortVertices 1 7 2 7 3 7).2.1 + 1 ∧
        (sortVertices 1 7 2 7 3 7).2.2.2.1 - (sortVertices 1 7 2 7 3 7).2.1 + 1 ≤ 65536) ∧
      (1 ≤ (sortVertices 1 7 2 7 3 7).2.2.2.2.2 - (sortVertices 1 7 2 7 3 7).2.1 + 1 ∧
        (sortVertices 1 7 2 7 3 7).2.2.2.2.2 - (sortVertices 1 7 2 7 3 7).2.1 + 1 ≤ 65536) ∧
      (1 ≤ (sortVertices 1 7 2 7 3 7).2.2.2.2.2 - (sortVertices 1 7 2 7 3 7).2.2.2.1 + 1 ∧
        (sortVertices 1 7 2 7 3 7).2.2.2.2.2 - (sortVertices 1 7 2 7 3 7).2.2.2.1 + 1
          ≤ 65536)) :=
  ⟨by decide, slope_divisors_positive 1 7 2 7 3 7 (by decide)⟩

theorem perm3_cases {α : Type} (a b c : α) :
    [b, a, c].Perm [a, b, c] ∧ [a, c, b].Perm [a, b, c] ∧ [c, b, a].Perm [a, b, c] ∧
      [b, c, a].Perm [a, b, c] ∧ [c, a, b].Perm [a, b, c] := by
  have h1 : [b, a, c].Perm [a, b, c] := List.Perm.swap a b [c]
  have h2 : [a, c, b].Perm [a, b, c] := List.Perm.cons a (List.Perm.swap b c [])
  have h4 : [b, c, a].Perm [a, b, c] :=
    (List.Perm.cons b (List.Perm.swap a c [])).trans h1
  have h5 : [c, a, b].Perm [a, b, c] := (List.Perm.swap a c [b]).trans h2
  have h3 : [c, b, a].Perm [a, b, c] := (List.Perm.swap b c [a]).trans h4
  exact ⟨h1, h2, h3, h4, h5⟩

/-- C23. For every input of `drawFilledTriangle`, after the three compare-and-swap steps the
vertices satisfy `y0 ≤ y1 ≤ y2` and the three `(x,y)` pairs are a permutation of the three
input pairs. -/
theorem sortVertices_sorted_perm (x0 y0 x1 y1 x2 y2 : Int) :
    (sortVertices x0 y0 x1 y1 x2 y2).2.1 ≤ (sortVertices x0 y0 x1 y1 x2 y2).2.2.2.1 ∧
      (sortVertices x0 y0 x1 y1 x2 y2).2.2.2.1 ≤ (sortVertices x0 y0 x1 y1 x2 y2).2.2.2.2.2 ∧
      [((sortVertices x0 y0 x1 y1 x2 y2).1, (sortVertices x0 y0 x1 y1 x2 y2).2.1),
        ((sortVertices x0 y0 x1 y1 x2 y2).2.2.1, (sortVertices x0 y0 x1 y1 x2 y2).2.2.2.1),
        ((sortVertices x0 y0 x1 y1 x2 y2).2.2.2.2.1,
          (sortVertices x0 y0 x1 y1 x2 y2).2.2.2.2.2)].Perm
        [(x0, y0), (x1, y1), (x2, y2)] := by
  obtain ⟨h0, h1, _, _⟩ := sortVertices_spec x0 y0 x1 y1 x2 y2
  refine ⟨h0, h1, ?_⟩
  obtain ⟨p1, p2, p3, p4, p5⟩ := perm3_cases (x0, y0) (x1, y1) (x2, y2)
  unfold sortVertices
  simp only []
  split_ifs <;> dsimp only at * <;>
    first
    | exact List.Perm.refl _
    | exact p1
    | exact p2
    | exact p3
    | exact p4
    | exact p5

/-- C21 (failing input). On a 4 x 4 buffer `drawVLine(0, 2, 3, color)` stores to the single
pixel `(0, 3)` (address 12), not to the pixels `(3, 0)` and `(3, 1)` of column 3, while
`drawHLine(0, 2, 3, color)` stores to the pixels `(0, 3)` and `(1, 3)` of row 3. -/
theorem drawVLine_swaps_arguments :
    (ILI9341Wrapper.mk' 4 4).drawVLine 0 2 3 9 = [⟨0 + 4 * 3, 9⟩] ∧
      (ILI9341Wrapper.mk' 4 4).readPixel
        (applyStores (fun _ => 0) ((ILI9341Wrapper.mk' 4 4).drawVLine 0 2 3 9)) 3 0 = 0 ∧
      (ILI9341Wrapper.mk' 4 4).readPixel
        (applyStores (fun _ => 0) ((ILI9341Wrapper.mk' 4 4).drawVLine 0 2 3 9)) 3 1 = 0 ∧
      (ILI9341Wrapper.mk' 4 4).drawHLine 0 2 3 9 = [⟨0 + 4 * 3, 9⟩, ⟨1 + 4 * 3, 9⟩] := by
  refine ⟨by decide, by decide, by decide, by decide⟩

/-- C29 (failing input). On a 4 x 4 buffer `drawLine(0, 0, 2, 1, color)` ends after storing to
the pixels `(0, 0)` and `(1, 0)` only: the endpoint `(2, 1)` keeps its previous value. -/
theorem drawLine_misses_endpoint :
    ((ILI9341Wrapper.mk' 4 4).drawLine 10 0 0 2 1 9).finished = true ∧
      ((ILI9341Wrapper.mk' 4 4).drawLine 10 0 0 2 1 9).stores = [⟨0, 9⟩, ⟨1, 9⟩] ∧
      (ILI9341Wrapper.mk' 4 4).readPixel
        (applyStores (fun _ => 0) ((ILI9341Wrapper.mk' 4 4).drawLine 10 0 0 2 1 9).stores)
        2 1 = 0 := by
  refine ⟨by decide, by decide, by decide⟩

section NoiseReads

variable {K : Type*} [LinearOrderedField K] [FloorRing K]

theorem truncToInt_intCast (k : Int) : truncToInt ((k : Int) : K) = k := by
  unfold truncToInt
  split_ifs
  · exact Int.floor_intCast k
  · exact Int.ceil_intCast k

theorem permuteIndex_intCast (k : Int) (hk : 0 ≤ k) :
    0 ≤ permuteIndex ((k : Int) : K) ∧ permuteIndex ((k : Int) : K) ≤ 255 := by
  unfold permuteIndex
  rw [truncToInt_intCast, Int.tmod_eq_emod hk (by norm_num)]
  omega

theorem readP_first_half (i : Int) (h0 : 0 ≤ i) (h1 : i ≤ 255) :
    ∃ v : Int, readP i = some v ∧ 0 ≤ v ∧ v ≤ 255 := by
  have key : ∀ n : Fin 256, ∃ v : Int, p[n.val]? = some v ∧ 0 ≤ v ∧ v ≤ 255 := by
    intro n
    have hlen : n.val < p.length := by
      have : p.length = 512 := by decide!
      omega
    refine ⟨p[n.val], List.getElem?_eq_getElem hlen, ?_⟩
    have hall : ∀ v ∈ p, 0 ≤ v ∧ v ≤ 255 := by decide!
    exact hall _ (List.getElem_mem hlen)
  obtain ⟨v, hv, hr⟩ := key ⟨i.toNat, by omega⟩
  refine ⟨v, ?_, hr⟩
  unfold readP
  rw [if_pos h0]
  exact hv

theorem permute1_intCast (k : Int) (hk : 0 ≤ k) :
    ∃ v : Int, permute1 ((k : Int) : K) = some ((v : Int) : K) ∧ 0 ≤ v ∧ v ≤ 255 := by
  obtain ⟨i0, i1⟩ := @permuteIndex_intCast K _ _ k hk
  obtain ⟨v, hv, hr⟩ := readP_first_half _ i0 i1
  refine ⟨v, ?_, hr⟩
  unfold permute1
  unfold permuteIndex at hv
  rw [hv]
  rfl

theorem cnoisePi_eq (P : K × K) (h1 : 0 ≤ ⌊P.1⌋) (h2 : 0 ≤ ⌊P.2⌋) :
    cnoisePi P = ⟨((⌊P.1⌋ % 289 : Int) : K), ((⌊P.2⌋ % 289 : Int) : K),
      (((⌊P.1⌋ + 1) % 289 : Int) : K), (((⌊P.2⌋ + 1) % 289 : Int) : K)⟩ := by
  have e0 : ∀ n : Int, ((n : Int) : K) + 0.0 = ((n : Int) : K) := by
    intro n
    norm_num
  have e1 : ∀ n : Int, ((n : Int) : K) + 1.0 = ((n + 1 : Int) : K) := by
    intro n
    push_cast
    norm_num
  unfold cnoisePi
  simp only [e0, e1, truncToInt_intCast]
  rw [Int.tmod_eq_emod h1 (by norm_num), Int.tmod_eq_emod h2 (by norm_num),
    Int.tmod_eq_emod (by omega) (by norm_num), Int.tmod_eq_emod (by omega) (by norm_num)]

/-- The reads of `cnoise` are those of the two `permute` calls: on `ix`, and on the sum of
the first result and `iy`. -/
theorem cnoise_isSome_iff (P : K × K) :
    (cnoise P).isSome = ((permute (cnoiseIx P)).bind (fun h =>
      permute ⟨h.v0 + (cnoiseIy P).v0, h.v1 + (cnoiseIy P).v1, h.v2 + (cnoiseIy P).v2,
        h.v3 + (cnoiseIy P).v3⟩)).isSome := by
  unfold cnoise cnoiseIx cnoiseIy cnoisePi
  simp only [bind, pure]
  rcases permute (_ : Vec4 K) with _ | h
  · rfl
  · simp only [Option.bind]
    rcases permute (_ : Vec4 K) with _ | i
    · rfl
    · rfl

theorem permute_intCast (a b c d : Int) (ha : 0 ≤ a) (hb : 0 ≤ b) (hc : 0 ≤ c) (hd : 0 ≤ d) :
    ∃ v0 v1 v2 v3 : Int,
      permute (⟨((a : Int) : K), ((b : Int) : K), ((c : Int) : K), ((d : Int) : K)⟩ : Vec4 K)
        = some ⟨((v0 : Int) : K), ((v1 : Int) : K), ((v2 : Int) : K), ((v3 : Int) : K)⟩ ∧
      (0 ≤ v0 ∧ v0 ≤ 255) ∧ (0 ≤ v1 ∧ v1 ≤ 255) ∧ (0 ≤ v2 ∧ v2 ≤ 255) ∧
      (0 ≤ v3 ∧ v3 ≤ 255) := by
  obtain ⟨v0, e0, r0⟩ := @permute1_intCast K _ _ a ha
  obtain ⟨v1, e1, r1⟩ := @permute1_intCast K _ _ b hb
  obtain ⟨v2, e2, r2⟩ := @permute1_intCast K _ _ c hc
  obtain ⟨v3, e3, r3⟩ := @permute1_intCast K _ _ d hd
  refine ⟨v0, v1, v2, v3, ?_, r0, r1, r2, r3⟩
  unfold permute
  simp only [e0, e1, e2, e3, bind, Option.bind, pure]

/-- C28. For every point `P` with `floor(P.x) ≥ 0` and `floor(P.y) ≥ 0` (and `floor + 1`
representable as `int`), every index `int(x) % 256` used by `permute` inside `cnoise` lies in
`0..255`: this holds for the four coefficients of `ix`, the inner `permute` returns a
vector `h`, it holds for the four coefficients of `h + iy`, and `cnoise` returns a value. -/
theorem cnoise_reads_in_first_half (P : K × K) (h1 : 0 ≤ ⌊P.1⌋) (h2 : 0 ≤ ⌊P.2⌋)
    (hint : ⌊P.1⌋ + 1 ≤ 2147483647 ∧ ⌊P.2⌋ + 1 ≤ 2147483647) :
    (∀ x ∈ (cnoiseIx P).toList, 0 ≤ permuteIndex x ∧ permuteIndex x ≤ 255) ∧
      ∃ h : Vec4 K, permute (cnoiseIx P) = some h ∧
        (∀ x ∈ (⟨h.v0 + (cnoiseIy P).v0, h.v1 + (cnoiseIy P).v1, h.v2 + (cnoiseIy P).v2,
            h.v3 + (cnoiseIy P).v3⟩ : Vec4 K).toList,
          0 ≤ permuteIndex x ∧ permuteIndex x ≤ 255) ∧
        (cnoise P).isSome = true := by
  have hpi := cnoisePi_eq P h1 h2
  have a0 : 0 ≤ ⌊P.1⌋ % 289 := Int.emod_nonneg _ (by norm_num)
  have a1 : 0 ≤ ⌊P.2⌋ % 289 := Int.emod_nonneg _ (by norm_num)
  have a2 : 0 ≤ (⌊P.1⌋ + 1) % 289 := Int.emod_nonneg _ (by norm_num)
  have a3 : 0 ≤ (⌊P.2⌋ + 1) % 289 := Int.emod_nonneg _ (by norm_num)
  have hix : cnoiseIx P = ⟨((⌊P.1⌋ % 289 : Int) : K), (((⌊P.1⌋ + 1) % 289 : Int) : K),
      ((⌊P.1⌋ % 289 : Int) : K), (((⌊P.1⌋ + 1) % 289 : Int) : K)⟩ := by
    unfold cnoiseIx
    rw [hpi]
  have hiy : cnoiseIy P = ⟨((⌊P.2⌋ % 289 : Int) : K), ((⌊P.2⌋ % 289 : Int) : K),
      (((⌊P.2⌋ + 1) % 289 : Int) : K), (((⌊P.2⌋ + 1) % 289 : Int) : K)⟩ := by
    unfold cnoiseIy
    rw [hpi]
  obtain ⟨v0, v1, v2, v3, hperm, r0, r1, r2, r3⟩ :=
    @permute_intCast K _ _ _ _ _ _ a0 a2 a0 a2
  have hsum : (⟨((v0 : Int) : K) + ((⌊P.2⌋ % 289 : Int) : K),
      ((v1 : Int) : K) + ((⌊P.2⌋ % 289 : Int) : K),
      ((v2 : Int) : K) + (((⌊P.2⌋ + 1) % 289 : Int) : K),
      ((v3 : Int) : K) + (((⌊P.2⌋ + 1) % 289 : Int) : K)⟩ : Vec4 K)
      = ⟨((v0 + ⌊P.2⌋ % 289 : Int) : K), ((v1 + ⌊P.2⌋ % 289 : Int) : K),
        ((v2 + (⌊P.2⌋ + 1) % 289 : Int) : K), ((v3 + (⌊P.2⌋ + 1) % 289 : Int) : K)⟩ := by
    push_cast
    rfl
  obtain ⟨w0, w1, w2, w3, hperm2, _⟩ :=
    @permute_intCast K _ _ (v0 + ⌊P.2⌋ % 289) (v1 + ⌊P.2⌋ % 289)
      (v2 + (⌊P.2⌋ + 1) % 289) (v3 + (⌊P.2⌋ + 1) % 289)
      (by omega) (by omega) (by omega) (by omega)
  refine ⟨?_, ⟨_, by rw [hix]; exact hperm, ?_, ?_⟩⟩
  · intro x hx
    rw [hix] at hx
    simp only [Vec4.toList, List.mem_cons, List.mem_singleton, List.not_mem_nil, or_false] at hx
    rcases hx with rfl | rfl | rfl | rfl
    · exact permuteIndex_intCast _ a0
    · exact permuteIndex_intCast _ a2
    · exact permuteIndex_intCast _ a0
    · exact permuteIndex_intCast _ a2
  · intro x hx
    rw [hiy] at hx
    simp only [] at hx
    rw [hsum] at hx
    simp only [Vec4.toList, List.mem_cons, List.mem_singleton, List.not_mem_nil, or_false] at hx
    rcases hx with rfl | rfl | rfl | rfl
    · exact permuteIndex_intCast _ (by omega)
    · exact permuteIndex_intCast _ (by omega)
    · exact permuteIndex_intCast _ (by omega)
    · exact permuteIndex_intCast _ (by omega)
  · rw [cnoise_isSome_iff, hix, hperm]
    simp only [Option.bind]
    rw [hiy]
    simp only []
    rw [hsum, hperm2]
    rfl

theorem cnoise_reads_in_first_half_witness :
    (0 : Int) ≤ ⌊(50 : ℚ)⌋ ∧ (0 : Int) ≤ ⌊(51 : ℚ)⌋ ∧
      (⌊(50 : ℚ)⌋ + 1 ≤ 2147483647 ∧ ⌊(51 : ℚ)⌋ + 1 ≤ 2147483647) ∧
      ((∀ x ∈ (cnoiseIx ((50 : ℚ), (51 : ℚ))).toList,
          0 ≤ permuteIndex x ∧ permuteIndex x ≤ 255) ∧
        ∃ h : Vec4 ℚ, permute (cnoiseIx ((50 : ℚ), (51 : ℚ))) = some h ∧
          (∀ x ∈ (⟨h.v0 + (cnoiseIy ((50 : ℚ), (51 : ℚ))).v0,
              h.v1 + (cnoiseIy ((50 : ℚ), (51 : ℚ))).v1,
              h.v2 + (cnoiseIy ((50 : ℚ), (51 : ℚ))).v2,
              h.v3 + (cnoiseIy ((50 : ℚ), (51 : ℚ))).v3⟩ : Vec4 ℚ).toList,
            0 ≤ permuteIndex x ∧ permuteIndex x ≤ 255) ∧
          (cnoise ((50 : ℚ), (51 : ℚ))).isSome = true) :=
  ⟨by decide!, by decide!, by decide!,
    cnoise_reads_in_first_half ((50 : ℚ), (51 : ℚ)) (by decide!) (by decide!) (by decide!)⟩

end NoiseReads

/-! ## The camera path of the scene -/

theorem arrVert_squaredNorm (i : Fin 8) : (Cube.arrVert i).squaredNorm = 3 / 4 := by
  fin_cases i <;> norm_num [Cube.arrVert, Vec3.squaredNorm, Vec3.dot]

theorem rotate_arrVert_z (rot : Vec3) (i : Fin 8) : -1 ≤ (Object.rotate Cube.arrVert rot i).z := by
  have h := Quat.rotation_squaredNorm _ (rotate_quat_unit rot) (Cube.arrVert i)
  rw [arrVert_squaredNorm] at h
  unfold Object.rotate
  simp only [Vec3.squaredNorm, Vec3.dot] at h
  nlinarith [mul_self_nonneg (((((Quat.ofAngleAxis (rot.z * Real.pi / 180) ⟨0, 0, 1⟩).mul
      (Quat.ofAngleAxis (rot.y * Real.pi / 180) ⟨0, 1, 0⟩)).mul
      (Quat.ofAngleAxis (rot.x * Real.pi / 180) ⟨1, 0, 0⟩)).toRotationMatrix.mulVec
        (Cube.arrVert i)).x),
    mul_self_nonneg (((((Quat.ofAngleAxis (rot.z * Real.pi / 180) ⟨0, 0, 1⟩).mul
      (Quat.ofAngleAxis (rot.y * Real.pi / 180) ⟨0, 1, 0⟩)).mul
      (Quat.ofAngleAxis (rot.x * Real.pi / 180) ⟨1, 0, 0⟩)).toRotationMatrix.mulVec
        (Cube.arrVert i)).y),
    mul_self_nonneg (((((Quat.ofAngleAxis (rot.z * Real.pi / 180) ⟨0, 0, 1⟩).mul
      (Quat.ofAngleAxis (rot.y * Real.pi / 180) ⟨0, 1, 0⟩)).mul
      (Quat.ofAngleAxis (rot.x * Real.pi / 180) ⟨1, 0, 0⟩)).toRotationMatrix.mulVec
        (Cube.arrVert i)).z + 1)]

theorem centres_z (centre : Vec3) (hc : centre ∈ Render.centres) : centre.z = 6 := by
  unfold Render.centres at hc
  simp only [List.mem_cons, List.mem_singleton, List.not_mem_nil, or_false] at hc
  rcases hc with rfl | rfl | rfl | rfl | rfl | rfl | rfl | rfl | rfl <;> rfl

theorem camera_z_le (time : Nat) : (Render.camera time).z ≤ 4 := by
  unfold Render.camera
  have := Real.cos_le_one (0.3 * (time : ℝ) * Real.pi / 180.0)
  simp only []
  norm_num at this ⊢
  linarith

theorem scene_matPfc_z (time : Nat) (rot centre : Vec3) (hc : centre ∈ Render.centres)
    (i : Fin 8) : 1 ≤ ((⟨centre, rot⟩ : Cube).matPfc (Render.camera time) i).z := by
  have h1 := rotate_arrVert_z rot i
  have h2 := centres_z centre hc
  have h3 := camera_z_le time
  simp only [Cube.matPfc, Vec3.add, Vec3.sub]
  linarith

/-- C25. For the scene built by `Render` (nine cubes with centre `z = 6`) and the camera path
of `perFrame`, for every frame counter value and every rotation, every camera-space vertex
has `z ≥ 1`, so the divisor of the projection is not zero and every emitted depth is
positive (exact real arithmetic). -/
theorem scene_depth_positive (time : Nat) (rot centre : Vec3)
    (hc : centre ∈ Render.centres) :
    (∀ i : Fin 8, 1 ≤ ((⟨centre, rot⟩ : Cube).matPfc (Render.camera time) i).z ∧
        ((⟨centre, rot⟩ : Cube).matPfc (Render.camera time) i).z ≠ 0) ∧
      ∀ t ∈ (⟨centre, rot⟩ : Cube).getTriangles (Render.camera time),
        0 < t.distFromCamera := by
  constructor
  · intro i
    have h := scene_matPfc_z time rot centre hc i
    exact ⟨h, by linarith⟩
  · intro t ht
    rw [Cube.getTriangles_filter, List.mem_map] at ht
    obtain ⟨f, _, hf⟩ := ht
    rw [← hf]
    have h := scene_matPfc_z time rot centre hc f.2.2.1
    show 0 < ((⟨centre, rot⟩ : Cube).matPfc (Render.camera time) f.2.2.1).z
    linarith

theorem scene_depth_positive_witness :
    (⟨0, 0, 6⟩ : Vec3) ∈ Render.centres ∧
      ((∀ i : Fin 8, 1 ≤ ((⟨⟨0, 0, 6⟩, ⟨0, 0, 30⟩⟩ : Cube).matPfc (Render.camera 1) i).z ∧
          ((⟨⟨0, 0, 6⟩, ⟨0, 0, 30⟩⟩ : Cube).matPfc (Render.camera 1) i).z ≠ 0) ∧
        ∀ t ∈ (⟨⟨0, 0, 6⟩, ⟨0, 0, 30⟩⟩ : Cube).getTriangles (Render.camera 1),
          0 < t.distFromCamera) :=
  have h : (⟨0, 0, 6⟩ : Vec3) ∈ Render.centres := by
    unfold Render.centres
    simp
  ⟨h, scene_depth_positive 1 ⟨0, 0, 30⟩ ⟨0, 0, 6⟩ h⟩

/-! ## Opposite faces of the cube -/

/-- The matrix of a unit quaternion keeps the scalar triple product (its determinant is 1). -/
theorem Quat.rotation_triple (q : Quat) (hq : q.w ^ 2 + q.x ^ 2 + q.y ^ 2 + q.z ^ 2 = 1)
    (a b c : Vec3) :
    ((q.toRotationMatrix.mulVec a).cross (q.toRotationMatrix.mulVec b)).dot
        (q.toRotationMatrix.mulVec c) = (a.cross b).dot c := by
  simp only [Quat.toRotationMatrix, Mat3.mulVec, Vec3.cross, Vec3.dot]
  linear_combination
    (4 * (q.x ^ 2 + q.y ^ 2 + q.z ^ 2) * ((a.y * b.z - a.z * b.y) * c.x
      + (a.z * b.x - a.x * b.z) * c.y + (a.x * b.y - a.y * b.x) * c.z)) * hq

/-- The matrix of a unit quaternion keeps the dot product. -/
theorem Quat.rotation_dot (q : Quat) (hq : q.w ^ 2 + q.x ^ 2 + q.y ^ 2 + q.z ^ 2 = 1)
    (a b : Vec3) :
    (q.toRotationMatrix.mulVec a).dot (q.toRotationMatrix.mulVec b) = a.dot b := by
  simp only [Quat.toRotationMatrix, Mat3.mulVec, Vec3.dot]
  linear_combination
    (4 * ((q.y * a.z - q.z * a.y) * (q.y * b.z - q.z * b.y)
      + (q.z * a.x - q.x * a.z) * (q.z * b.x - q.x * b.z)
      + (q.x * a.y - q.y * a.x) * (q.x * b.y - q.y * b.x))) * hq

theorem Vec3.cross_squaredNorm (u w : Vec3) :
    (u.cross w).squaredNorm = u.squaredNorm * w.squaredNorm - u.dot w ^ 2 := by
  simp only [Vec3.cross, Vec3.squaredNorm, Vec3.dot]
  ring

theorem Mat3.mulVec_add_sub (m : Mat3) (u v T : Vec3) :
    ((m.mulVec u).add T).sub ((m.mulVec v).add T) = m.mulVec (u.sub v) := by
  simp only [Mat3.mulVec, Vec3.sub, Vec3.add, Vec3.mk.injEq]
  refine ⟨?_, ?_, ?_⟩ <;> ring

/-- The facing value of a triangle of the rotated and translated template, for a triangle
whose two edge vectors span a parallelogram of area 1. -/
theorem facingValue_rot (q : Quat) (hq : q.w ^ 2 + q.x ^ 2 + q.y ^ 2 + q.z ^ 2 = 1)
    (T vi vj vk : Vec3)
    (harea : (vj.sub vi).squaredNorm * (vk.sub vi).squaredNorm
      - (vj.sub vi).dot (vk.sub vi) ^ 2 = 1) :
    facingValue ((q.toRotationMatrix.mulVec vi).add T) ((q.toRotationMatrix.mulVec vj).add T)
        ((q.toRotationMatrix.mulVec vk).add T)
      = ((vj.sub vi).cross (vk.sub vi)).dot vi
        + ((q.toRotationMatrix.mulVec (vj.sub vi)).cross
            (q.toRotationMatrix.mulVec (vk.sub vi))).dot T := by
  unfold facingValue Normal
  rw [Vec3.normalized_dot, Mat3.mulVec_add_sub, Mat3.mulVec_add_sub, Vec3.cross_squaredNorm,
    Quat.rotation_squaredNorm _ hq, Quat.rotation_squaredNorm _ hq, Quat.rotation_dot _ hq,
    harea, Real.sqrt_one, div_one]
  have h3 := Quat.rotation_triple q hq (vj.sub vi) (vk.sub vi) vi
  have e : ∀ n a t : Vec3, n.dot (a.add t) = n.dot a + n.dot t := by
    intro n a t
    simp only [Vec3.dot, Vec3.add]
    ring
  rw [e, h3]

set_option maxHeartbeats 1000000 in
theorem opposite_facing_sum (q : Quat) (hq : q.w ^ 2 + q.x ^ 2 + q.y ^ 2 + q.z ^ 2 = 1)
    (T : Vec3) (pair : (Fin 8 × Fin 8 × Fin 8) × (Fin 8 × Fin 8 × Fin 8))
    (hp : pair ∈ Cube.oppositeTriangles) :
    facingValue ((q.toRotationMatrix.mulVec (Cube.arrVert pair.1.1)).add T)
        ((q.toRotationMatrix.mulVec (Cube.arrVert pair.1.2.1)).add T)
        ((q.toRotationMatrix.mulVec (Cube.arrVert pair.1.2.2)).add T)
      + facingValue ((q.toRotationMatrix.mulVec (Cube.arrVert pair.2.1)).add T)
        ((q.toRotationMatrix.mulVec (Cube.arrVert pair.2.2.1)).add T)
        ((q.toRotationMatrix.mulVec (Cube.arrVert pair.2.2.2)).add T) = -1 := by
  unfold Cube.oppositeTriangles at hp
  simp only [List.mem_cons, List.mem_singleton, List.not_mem_nil, or_false] at hp
  rcases hp with rfl | rfl | rfl | rfl | rfl | rfl | rfl | rfl | rfl | rfl | rfl | rfl <;>
    (rw [facingValue_rot q hq T _ _ _
        (by norm_num [Cube.arrVert, Vec3.sub, Vec3.squaredNorm, Vec3.dot]),
      facingValue_rot q hq T _ _ _
        (by norm_num [Cube.arrVert, Vec3.sub, Vec3.squaredNorm, Vec3.dot])]
     generalize q.toRotationMatrix = M
     simp only [Cube.arrVert, Vec3.sub, Vec3.cross, Vec3.dot, Mat3.mulVec]
     ring)

theorem length_filter_cons_ite {α : Type} (p : α → Bool) (a : α) (l : List α) :
    ((a :: l).filter p).length = (if p a = true then 1 else 0) + (l.filter p).length := by
  by_cases h : p a = true
  · simp [List.filter_cons, h, Nat.add_comm]
  · simp [List.filter_cons, h]

theorem facesCamera_eq_facingValue (t1 t2 t3 : Vec3) :
    FacesCamera t1 t2 t3 = decide (facingValue t1 t2 t3 > 0) := rfl

theorem matPfc_opposite (c : Cube) (camera : Vec3)
    (pair : (Fin 8 × Fin 8 × Fin 8) × (Fin 8 × Fin 8 × Fin 8))
    (hp : pair ∈ Cube.oppositeTriangles) :
    facingValue (c.matPfc camera pair.1.1) (c.matPfc camera pair.1.2.1)
        (c.matPfc camera pair.1.2.2)
      + facingValue (c.matPfc camera pair.2.1) (c.matPfc camera pair.2.2.1)
        (c.matPfc camera pair.2.2.2) = -1 :=
  opposite_facing_sum _ (rotate_quat_unit c.rotation) (c.centre.sub camera) pair hp

theorem matPfc_opposite_not_both (c : Cube) (camera : Vec3)
    (pair : (Fin 8 × Fin 8 × Fin 8) × (Fin 8 × Fin 8 × Fin 8))
    (hp : pair ∈ Cube.oppositeTriangles) :
    ¬ (FacesCamera (c.matPfc camera pair.1.1) (c.matPfc camera pair.1.2.1)
          (c.matPfc camera pair.1.2.2) = true ∧
        FacesCamera (c.matPfc camera pair.2.1) (c.matPfc camera pair.2.2.1)
          (c.matPfc camera pair.2.2.2) = true) := by
  have h := matPfc_opposite c camera pair hp
  rw [facesCamera_eq_facingValue, facesCamera_eq_facingValue]
  simp only [gt_iff_lt, decide_eq_true_eq]
  rintro ⟨h1, h2⟩
  linarith

theorem getTriangles_length_le (c : Cube) (camera : Vec3) :
    (c.getTriangles camera).length ≤ 6 := by
  have n1 := matPfc_opposite_not_both c camera ((0, 1, 2), (7, 6, 5))
    (by simp [Cube.oppositeTriangles])
  have n2 := matPfc_opposite_not_both c camera ((2, 3, 0), (5, 4, 7))
    (by simp [Cube.oppositeTriangles])
  have n3 := matPfc_opposite_not_both c camera ((1, 5, 6), (4, 0, 3))
    (by simp [Cube.oppositeTriangles])
  have n4 := matPfc_opposite_not_both c camera ((6, 2, 1), (3, 7, 4))
    (by simp [Cube.oppositeTriangles])
  have n5 := matPfc_opposite_not_both c camera ((4, 5, 1), (3, 2, 6))
    (by simp [Cube.oppositeTriangles])
  have n6 := matPfc_opposite_not_both c camera ((1, 0, 4), (6, 7, 3))
    (by simp [Cube.oppositeTriangles])
  rw [Cube.getTriangles_filter, List.length_map]
  unfold Cube.faces
  simp only [length_filter_cons_ite, List.filter_nil, List.length_nil]
  simp only [] at n1 n2 n3 n4 n5 n6
  have e : ∀ a b : Bool, ¬ (a = true ∧ b = true) →
      (if a = true then 1 else 0) + (if b = true then 1 else 0) ≤ 1 := by
    intro a b h
    cases a <;> cases b <;> simp at h ⊢
  have k1 := e _ _ n1
  have k2 := e _ _ n2
  have k3 := e _ _ n3
  have k4 := e _ _ n4
  have k5 := e _ _ n5
  have k6 := e _ _ n6
  omega

/-- C26. For every rotation, centre and camera, `Cube::getTriangles` returns at most 6
triangle records: for two triangles on opposite faces of the cube the signed facing values
sum to -1, so the two are never both front-facing (exact real arithmetic). -/
theorem getTriangles_at_most_six (c : Cube) (camera : Vec3) :
    (c.getTriangles camera).length ≤ 6 ∧
      ∀ pair ∈ Cube.oppositeTriangles,
        facingValue (c.matPfc camera pair.1.1) (c.matPfc camera pair.1.2.1)
            (c.matPfc camera pair.1.2.2)
          + facingValue (c.matPfc camera pair.2.1) (c.matPfc camera pair.2.2.1)
            (c.matPfc camera pair.2.2.2) = -1 ∧
        ¬ (FacesCamera (c.matPfc camera pair.1.1) (c.matPfc camera pair.1.2.1)
              (c.matPfc camera pair.1.2.2) = true ∧
            FacesCamera (c.matPfc camera pair.2.1) (c.matPfc camera pair.2.2.1)
              (c.matPfc camera pair.2.2.2) = true) :=
  ⟨getTriangles_length_le c camera,
    fun pair hp => ⟨matPfc_opposite c camera pair hp, matPfc_opposite_not_both c camera pair hp⟩⟩

/-! ## The edges of the filled triangle -/

theorem edge_core (M ya y n D : Int) (hM0 : 0 ≤ M) (hMn : M * n ≤ 256 * D) (hy : ya ≤ y)
    (hyn : y - ya ≤ n - 1) :
    0 ≤ (M * y) / 256 - (M * ya) / 256 ∧ (M * y) / 256 - (M * ya) / 256 ≤ D := by
  have h1 : M * ya ≤ M * y := mul_le_mul_of_nonneg_left hy hM0
  have h2 : M * (y - ya) ≤ M * (n - 1) := mul_le_mul_of_nonneg_left hyn hM0
  have h3 : M * (y - ya) = M * y - M * ya := by ring
  have h4 : M * (n - 1) = M * n - M := by ring
  constructor <;> omega

theorem toInt16_add_sub (t x : Int) (hx : IsInt16 x) : toInt16 (t + toInt16 (x - t)) = x := by
  unfold IsInt16 at hx
  unfold toInt16 wrapSigned
  norm_num
  omega

theorem mul_coord_bound (M y : Int) (hM0 : 0 ≤ M) (hM : M ≤ 20352) (hy0 : 0 ≤ y)
    (hy : y < 240) : 0 ≤ M * y ∧ M * y ≤ 20352 * 239 := by
  constructor
  · exact mul_nonneg hM0 hy0
  · exact mul_le_mul hM (by omega) hy0 (by norm_num)

/-- The value of `curx` on an edge whose slope is not negative. -/
theorem edge_cur_pos (xa ya y M : Int) (hM0 : 0 ≤ M) (hM : M ≤ 20352)
    (hxa : 0 ≤ xa ∧ xa < 160) (hya : 0 ≤ ya) (hyy : ya ≤ y) (hy : y < 240) :
    toInt16 (Int.tdiv (toInt16 M * y) 256 + toInt16 (xa - Int.tdiv (toInt16 M * ya) 256))
      = xa + ((M * y) / 256 - (M * ya) / 256) := by
  have hMi : toInt16 M = M := toInt16_of_isInt16 M ⟨by omega, by omega⟩
  obtain ⟨a0, a1⟩ := mul_coord_bound M ya hM0 hM hya (by omega)
  obtain ⟨b0, b1⟩ := mul_coord_bound M y hM0 hM (by omega) hy
  have hle : M * ya ≤ M * y := mul_le_mul_of_nonneg_left hyy hM0
  rw [hMi, Int.tdiv_eq_ediv a0 (by norm_num), Int.tdiv_eq_ediv b0 (by norm_num),
    toInt16_of_isInt16 (xa - M * ya / 256) ⟨by omega, by omega⟩,
    toInt16_of_isInt16 _ ⟨by omega, by omega⟩]
  omega

/-- The value of `curx` on an edge whose slope is negative. -/
theorem edge_cur_neg (xa ya y M : Int) (hM0 : 0 ≤ M) (hM : M ≤ 20352)
    (hxa : 0 ≤ xa ∧ xa < 160) (hya : 0 ≤ ya) (hyy : ya ≤ y) (hy : y < 240) :
    toInt16 (Int.tdiv (toInt16 (-M) * y) 256
        + toInt16 (xa - Int.tdiv (toInt16 (-M) * ya) 256))
      = xa - ((M * y) / 256 - (M * ya) / 256) := by
  have hMi : toInt16 (-M) = -M := toInt16_of_isInt16 (-M) ⟨by omega, by omega⟩
  obtain ⟨a0, a1⟩ := mul_coord_bound M ya hM0 hM hya (by omega)
  obtain ⟨b0, b1⟩ := mul_coord_bound M y hM0 hM (by omega) hy
  have hle : M * ya ≤ M * y := mul_le_mul_of_nonneg_left hyy hM0
  have e1 : -M * y = -(M * y) := by ring
  have e2 : -M * ya = -(M * ya) := by ring
  rw [hMi, e1, e2, Int.neg_tdiv, Int.neg_tdiv, Int.tdiv_eq_ediv a0 (by norm_num),
    Int.tdiv_eq_ediv b0 (by norm_num),
    toInt16_of_isInt16 (xa - -(M * ya / 256)) ⟨by omega, by omega⟩,
    toInt16_of_isInt16 _ ⟨by omega, by omega⟩]
  omega

/-- On the scanlines between its end points, the `curx` value of an edge lies between the
`x` coordinates of the end points. -/
theorem edge_bound (xa ya xb yb y : Int) (hxa : 0 ≤ xa ∧ xa < 160) (hxb : 0 ≤ xb ∧ xb < 160)
    (hya : 0 ≤ ya) (hyb : yb < 240) (h1 : ya ≤ y) (h2 : y ≤ yb) :
    min xa xb ≤ toInt16 (Int.tdiv (toInt16 (Int.tdiv ((xb - xa) * 256) (yb - ya + 1)) * y) 256
        + toInt16 (xa - Int.tdiv (toInt16 (Int.tdiv ((xb - xa) * 256) (yb - ya + 1)) * ya)
            256)) ∧
      toInt16 (Int.tdiv (toInt16 (Int.tdiv ((xb - xa) * 256) (yb - ya + 1)) * y) 256
        + toInt16 (xa - Int.tdiv (toInt16 (Int.tdiv ((xb - xa) * 256) (yb - ya + 1)) * ya)
            256)) ≤ max xa xb := by
  by_cases hn : yb = ya
  · have hy : y = ya := by omega
    subst hy
    rw [toInt16_add_sub _ _ ⟨by omega, by omega⟩]
    exact ⟨min_le_left _ _, le_max_left _ _⟩
  · have hn2 : 2 ≤ yb - ya + 1 := by omega
    rcases le_or_lt 0 (xb - xa) with hD | hD
    · have hM0 : 0 ≤ (xb - xa) * 256 / (yb - ya + 1) :=
        Int.ediv_nonneg (by omega) (by omega)
      have hMn := @Int.ediv_mul_le ((xb - xa) * 256) (yb - ya + 1) (by omega)
      have hM : (xb - xa) * 256 / (yb - ya + 1) ≤ 20352 := by nlinarith
      have hdiv : Int.tdiv ((xb - xa) * 256) (yb - ya + 1)
          = (xb - xa) * 256 / (yb - ya + 1) := Int.tdiv_eq_ediv (by omega) (by omega)
      rw [hdiv, edge_cur_pos xa ya y _ hM0 hM hxa hya h1 (by omega)]
      obtain ⟨c0, c1⟩ := edge_core _ ya y (yb - ya + 1) (xb - xa) hM0 (by linarith) h1
        (by omega)
      rw [min_eq_left (by omega), max_eq_right (by omega)]
      constructor <;> omega
    · have hM0 : 0 ≤ (xa - xb) * 256 / (yb - ya + 1) :=
        Int.ediv_nonneg (by omega) (by omega)
      have hMn := @Int.ediv_mul_le ((xa - xb) * 256) (yb - ya + 1) (by omega)
      have hM : (xa - xb) * 256 / (yb - ya + 1) ≤ 20352 := by nlinarith
      have e : (xb - xa) * 256 = -((xa - xb) * 256) := by ring
      have hdiv : Int.tdiv ((xa - xb) * 256) (yb - ya + 1)
          = (xa - xb) * 256 / (yb - ya + 1) := Int.tdiv_eq_ediv (by omega) (by omega)
      rw [e, Int.neg_tdiv, hdiv, edge_cur_neg xa ya y _ hM0 hM hxa hya h1 (by omega)]
      obtain ⟨c0, c1⟩ := edge_core _ ya y (yb - ya + 1) (xa - xb) hM0 (by linarith) h1
        (by omega)
      rw [min_eq_right (by omega), max_eq_left (by omega)]
      constructor <;> omega

/-! ## The pixels changed by the filled triangle -/

theorem applyStores_cases (l : List Store) (mem : Int → Nat) (a : Int) :
    applyStores mem l a = mem a ∨ ∃ s ∈ l, s.addr = a ∧ applyStores mem l a = s.color := by
  induction l generalizing mem with
  | nil => exact Or.inl rfl
  | cons s rest ih =>
    simp only [applyStores]
    rcases ih (fun b => if b = s.addr then s.color else mem b) with h | ⟨t, ht, hta, htc⟩
    · by_cases hs : a = s.addr
      · right
        refine ⟨s, List.mem_cons_self _ _, hs.symm, ?_⟩
        rw [h]
        simp [hs]
      · left
        rw [h]
        simp [hs]
    · right
      exact ⟨t, List.mem_cons_of_mem _ ht, hta, htc⟩

theorem fillRow_color (color : Nat) (n : Nat) (p : Int) (s : Store)
    (h : s ∈ fillRow color n p) : s.color = color := by
  induction n generalizing p with
  | zero => simp [fillRow] at h
  | succ k ih =>
    simp only [fillRow, List.mem_cons] at h
    rcases h with h | h
    · rw [h]
    · exact ih _ h

theorem drawFastHLine_store (lx ly x y w : Int) (c : Nat) (s : Store)
    (h : s ∈ (ILI9341Wrapper.mk' lx ly).drawFastHLine x y w c) :
    s.color = c ∧ 0 ≤ y ∧ y < ly ∧
      ∃ px : Int, s.addr = px + lx * y ∧ 0 ≤ px ∧ px < lx ∧ x ≤ px ∧ px < x + w := by
  unfold ILI9341Wrapper.drawFastHLine at h
  simp only [ILI9341Wrapper.mk'] at h
  by_cases hg : y < 0 ∨ y ≥ ly ∨ x ≥ lx
  · simp [hg] at h
  · rw [if_neg hg] at h
    push_neg at hg
    obtain ⟨hy0, hy1, hx⟩ := hg
    have hm := mem_fillRow _ _ _ _ h
    have hcol := fillRow_color _ _ _ _ h
    have hc := mul_comm lx y
    refine ⟨hcol, hy0, hy1, s.addr - lx * y, by ring, ?_, ?_, ?_, ?_⟩
    · have h1 := hm.1
      split_ifs at h1 <;> omega
    · have h2 := hm.2
      split_ifs at h2 <;> omega
    · have h1 := hm.1
      split_ifs at h1 <;> omega
    · have h2 := hm.2
      split_ifs at h2 <;> omega

theorem drawHLine_store (lx ly a b y : Int) (c : Nat) (s : Store)
    (h : s ∈ (ILI9341Wrapper.mk' lx ly).drawHLine a b y c) :
    s.color = c ∧ 0 ≤ y ∧ y < ly ∧
      ∃ px : Int, s.addr = px + lx * y ∧ 0 ≤ px ∧ px < lx ∧ min a b ≤ px ∧ px < max a b := by
  unfold ILI9341Wrapper.drawHLine at h
  split_ifs at h with hab
  · obtain ⟨h1, h2, h3, px, h4, h5, h6, h7, h8⟩ := drawFastHLine_store _ _ _ _ _ _ _ h
    refine ⟨h1, h2, h3, px, h4, h5, h6, ?_, ?_⟩
    · rw [min_eq_left (by omega)]
      exact h7
    · rw [max_eq_right (by omega)]
      omega
  · obtain ⟨h1, h2, h3, px, h4, h5, h6, h7, h8⟩ := drawFastHLine_store _ _ _ _ _ _ _ h
    refine ⟨h1, h2, h3, px, h4, h5, h6, ?_, ?_⟩
    · rw [min_eq_right (by omega)]
      exact h7
    · rw [max_eq_left (by omega)]
      omega

/-- Every store of a scanline loop is made by the `drawHLine` of one of its rows. -/
theorem scanLoop_store (fb : ILI9341Wrapper) (m1 b1 m2 b2 yEnd : Int) (c : Nat)
    (hEnd : yEnd < 32767) (fuel : Nat) (y : Int) (hy : IsInt16 y) (s : Store)
    (h : s ∈ (fb.scanLoop m1 b1 m2 b2 yEnd c fuel y).stores) :
    ∃ r : Int, y ≤ r ∧ r ≤ yEnd ∧
      s ∈ fb.drawHLine (toInt16 (Int.tdiv (m1 * r) 256 + b1))
        (toInt16 (Int.tdiv (m2 * r) 256 + b2)) r c := by
  induction fuel generalizing y with
  | zero => simp [ILI9341Wrapper.scanLoop] at h
  | succ k ih =>
    simp only [ILI9341Wrapper.scanLoop] at h
    split_ifs at h with hc
    · simp only [List.mem_append] at h
      rcases h with h | h
      · exact ⟨y, le_refl _, hc, h⟩
      · have hy2 : IsInt16 (y + 1) := ⟨by have := hy.1; omega, by omega⟩
        rw [toInt16_of_isInt16 _ hy2] at h
        obtain ⟨r, r1, r2, r3⟩ := ih _ hy2 h
        exact ⟨r, by omega, r2, r3⟩
    · simp at h

theorem sortVertices_x_bounds (x0 y0 x1 y1 x2 y2 : Int) :
    (min x0 (min x1 x2) ≤ (sortVertices x0 y0 x1 y1 x2 y2).1 ∧
      (sortVertices x0 y0 x1 y1 x2 y2).1 ≤ max x0 (max x1 x2)) ∧
    (min x0 (min x1 x2) ≤ (sortVertices x0 y0 x1 y1 x2 y2).2.2.1 ∧
      (sortVertices x0 y0 x1 y1 x2 y2).2.2.1 ≤ max x0 (max x1 x2)) ∧
    (min x0 (min x1 x2) ≤ (sortVertices x0 y0 x1 y1 x2 y2).2.2.2.2.1 ∧
      (sortVertices x0 y0 x1 y1 x2 y2).2.2.2.2.1 ≤ max x0 (max x1 x2)) := by
  have a1 := min_le_left x0 (min x1 x2)
  have a2 := min_le_right x0 (min x1 x2)
  have a3 := min_le_left x1 x2
  have a4 := min_le_right x1 x2
  have b1 := le_max_left x0 (max x1 x2)
  have b2 := le_max_right x0 (max x1 x2)
  have b3 := le_max_left x1 x2
  have b4 := le_max_right x1 x2
  unfold sortVertices
  simp only []
  split_ifs <;> dsimp only at * <;> omega

/-- Every store of `drawFilledTriangle` for a triangle inside the 160 x 240 buffer writes the
colour to a pixel of the bounding box of the vertices. -/
theorem drawFilledTriangle_store (x0 y0 x1 y1 x2 y2 : Int)
    (hx : (0 ≤ x0 ∧ x0 < 160) ∧ (0 ≤ x1 ∧ x1 < 160) ∧ (0 ≤ x2 ∧ x2 < 160))
    (hy : (0 ≤ y0 ∧ y0 < 240) ∧ (0 ≤ y1 ∧ y1 < 240) ∧ (0 ≤ y2 ∧ y2 < 240))
    (c : Nat) (fuel : Nat) (s : Store)
    (h : s ∈ ((ILI9341Wrapper.mk' 160 240).drawFilledTriangle fuel x0 y0 x1 y1 x2 y2 c).stores) :
    s.color = c ∧ ∃ px py : Int, s.addr = px + 160 * py ∧ (0 ≤ px ∧ px < 160) ∧
      (0 ≤ py ∧ py < 240) ∧
      (min x0 (min x1 x2) ≤ px ∧ px ≤ max x0 (max x1 x2)) ∧
      (min y0 (min y1 y2) ≤ py ∧ py ≤ max y0 (max y1 y2)) := by
  obtain ⟨s0, s1, s2, s3⟩ := sortVertices_spec x0 y0 x1 y1 x2 y2
  obtain ⟨⟨t0, t1⟩, ⟨t2, t3⟩, ⟨t4, t5⟩⟩ := sortVertices_x_bounds x0 y0 x1 y1 x2 y2
  have mnx : 0 ≤ min x0 (min x1 x2) := le_min hx.1.1 (le_min hx.2.1.1 hx.2.2.1)
  have mxx : max x0 (max x1 x2) < 160 := max_lt hx.1.2 (max_lt hx.2.1.2 hx.2.2.2)
  have mny : 0 ≤ min y0 (min y1 y2) := le_min hy.1.1 (le_min hy.2.1.1 hy.2.2.1)
  have mxy : max y0 (max y1 y2) < 240 := max_lt hy.1.2 (max_lt hy.2.1.2 hy.2.2.2)
  unfold ILI9341Wrapper.drawFilledTriangle at h
  simp only [] at h
  generalize hv : sortVertices x0 y0 x1 y1 x2 y2 = v at *
  obtain ⟨X0, Y0, X1, Y1, X2, Y2⟩ := v
  simp only [] at s0 s1 s2 s3 t0 t1 t2 t3 t4 t5 h
  have hmem : s ∈ ((ILI9341Wrapper.mk' 160 240).scanLoop
        (toInt16 (Int.tdiv ((X1 - X0) * 256) (Y1 - Y0 + 1)))
        (toInt16 (X0 - Int.tdiv (toInt16 (Int.tdiv ((X1 - X0) * 256) (Y1 - Y0 + 1)) * Y0) 256))
        (toInt16 (Int.tdiv ((X2 - X0) * 256) (Y2 - Y0 + 1)))
        (toInt16 (X0 - Int.tdiv (toInt16 (Int.tdiv ((X2 - X0) * 256) (Y2 - Y0 + 1)) * Y0) 256))
        Y1 c fuel Y0).stores ∨
      s ∈ ((ILI9341Wrapper.mk' 160 240).scanLoop
        (toInt16 (Int.tdiv ((X2 - X1) * 256) (Y2 - Y1 + 1)))
        (toInt16 (X1 - Int.tdiv (toInt16 (Int.tdiv ((X2 - X1) * 256) (Y2 - Y1 + 1)) * Y1) 256))
        (toInt16 (Int.tdiv ((X2 - X0) * 256) (Y2 - Y0 + 1)))
        (toInt16 (X0 - Int.tdiv (toInt16 (Int.tdiv ((X2 - X0) * 256) (Y2 - Y0 + 1)) * Y0) 256))
        Y2 c fuel Y1).stores := by
    split_ifs at h
    · exact List.mem_append.mp h
    · exact Or.inl h
  rcases hmem with h1 | h1
  · obtain ⟨r, r1, r2, r3⟩ := scanLoop_store _ _ _ _ _ _ _ (by omega) _ _
      ⟨by omega, by omega⟩ _ h1
    obtain ⟨e1, e2⟩ := edge_bound X0 Y0 X1 Y1 r ⟨by omega, by omega⟩ ⟨by omega, by omega⟩
      (by omega) (by omega) r1 r2
    obtain ⟨e3, e4⟩ := edge_bound X0 Y0 X2 Y2 r ⟨by omega, by omega⟩ ⟨by omega, by omega⟩
      (by omega) (by omega) r1 (by omega)
    obtain ⟨hc, q1, q2, px, q3, q4, q5, q6, q7⟩ := drawHLine_store _ _ _ _ _ _ _ r3
    refine ⟨hc, px, r, q3, ⟨q4, q5⟩, ⟨q1, q2⟩, ⟨?_, ?_⟩, ⟨by omega, by omega⟩⟩
    · rcases min_choice X0 X1 with k5 | k5 <;> rcases min_choice X0 X2 with k6 | k6 <;>
        rcases min_choice
          (toInt16 (Int.tdiv (toInt16 (Int.tdiv ((X1 - X0) * 256) (Y1 - Y0 + 1)) * r) 256
            + toInt16 (X0 - Int.tdiv
                (toInt16 (Int.tdiv ((X1 - X0) * 256) (Y1 - Y0 + 1)) * Y0) 256)))
          (toInt16 (Int.tdiv (toInt16 (Int.tdiv ((X2 - X0) * 256) (Y2 - Y0 + 1)) * r) 256
            + toInt16 (X0 - Int.tdiv
                (toInt16 (Int.tdiv ((X2 - X0) * 256) (Y2 - Y0 + 1)) * Y0) 256)))
          with k7 | k7 <;> omega
    · rcases max_choice X0 X1 with k5 | k5 <;> rcases max_choice X0 X2 with k6 | k6 <;>
        rcases max_choice
          (toInt16 (Int.tdiv (toInt16 (Int.tdiv ((X1 - X0) * 256) (Y1 - Y0 + 1)) * r) 256
            + toInt16 (X0 - Int.tdiv
                (toInt16 (Int.tdiv ((X1 - X0) * 256) (Y1 - Y0 + 1)) * Y0) 256)))
          (toInt16 (Int.tdiv (toInt16 (Int.tdiv ((X2 - X0) * 256) (Y2 - Y0 + 1)) * r) 256
            + toInt16 (X0 - Int.tdiv
                (toInt16 (Int.tdiv ((X2 - X0) * 256) (Y2 - Y0 + 1)) * Y0) 256)))
          with k7 | k7 <;> omega
  · obtain ⟨r, r1, r2, r3⟩ := scanLoop_store _ _ _ _ _ _ _ (by omega) _ _
      ⟨by omega, by omega⟩ _ h1
    obtain ⟨e1, e2⟩ := edge_bound X1 Y1 X2 Y2 r ⟨by omega, by omega⟩ ⟨by omega, by omega⟩
      (by omega) (by omega) r1 r2
    obtain ⟨e3, e4⟩ := edge_bound X0 Y0 X2 Y2 r ⟨by omega, by omega⟩ ⟨by omega, by omega⟩
      (by omega) (by omega) (by omega) r2
    obtain ⟨hc, q1, q2, px, q3, q4, q5, q6, q7⟩ := drawHLine_store _ _ _ _ _ _ _ r3
    refine ⟨hc, px, r, q3, ⟨q4, q5⟩, ⟨q1, q2⟩, ⟨?_, ?_⟩, ⟨by omega, by omega⟩⟩
    · rcases min_choice X1 X2 with k5 | k5 <;> rcases min_choice X0 X2 with k6 | k6 <;>
        rcases min_choice
          (toInt16 (Int.tdiv (toInt16 (Int.tdiv ((X2 - X1) * 256) (Y2 - Y1 + 1)) * r) 256
            + toInt16 (X1 - Int.tdiv
                (toInt16 (Int.tdiv ((X2 - X1) * 256) (Y2 - Y1 + 1)) * Y1) 256)))
          (toInt16 (Int.tdiv (toInt16 (Int.tdiv ((X2 - X0) * 256) (Y2 - Y0 + 1)) * r) 256
            + toInt16 (X0 - Int.tdiv
                (toInt16 (Int.tdiv ((X2 - X0) * 256) (Y2 - Y0 + 1)) * Y0) 256)))
          with k7 | k7 <;> omega
    · rcases max_choice X1 X2 with k5 | k5 <;> rcases max_choice X0 X2 with k6 | k6 <;>
        rcases max_choice
          (toInt16 (Int.tdiv (toInt16 (Int.tdiv ((X2 - X1) * 256) (Y2 - Y1 + 1)) * r) 256
            + toInt16 (X1 - Int.tdiv
                (toInt16 (Int.tdiv ((X2 - X1) * 256) (Y2 - Y1 + 1)) * Y1) 256)))
          (toInt16 (Int.tdiv (toInt16 (Int.tdiv ((X2 - X0) * 256) (Y2 - Y0 + 1)) * r) 256
            + toInt16 (X0 - Int.tdiv
                (toInt16 (Int.tdiv ((X2 - X0) * 256) (Y2 - Y0 + 1)) * Y0) 256)))
          with k7 | k7 <;> omega

/-- C24. For every triangle whose three vertices lie inside a 160 x 240 buffer, after
`drawFilledTriangle` with colour `c` (run for any number of loop tests) every pixel either
keeps its previous value or equals `c`, and every changed pixel `(i, j)` lies in the
bounding box of the vertices. -/
theorem drawFilledTriangle_changes_in_bbox (x0 y0 x1 y1 x2 y2 : Int)
    (hx : (0 ≤ x0 ∧ x0 < 160) ∧ (0 ≤ x1 ∧ x1 < 160) ∧ (0 ≤ x2 ∧ x2 < 160))
    (hy : (0 ≤ y0 ∧ y0 < 240) ∧ (0 ≤ y1 ∧ y1 < 240) ∧ (0 ≤ y2 ∧ y2 < 240))
    (c : Nat) (fuel : Nat) (mem : Int → Nat) (i j : Int) :
    ((ILI9341Wrapper.mk' 160 240).readPixel (applyStores mem
          ((ILI9341Wrapper.mk' 160 240).drawFilledTriangle fuel x0 y0 x1 y1 x2 y2 c).stores) i j
        = (ILI9341Wrapper.mk' 160 240).readPixel mem i j ∨
      (ILI9341Wrapper.mk' 160 240).readPixel (applyStores mem
          ((ILI9341Wrapper.mk' 160 240).drawFilledTriangle fuel x0 y0 x1 y1 x2 y2 c).stores) i j
        = c) ∧
    ((ILI9341Wrapper.mk' 160 240).readPixel (applyStores mem
          ((ILI9341Wrapper.mk' 160 240).drawFilledTriangle fuel x0 y0 x1 y1 x2 y2 c).stores) i j
        ≠ (ILI9341Wrapper.mk' 160 240).readPixel mem i j →
      (min y0 (min y1 y2) ≤ j ∧ j ≤ max y0 (max y1 y2)) ∧
        (min x0 (min x1 x2) ≤ i ∧ i ≤ max x0 (max x1 x2))) := by
  by_cases hout : i < 0 ∨ j < 0 ∨ i ≥ 160 ∨ j ≥ 240
  · have e : ∀ m : Int → Nat, (ILI9341Wrapper.mk' 160 240).readPixel m i j = 0 := by
      intro m
      unfold ILI9341Wrapper.readPixel
      simp only [ILI9341Wrapper.mk']
      rw [if_pos hout]
    rw [e, e]
    exact ⟨Or.inl rfl, fun h => absurd rfl h⟩
  · have e : ∀ m : Int → Nat,
        (ILI9341Wrapper.mk' 160 240).readPixel m i j = m (i + 160 * j) := by
      intro m
      unfold ILI9341Wrapper.readPixel
      simp only [ILI9341Wrapper.mk']
      rw [if_neg hout]
    rw [e, e]
    rcases applyStores_cases
      ((ILI9341Wrapper.mk' 160 240).drawFilledTriangle fuel x0 y0 x1 y1 x2 y2 c).stores mem
      (i + 160 * j) with h | ⟨s, hs, ha, hcol⟩
    · exact ⟨Or.inl h, fun hne => absurd h hne⟩
    · obtain ⟨hc, px, py, hp, hpx, hpy, bx, hby⟩ :=
        drawFilledTriangle_store x0 y0 x1 y1 x2 y2 hx hy c fuel s hs
      have key := pixel_addr_inj 160 px py i j hpx.1 hpx.2 (by omega) (by omega)
        (by rw [← hp, ha])
      refine ⟨Or.inr (by rw [hcol, hc]), fun _ => ?_⟩
      rw [← key.1, ← key.2]
      exact ⟨hby, bx⟩

theorem drawFilledTriangle_changes_in_bbox_witness :
    (((0 : Int) ≤ 1 ∧ (1 : Int) < 160) ∧ ((0 : Int) ≤ 6 ∧ (6 : Int) < 160) ∧
        ((0 : Int) ≤ 3 ∧ (3 : Int) < 160)) ∧
      (((0 : Int) ≤ 1 ∧ (1 : Int) < 240) ∧ ((0 : Int) ≤ 2 ∧ (2 : Int) < 240) ∧
        ((0 : Int) ≤ 6 ∧ (6 : Int) < 240)) ∧
      (((ILI9341Wrapper.mk' 160 240).readPixel (applyStores (fun _ => 0)
            ((ILI9341Wrapper.mk' 160 240).drawFilledTriangle 20 1 1 6 2 3 6 7).stores) 2 2
          = (ILI9341Wrapper.mk' 160 240).readPixel (fun _ => 0) 2 2 ∨
        (ILI9341Wrapper.mk' 160 240).readPixel (applyStores (fun _ => 0)
            ((ILI9341Wrapper.mk' 160 240).drawFilledTriangle 20 1 1 6 2 3 6 7).stores) 2 2
          = 7) ∧
      ((ILI9341Wrapper.mk' 160 240).readPixel (applyStores (fun _ => 0)
            ((ILI9341Wrapper.mk' 160 240).drawFilledTriangle 20 1 1 6 2 3 6 7).stores) 2 2
          ≠ (ILI9341Wrapper.mk' 160 240).readPixel (fun _ => 0) 2 2 →
        (min (1 : Int) (min 2 6) ≤ 2 ∧ (2 : Int) ≤ max 1 (max 2 6)) ∧
          (min (1 : Int) (min 6 3) ≤ 2 ∧ (2 : Int) ≤ max 1 (max 6 3)))) :=
  ⟨by decide, by decide,
    drawFilledTriangle_changes_in_bbox 1 1 6 2 3 6 (by decide) (by decide) 7 20 (fun _ => 0)
      2 2⟩

/-! ## The frame in which the frame counter wraps to 0 -/

/-- The sine of `5e8`, the phase of the camera's second coordinate: `5e8` lies
`0.2886977...` above `159154943 * π`. -/
theorem sin_5e8_bounds :
    -0.28505 < Real.sin 500000000 ∧ Real.sin 500000000 < -0.28432 := by
  have hpl := Real.pi_gt_d20
  have hph := Real.pi_lt_d20
  have e : Real.sin 500000000
      = -Real.sin (500000000 - 159154943 * Real.pi) := by
    have h := Real.sin_add_nat_mul_pi (500000000 - 159154943 * Real.pi) 159154943
    have hodd : ((-1 : ℝ)) ^ 159154943 = -1 := Odd.neg_one_pow (by decide)
    rw [hodd] at h
    have e2 : (500000000 - 159154943 * Real.pi + ((159154943 : ℕ) : ℝ) * Real.pi)
        = 500000000 := by
      push_cast
      ring
    rw [e2] at h
    rw [h]
    ring
  rw [e]
  generalize hr : (500000000 - 159154943 * Real.pi : ℝ) = r at *
  have hr1 : (0.2886977 : ℝ) < r := by rw [← hr]; linarith
  have hr2 : r < (0.2886978 : ℝ) := by rw [← hr]; linarith
  have hr0 : (0 : ℝ) ≤ r := by linarith
  have habs : |r| ≤ 1 := by rw [abs_of_nonneg hr0]; linarith
  have hb := Real.sin_bound habs
  rw [abs_of_nonneg hr0] at hb
  obtain ⟨hb1, hb2⟩ := abs_le.mp hb
  have h3u : r ^ 3 ≤ (0.2886978 : ℝ) ^ 3 := pow_le_pow_left₀ hr0 (le_of_lt hr2) 3
  have h3l : (0.2886977 : ℝ) ^ 3 ≤ r ^ 3 := pow_le_pow_left₀ (by norm_num) (le_of_lt hr1) 3
  have h4u : r ^ 4 ≤ (0.2886978 : ℝ) ^ 4 := pow_le_pow_left₀ hr0 (le_of_lt hr2) 4
  norm_num at h3u h3l h4u
  constructor <;> linarith

theorem camera_time0 : Render.camera 0 = ⟨0, 4 * Real.sin 500000000, 4⟩ := by
  unfold Render.camera
  norm_num

theorem cos_sin_pi_div_twelve :
    1 - 2 * Real.sin (30 * Real.pi / 180 / 2) ^ 2 = Real.sqrt 3 / 2 ∧
      2 * Real.sin (30 * Real.pi / 180 / 2) * Real.cos (30 * Real.pi / 180 / 2) = 1 / 2 := by
  have e : (30 * Real.pi / 180 / 2 : ℝ) = Real.pi / 12 := by ring
  rw [e]
  have h6 : (2 * (Real.pi / 12) : ℝ) = Real.pi / 6 := by ring
  have hc := Real.cos_two_mul (Real.pi / 12)
  have hs := Real.sin_two_mul (Real.pi / 12)
  rw [h6, Real.cos_pi_div_six] at hc
  rw [h6, Real.sin_pi_div_six] at hs
  have hsq := Real.sin_sq_add_cos_sq (Real.pi / 12)
  constructor
  · linear_combination -hc - 2 * hsq
  · linear_combination -hs

/-- The camera-space vertices of a cube after `update(0)`: the template turned by 30 degrees
about the z axis and moved by `centre - camera`. -/
theorem matPfc_time0 (centre rot camera : Vec3) (i : Fin 8) :
    ((⟨centre, rot⟩ : Cube).update 0).matPfc camera i
      = ⟨Real.sqrt 3 / 2 * (Cube.arrVert i).x - 1 / 2 * (Cube.arrVert i).y
            + (centre.x - camera.x),
          1 / 2 * (Cube.arrVert i).x + Real.sqrt 3 / 2 * (Cube.arrVert i).y
            + (centre.y - camera.y),
          (Cube.arrVert i).z + (centre.z - camera.z)⟩ := by
  obtain ⟨hc, hs⟩ := cos_sin_pi_div_twelve
  rw [← hc, ← hs]
  simp only [Cube.matPfc, Object.rotate, Cube.update, Quat.ofAngleAxis, Quat.mul,
    Quat.toRotationMatrix, Mat3.mulVec, Vec3.add, Vec3.sub, Vec3.mk.injEq]
  simp only [Nat.cast_zero, mul_zero, zero_mul, zero_div, Real.cos_zero, Real.sin_zero]
  refine ⟨?_, ?_, ?_⟩ <;> ring

/-- The facing test of a triangle that is turned about the z axis and moved by `T`, read off
the triangle `vi`, `vj`, `vk` before the turn. -/
theorem facesCamera_rotZ (C S : ℝ) (h : C ^ 2 + S ^ 2 = 1) (T vi vj vk : Vec3) :
    FacesCamera ⟨C * vi.x - S * vi.y + T.x, S * vi.x + C * vi.y + T.y, vi.z + T.z⟩
        ⟨C * vj.x - S * vj.y + T.x, S * vj.x + C * vj.y + T.y, vj.z + T.z⟩
        ⟨C * vk.x - S * vk.y + T.x, S * vk.x + C * vk.y + T.y, vk.z + T.z⟩
      = decide (0 < ((vj.sub vi).cross (vk.sub vi)).dot vi
          + (C * ((vj.sub vi).cross (vk.sub vi)).x - S * ((vj.sub vi).cross (vk.sub vi)).y) * T.x
          + (S * ((vj.sub vi).cross (vk.sub vi)).x + C * ((vj.sub vi).cross (vk.sub vi)).y) * T.y
          + ((vj.sub vi).cross (vk.sub vi)).z * T.z) := by
  rw [Bool.eq_iff_iff, facesCamera_iff, decide_eq_true_eq]
  simp only [Vec3.dot, Vec3.cross, Vec3.sub]
  have e : ∀ a b : ℝ, a = b → (0 < a ↔ 0 < b) := fun a b h => by rw [h]
  apply e
  linear_combination
    (((vj.y - vi.y) * (vk.z - vi.z) - (vj.z - vi.z) * (vk.y - vi.y)) * vi.x
      + ((vj.z - vi.z) * (vk.x - vi.x) - (vj.x - vi.x) * (vk.z - vi.z)) * vi.y
      + ((vj.x - vi.x) * (vk.y - vi.y) - (vj.y - vi.y) * (vk.x - vi.x)) * vi.z
      + ((vj.x - vi.x) * (vk.y - vi.y) - (vj.y - vi.y) * (vk.x - vi.x)) * T.z) * h

theorem facesCamera_time0 (centre rot camera : Vec3) (i j k : Fin 8) :
    FacesCamera (((⟨centre, rot⟩ : Cube).update 0).matPfc camera i)
        (((⟨centre, rot⟩ : Cube).update 0).matPfc camera j)
        (((⟨centre, rot⟩ : Cube).update 0).matPfc camera k)
      = decide (0 < (((Cube.arrVert j).sub (Cube.arrVert i)).cross
            ((Cube.arrVert k).sub (Cube.arrVert i))).dot (Cube.arrVert i)
          + (Real.sqrt 3 / 2 * (((Cube.arrVert j).sub (Cube.arrVert i)).cross
                ((Cube.arrVert k).sub (Cube.arrVert i))).x
              - 1 / 2 * (((Cube.arrVert j).sub (Cube.arrVert i)).cross
                ((Cube.arrVert k).sub (Cube.arrVert i))).y) * (centre.x - camera.x)
          + (1 / 2 * (((Cube.arrVert j).sub (Cube.arrVert i)).cross
                ((Cube.arrVert k).sub (Cube.arrVert i))).x
              + Real.sqrt 3 / 2 * (((Cube.arrVert j).sub (Cube.arrVert i)).cross
                ((Cube.arrVert k).sub (Cube.arrVert i))).y) * (centre.y - camera.y)
          + (((Cube.arrVert j).sub (Cube.arrVert i)).cross
                ((Cube.arrVert k).sub (Cube.arrVert i))).z * (centre.z - camera.z)) := by
  rw [matPfc_time0, matPfc_time0, matPfc_time0]
  have h : (Real.sqrt 3 / 2) ^ 2 + (1 / 2 : ℝ) ^ 2 = 1 := by
    have := Real.sq_sqrt (show (0 : ℝ) ≤ 3 by norm_num)
    nlinarith
  exact facesCamera_rotZ (Real.sqrt 3 / 2) (1 / 2) h
    ⟨centre.x - camera.x, centre.y - camera.y, centre.z - camera.z⟩ _ _ _

theorem sqrt3_bounds : (1.732 : ℝ) < Real.sqrt 3 ∧ Real.sqrt 3 < 1.7321 := by
  constructor
  · rw [Real.lt_sqrt (by norm_num)]
    norm_num
  · rw [Real.sqrt_lt' (by norm_num)]
    norm_num

/-- The faces of a cube that pass the facing test in the frame with `_time = 0`, when the
facing test of every declared face has the value that `vis` lists. -/
theorem getTriangles_time0 (centre rot : Vec3) (vis : List (Fin 8 × Fin 8 × Fin 8 × ℚ))
    (hvis : Cube.faces.filter (fun f => decide (f ∈ vis)) = vis)
    (h : ∀ f ∈ Cube.faces,
      FacesCamera (((⟨centre, rot⟩ : Cube).update 0).matPfc (Render.camera 0) f.1)
        (((⟨centre, rot⟩ : Cube).update 0).matPfc (Render.camera 0) f.2.1)
        (((⟨centre, rot⟩ : Cube).update 0).matPfc (Render.camera 0) f.2.2.1)
        = decide (f ∈ vis)) :
    ((⟨centre, rot⟩ : Cube).update 0).getTriangles (Render.camera 0)
      = vis.map (Cube.record ((⟨centre, rot⟩ : Cube).update 0) (Render.camera 0)) := by
  rw [Cube.getTriangles_filter, List.filter_congr h, hvis]
  rfl

theorem getTriangles_time0_c0 (rot : Vec3) :
    ((⟨⟨-3, -3, 6⟩, rot⟩ : Cube).update 0).getTriangles (Render.camera 0)
      = [(0, 1, 2, 0.2), (2, 3, 0, 0.2), (1, 5, 6, 0.3), (6, 2, 1, 0.3)].map
        (Cube.record ((⟨⟨-3, -3, 6⟩, rot⟩ : Cube).update 0) (Render.camera 0)) := by
  apply getTriangles_time0
  · decide!
  · intro f hf
    obtain ⟨hs1, hs2⟩ := sin_5e8_bounds
    obtain ⟨hw1, hw2⟩ := sqrt3_bounds
    have hp1 : Real.sqrt 3 * Real.sin 500000000 < 1.732 * -0.28432 := by nlinarith
    have hp2 : 1.7321 * -0.28505 < Real.sqrt 3 * Real.sin 500000000 := by nlinarith
    rw [facesCamera_time0, camera_time0]
    simp only [Cube.faces, List.mem_cons, List.mem_singleton, List.not_mem_nil, or_false] at hf
    rcases hf with rfl | rfl | rfl | rfl | rfl | rfl | rfl | rfl | rfl | rfl | rfl | rfl <;>
      norm_num [Cube.arrVert, Vec3.dot, Vec3.cross, Vec3.sub] <;> linarith

theorem getTriangles_time0_c1 (rot : Vec3) :
    ((⟨⟨0, -3, 6⟩, rot⟩ : Cube).update 0).getTriangles (Render.camera 0)
      = [(0, 1, 2, 0.2), (2, 3, 0, 0.2), (1, 5, 6, 0.3), (6, 2, 1, 0.3), (3, 2, 6, 0.7), (6, 7, 3, 0.7)].map
        (Cube.record ((⟨⟨0, -3, 6⟩, rot⟩ : Cube).update 0) (Render.camera 0)) := by
  apply getTriangles_time0
  · decide!
  · intro f hf
    obtain ⟨hs1, hs2⟩ := sin_5e8_bounds
    obtain ⟨hw1, hw2⟩ := sqrt3_bounds
    have hp1 : Real.sqrt 3 * Real.sin 500000000 < 1.732 * -0.28432 := by nlinarith
    have hp2 : 1.7321 * -0.28505 < Real.sqrt 3 * Real.sin 500000000 := by nlinarith
    rw [facesCamera_time0, camera_time0]
    simp only [Cube.faces, List.mem_cons, List.mem_singleton, List.not_mem_nil, or_false] at hf
    rcases hf with rfl | rfl | rfl | rfl | rfl | rfl | rfl | rfl | rfl | rfl | rfl | rfl <;>
      norm_num [Cube.arrVert, Vec3.dot, Vec3.cross, Vec3.sub] <;> linarith

theorem getTriangles_time0_c2 (rot : Vec3) :
    ((⟨⟨3, -3, 6⟩, rot⟩ : Cube).update 0).getTriangles (Render.camera 0)
      = [(0, 1, 2, 0.2), (2, 3, 0, 0.2), (4, 0, 3, 0.5), (3, 7, 4, 0.5), (3, 2, 6, 0.7), (6, 7, 3, 0.7)].map
        (Cube.record ((⟨⟨3, -3, 6⟩, rot⟩ : Cube).update 0) (Render.camera 0)) := by
  apply getTriangles_time0
  · decide!
  · intro f hf
    obtain ⟨hs1, hs2⟩ := sin_5e8_bounds
    obtain ⟨hw1, hw2⟩ := sqrt3_bounds
    have hp1 : Real.sqrt 3 * Real.sin 500000000 < 1.732 * -0.28432 := by nlinarith
    have hp2 : 1.7321 * -0.28505 < Real.sqrt 3 * Real.sin 500000000 := by nlinarith
    rw [facesCamera_time0, camera_time0]
    simp only [Cube.faces, List.mem_cons, List.mem_singleton, List.not_mem_nil, or_false] at hf
    rcases hf with rfl | rfl | rfl | rfl | rfl | rfl | rfl | rfl | rfl | rfl | rfl | rfl <;>
      norm_num [Cube.arrVert, Vec3.dot, Vec3.cross, Vec3.sub] <;> linarith

theorem getTriangles_time0_c3 (rot : Vec3) :
    ((⟨⟨-3, 0, 6⟩, rot⟩ : Cube).update 0).getTriangles (Render.camera 0)
      = [(0, 1, 2, 0.2), (2, 3, 0, 0.2), (1, 5, 6, 0.3), (6, 2, 1, 0.3), (4, 5, 1, 0.6), (1, 0, 4, 0.6)].map
        (Cube.record ((⟨⟨-3, 0, 6⟩, rot⟩ : Cube).update 0) (Render.camera 0)) := by
  apply getTriangles_time0
  · decide!
  · intro f hf
    obtain ⟨hs1, hs2⟩ := sin_5e8_bounds
    obtain ⟨hw1, hw2⟩ := sqrt3_bounds
    have hp1 : Real.sqrt 3 * Real.sin 500000000 < 1.732 * -0.28432 := by nlinarith
    have hp2 : 1.7321 * -0.28505 < Real.sqrt 3 * Real.sin 500000000 := by nlinarith
    rw [facesCamera_time0, camera_time0]
    simp only [Cube.faces, List.mem_cons, List.mem_singleton, List.not_mem_nil, or_false] at hf
    rcases hf with rfl | rfl | rfl | rfl | rfl | rfl | rfl | rfl | rfl | rfl | rfl | rfl <;>
      norm_num [Cube.arrVert, Vec3.dot, Vec3.cross, Vec3.sub] <;> linarith

theorem getTriangles_time0_c4 (rot : Vec3) :
    ((⟨⟨0, 0, 6⟩, rot⟩ : Cube).update 0).getTriangles (Render.camera 0)
      = [(0, 1, 2, 0.2), (2, 3, 0, 0.2), (4, 0, 3, 0.5), (3, 7, 4, 0.5), (4, 5, 1, 0.6), (1, 0, 4, 0.6)].map
        (Cube.record ((⟨⟨0, 0, 6⟩, rot⟩ : Cube).update 0) (Render.camera 0)) := by
  apply getTriangles_time0
  · decide!
  · intro f hf
    obtain ⟨hs1, hs2⟩ := sin_5e8_bounds
    obtain ⟨hw1, hw2⟩ := sqrt3_bounds
    have hp1 : Real.sqrt 3 * Real.sin 500000000 < 1.732 * -0.28432 := by nlinarith
    have hp2 : 1.7321 * -0.28505 < Real.sqrt 3 * Real.sin 500000000 := by nlinarith
    rw [facesCamera_time0, camera_time0]
    simp only [Cube.faces, List.mem_cons, List.mem_singleton, List.not_mem_nil, or_false] at hf
    rcases hf with rfl | rfl | rfl | rfl | rfl | rfl | rfl | rfl | rfl | rfl | rfl | rfl <;>
      norm_num [Cube.arrVert, Vec3.dot, Vec3.cross, Vec3.sub] <;> linarith

theorem getTriangles_time0_c5 (rot : Vec3) :
    ((⟨⟨3, 0, 6⟩, rot⟩ : Cube).update 0).getTriangles (Render.camera 0)
      = [(0, 1, 2, 0.2), (2, 3, 0, 0.2), (4, 0, 3, 0.5), (3, 7, 4, 0.5), (3, 2, 6, 0.7), (6, 7, 3, 0.7)].map
        (Cube.record ((⟨⟨3, 0, 6⟩, rot⟩ : Cube).update 0) (Render.camera 0)) := by
  apply getTriangles_time0
  · decide!
  · intro f hf
    obtain ⟨hs1, hs2⟩ := sin_5e8_bounds
    obtain ⟨hw1, hw2⟩ := sqrt3_bounds
    have hp1 : Real.sqrt 3 * Real.sin 500000000 < 1.732 * -0.28432 := by nlinarith
    have hp2 : 1.7321 * -0.28505 < Real.sqrt 3 * Real.sin 500000000 := by nlinarith
    rw [facesCamera_time0, camera_time0]
    simp only [Cube.faces, List.mem_cons, List.mem_singleton, List.not_mem_nil, or_false] at hf
    rcases hf with rfl | rfl | rfl | rfl | rfl | rfl | rfl | rfl | rfl | rfl | rfl | rfl <;>
      norm_num [Cube.arrVert, Vec3.dot, Vec3.cross, Vec3.sub] <;> linarith

theorem getTriangles_time0_c6 (rot : Vec3) :
    ((⟨⟨-3, 3, 6⟩, rot⟩ : Cube).update 0).getTriangles (Render.camera 0)
      = [(0, 1, 2, 0.2), (2, 3, 0, 0.2), (1, 5, 6, 0.3), (6, 2, 1, 0.3), (4, 5, 1, 0.6), (1, 0, 4, 0.6)].map
        (Cube.record ((⟨⟨-3, 3, 6⟩, rot⟩ : Cube).update 0) (Render.camera 0)) := by
  apply getTriangles_time0
  · decide!
  · intro f hf
    obtain ⟨hs1, hs2⟩ := sin_5e8_bounds
    obtain ⟨hw1, hw2⟩ := sqrt3_bounds
    have hp1 : Real.sqrt 3 * Real.sin 500000000 < 1.732 * -0.28432 := by nlinarith
    have hp2 : 1.7321 * -0.28505 < Real.sqrt 3 * Real.sin 500000000 := by nlinarith
    rw [facesCamera_time0, camera_time0]
    simp only [Cube.faces, List.mem_cons, List.mem_singleton, List.not_mem_nil, or_false] at hf
    rcases hf with rfl | rfl | rfl | rfl | rfl | rfl | rfl | rfl | rfl | rfl | rfl | rfl <;>
      norm_num [Cube.arrVert, Vec3.dot, Vec3.cross, Vec3.sub] <;> linarith

theorem getTriangles_time0_c7 (rot : Vec3) :
    ((⟨⟨0, 3, 6⟩, rot⟩ : Cube).update 0).getTriangles (Render.camera 0)
      = [(0, 1, 2, 0.2), (2, 3, 0, 0.2), (4, 0, 3, 0.5), (3, 7, 4, 0.5), (4, 5, 1, 0.6), (1, 0, 4, 0.6)].map
        (Cube.record ((⟨⟨0, 3, 6⟩, rot⟩ : Cube).update 0) (Render.camera 0)) := by
  apply getTriangles_time0
  · decide!
  · intro f hf
    obtain ⟨hs1, hs2⟩ := sin_5e8_bounds
    obtain ⟨hw1, hw2⟩ := sqrt3_bounds
    have hp1 : Real.sqrt 3 * Real.sin 500000000 < 1.732 * -0.28432 := by nlinarith
    have hp2 : 1.7321 * -0.28505 < Real.sqrt 3 * Real.sin 500000000 := by nlinarith
    rw [facesCamera_time0, camera_time0]
    simp only [Cube.faces, List.mem_cons, List.mem_singleton, List.not_mem_nil, or_false] at hf
    rcases hf with rfl | rfl | rfl | rfl | rfl | rfl | rfl | rfl | rfl | rfl | rfl | rfl <;>
      norm_num [Cube.arrVert, Vec3.dot, Vec3.cross, Vec3.sub] <;> linarith

theorem getTriangles_time0_c8 (rot : Vec3) :
    ((⟨⟨3, 3, 6⟩, rot⟩ : Cube).update 0).getTriangles (Render.camera 0)
      = [(0, 1, 2, 0.2), (2, 3, 0, 0.2), (4, 0, 3, 0.5), (3, 7, 4, 0.5), (4, 5, 1, 0.6), (1, 0, 4, 0.6)].map
        (Cube.record ((⟨⟨3, 3, 6⟩, rot⟩ : Cube).update 0) (Render.camera 0)) := by
  apply getTriangles_time0
  · decide!
  · intro f hf
    obtain ⟨hs1, hs2⟩ := sin_5e8_bounds
    obtain ⟨hw1, hw2⟩ := sqrt3_bounds
    have hp1 : Real.sqrt 3 * Real.sin 500000000 < 1.732 * -0.28432 := by nlinarith
    have hp2 : 1.7321 * -0.28505 < Real.sqrt 3 * Real.sin 500000000 := by nlinarith
    rw [facesCamera_time0, camera_time0]
    simp only [Cube.faces, List.mem_cons, List.mem_singleton, List.not_mem_nil, or_false] at hf
    rcases hf with rfl | rfl | rfl | rfl | rfl | rfl | rfl | rfl | rfl | rfl | rfl | rfl <;>
      norm_num [Cube.arrVert, Vec3.dot, Vec3.cross, Vec3.sub] <;> linarith

/-- The emission list of the frame with `_time = 0`: the scene of nine cubes seen from the
camera position of that frame. -/
theorem collect_wrapFrame :
    (Render.collect 0 (Render.camera 0) Render.scene0).2
      = Render.wrapFrameEmission.map Render.wrapFrameRecord := by
  unfold Render.scene0 Render.centres
  simp only [List.map_cons, List.map_nil, Render.collect]
  rw [getTriangles_time0_c0, getTriangles_time0_c1, getTriangles_time0_c2,
    getTriangles_time0_c3, getTriangles_time0_c4, getTriangles_time0_c5,
    getTriangles_time0_c6, getTriangles_time0_c7, getTriangles_time0_c8]
  rfl

theorem centres_getD_z (n : Nat) : (Render.centres.getD n ⟨0, 0, 6⟩).z = 6 := by
  by_cases h : n < Render.centres.length
  · rw [List.getD_eq_getElem _ _ h]
    exact centres_z _ (List.getElem_mem h)
  · rw [List.getD_eq_default _ _ (not_lt.mp h)]

/-- In the frame with `_time = 0` the depth of a record is the template depth of its third
vertex plus 2. -/
theorem wrapFrameRecord_dist (e : Nat × (Fin 8 × Fin 8 × Fin 8 × ℚ)) :
    (Render.wrapFrameRecord e).distFromCamera = (Cube.arrVert e.2.2.2.1).z + 2 := by
  unfold Render.wrapFrameRecord Cube.record Cube.shade
  simp only
  rw [matPfc_time0, camera_time0, centres_getD_z]
  norm_num

theorem wrapFrame_comp (a b : Nat × (Fin 8 × Fin 8 × Fin 8 × ℚ)) :
    decide ((Render.wrapFrameRecord a).distFromCamera > (Render.wrapFrameRecord b).distFromCamera)
      = Render.wrapFrameComp a b := by
  rw [wrapFrameRecord_dist, wrapFrameRecord_dist]
  unfold Render.wrapFrameComp
  generalize a.2.2.2.1 = ka
  generalize b.2.2.2.1 = kb
  rw [decide_eq_decide]
  fin_cases ka <;> fin_cases kb <;> norm_num [Cube.arrVert]

theorem wrapFrame_far (e : Nat × (Fin 8 × Fin 8 × Fin 8 × ℚ)) :
    decide ((Render.wrapFrameRecord e).distFromCamera = 2.5) = decide (4 ≤ e.2.2.2.1.val) := by
  rw [wrapFrameRecord_dist]
  generalize e.2.2.2.1 = k
  rw [decide_eq_decide]
  fin_cases k <;> norm_num [Cube.arrVert]

/-- The sorted list of the frame with `_time = 0`, through the sort of the pairs of cube and
face. -/
theorem sortTriangles_wrapFrame :
    Render.sortTriangles (Render.wrapFrameEmission.map Render.wrapFrameRecord)
      = (stdSort Render.wrapFrameComp Render.wrapFrameEmission).map Render.wrapFrameRecord :=
  stdSort_map Render.wrapFrameRecord Render.wrapFrameComp _ wrapFrame_comp
    Render.wrapFrameEmission

set_option maxRecDepth 100000 in
/-- Among the records of depth 2.5 the first one emitted is the face `(1, 5, 6)` of the first
cube. -/
theorem wrapFrame_far_head :
    (Render.wrapFrameEmission.filter (fun e => decide (4 ≤ e.2.2.2.1.val))).head?
      = some (0, (1, 5, 6, 0.3)) := by
  decide!

set_option maxRecDepth 100000 in
/-- Among the records of depth 2.5 the first one after the sort is the face `(1, 0, 4)` of the
last cube. -/
theorem wrapFrame_sorted_far_head :
    ((stdSort Render.wrapFrameComp Render.wrapFrameEmission).filter
        (fun e => decide (4 ≤ e.2.2.2.1.val))).head?
      = some (8, (1, 0, 4, 0.6)) := by
  decide!

theorem wrapFrameRecord_ne :
    Render.wrapFrameRecord (8, (1, 0, 4, 0.6)) ≠ Render.wrapFrameRecord (0, (1, 5, 6, 0.3)) := by
  intro h
  have h1 := congrArg (fun t => t.p1.x) h
  simp only [Render.wrapFrameRecord, Cube.record, Cube.shade, Cube.projectedVertices] at h1
  rw [matPfc_time0, matPfc_time0, camera_time0] at h1
  norm_num [Render.centres, Cube.arrVert] at h1
  rw [div_left_inj' (by norm_num)] at h1
  linarith

/-- C12 (as stated) fails in the frame in which the 32-bit frame counter wraps to 0: the
cubes are turned by 30 degrees about the z axis, the camera is at `(0, 4 sin(5e8), 4)`, and
every record has depth 1.5 or 2.5. Of the 17 records of depth 2.5 the first one emitted is the
face `(1, 5, 6)` of the first cube; after the sort the first one is the face `(1, 0, 4)` of the
last cube, the last record emitted. -/
theorem sort_not_stable :
    ¬ StableOrder (Render.collect 0 (Render.camera 0) Render.scene0).2
        (Render.perFrame ⟨4294967295, Render.scene0⟩).2 := by
  intro h
  have ht : (4294967295 + 1) % 2 ^ 32 = 0 := by norm_num
  have h1 := h 2.5
  simp only [Render.perFrame, ht] at h1
  rw [collect_wrapFrame, sortTriangles_wrapFrame, List.filter_map, List.filter_map] at h1
  have hf : (fun t => decide (t.distFromCamera = 2.5)) ∘ Render.wrapFrameRecord
      = fun e => decide (4 ≤ e.2.2.2.1.val) := by
    funext e
    exact wrapFrame_far e
  rw [hf] at h1
  have h2 := congrArg List.head? h1
  rw [List.head?_map, List.head?_map, wrapFrame_far_head, wrapFrame_sorted_far_head] at h2
  exact wrapFrameRecord_ne (Option.some.inj h2)

end Blackboard
